import Mathlib

/-!
# DFHT: Discrete Fast Hartley Transform (joembedded/DFHT)

A shallow embedding of `src/dfht_lib.c` (and of the slow reference synthesis of
the demo `src/dfht.c`) and theorems about it.

* `float` values are elements of an arbitrary field `α` (the claims are about
  exact arithmetic); the definitions are polymorphic and executable for
  `α = ℚ`, the theorems about trigonometry are stated for `α = ℝ`.
* `uint16_t` / `uint8_t` variables are natural numbers reduced modulo
  `2^16` / `2^8` at every assignment.
* every C loop is the combinator `loop` driven by a fuel bound: `none` is
  "did not finish within the fuel" or "trapped" (an access outside an array,
  a division by zero).
* the three static or caller arrays `pdaten`, `work_buf`, `sinfunc` and the
  flag `init` form the memory `Mem`; a C pointer is a buffer name `Buf`
  together with an offset.
-/

namespace DFHT

/-! ## Machine integers and loops -/

/-- Value stored by an assignment to a `uint16_t` variable. -/
def u16 (n : Nat) : Nat := n % 65536

/-- Value stored by an assignment to a `uint8_t` variable. -/
def u8 (n : Nat) : Nat := n % 256

/-- The C loop `while (cond) body`, run for at most `fuel` tests of `cond`. -/
def loop {σ : Type} (cond : σ → Bool) (body : σ → Option σ) : Nat → σ → Option σ
  | 0, _ => none
  | fuel + 1, s => if cond s then (body s).bind (loop cond body fuel) else some s

/-- The preprocessor chain of `dfht_lib.c` lines 75-105: `DATA_BITS` for a
given `DATA_SIZE`, `none` standing for `#error "DATA_SIZE Error"`. -/
def DATA_BITS (DATA_SIZE : Nat) : Option Nat :=
  if DATA_SIZE = 8 then some 3
  else if DATA_SIZE = 16 then some 4
  else if DATA_SIZE = 32 then some 5
  else if DATA_SIZE = 64 then some 6
  else if DATA_SIZE = 128 then some 7
  else if DATA_SIZE = 256 then some 8
  else if DATA_SIZE = 512 then some 9
  else if DATA_SIZE = 1024 then some 10
  else if DATA_SIZE = 2048 then some 11
  else if DATA_SIZE = 4096 then some 12
  else if DATA_SIZE = 8192 then some 13
  else if DATA_SIZE = 16384 then some 14
  else if DATA_SIZE = 32768 then some 15
  else if DATA_SIZE = 65536 then some 16
  else none

/-- `NEL_d2`, i.e. `DATA_SIZE/2`. -/
def NEL_d2 (NEL : Nat) : Nat := NEL / 2

/-- `NEL_d4`, i.e. `DATA_SIZE/4`. -/
def NEL_d4 (NEL : Nat) : Nat := NEL / 4

/-! ## Memory -/

/-- The two `float[DATA_SIZE]` arrays a stage pointer can point into. -/
inductive Buf
  | pdaten
  | work_buf
  deriving DecidableEq, Repr

/-- The arrays and the flag `dfht_do` works on: the caller's `pdaten`, and the
statics `work_buf`, `sinfunc`, `init`. -/
structure Mem (α : Type) where
  pdaten : Nat → α
  work_buf : Nat → α
  sinfunc : Nat → α
  init : Nat

variable {α : Type}

/-- Contents of one of the two data arrays. -/
def Mem.get (m : Mem α) : Buf → Nat → α
  | .pdaten => m.pdaten
  | .work_buf => m.work_buf

/-- Replace the contents of one of the two data arrays. -/
def Mem.set (m : Mem α) (b : Buf) (f : Nat → α) : Mem α :=
  match b with
  | .pdaten => { m with pdaten := f }
  | .work_buf => { m with work_buf := f }

/-- Read `b[i]` of a `float[NEL]` array; an index outside the array traps. -/
def Mem.rd (NEL : Nat) (m : Mem α) (b : Buf) (i : Nat) : Option α :=
  if i < NEL then some (m.get b i) else none

/-- Write `b[i] = v` of a `float[NEL]` array; an index outside the array traps. -/
def Mem.wr (NEL : Nat) (m : Mem α) (b : Buf) (i : Nat) (v : α) : Option (Mem α) :=
  if i < NEL then some (m.set b (Function.update (m.get b) i v)) else none

/-- Read `sinfunc[i]`, an array of `3 * NEL_d4 + 1` floats. -/
def Mem.rdsin (NEL : Nat) (m : Mem α) (i : Nat) : Option α :=
  if i < 3 * NEL_d4 NEL + 1 then some (m.sinfunc i) else none

/-- Write `sinfunc[i] = v`. -/
def Mem.wrsin (NEL : Nat) (m : Mem α) (i : Nat) (v : α) : Option (Mem α) :=
  if i < 3 * NEL_d4 NEL + 1 then some { m with sinfunc := Function.update m.sinfunc i v }
  else none

/-! ## init_dfht -/

/-- Loop state of `init_dfht`. -/
structure InitSt (α : Type) where
  i : Nat
  m : Mem α

/-- `init_dfht` (lines 127-135). `sin` and `M_TWO_PI` are the C library's. -/
def init_dfht [Field α] (NEL : Nat) (sin : α → α) (M_TWO_PI : α) (fuel : Nat)
    (m : Mem α) : Option (Mem α) :=
  if m.init ≠ 0 then some m
  else
    (loop (fun s : InitSt α => decide (s.i < 3 * NEL_d4 NEL + 1))
      (fun s => do
        let m1 ← s.m.wrsin NEL s.i (sin (((s.i : α) * M_TWO_PI) / (NEL : α)))
        some { i := u16 (s.i + 1), m := m1 })
      fuel { i := 0, m := { m with init := 1 } }).map (fun s => s.m)

/-! ## bit_reverse -/

/-- State of the inner loop of `bit_reverse`. -/
structure BitSt where
  bits : Nat
  ind_s : Nat
  ind_r : Nat
  deriving DecidableEq, Repr

/-- The inner loop of `bit_reverse` (lines 147-153): the reversed index. -/
def reverse_index (DATA_BITS : Nat) (fuel : Nat) (NEL_cnt : Nat) : Option Nat :=
  (loop (fun s : BitSt => decide (s.bits < DATA_BITS))
    (fun s =>
      let r1 := u16 (s.ind_r <<< 1)
      let r2 := if s.ind_s &&& 1 ≠ 0 then u16 (r1 + 1) else r1
      some { bits := u8 (s.bits + 1), ind_s := u16 (s.ind_s >>> 1), ind_r := r2 })
    fuel { bits := 0, ind_s := NEL_cnt, ind_r := 0 }).map (fun s => s.ind_r)

/-- Loop state of the outer loop of `bit_reverse`. -/
structure RevSt (α : Type) where
  NEL_cnt : Nat
  m : Mem α

/-- `bit_reverse(pfeld)` (lines 139-160). -/
def bit_reverse (NEL DATA_BITS : Nat) (fuel : Nat) (pfeld : Buf) (m : Mem α) :
    Option (Mem α) :=
  (loop (fun s : RevSt α => decide (s.NEL_cnt < NEL))
    (fun s => do
      let ind_r ← reverse_index DATA_BITS fuel s.NEL_cnt
      if ind_r > s.NEL_cnt then do
        let swap_tmp ← s.m.rd NEL pfeld ind_r
        let v ← s.m.rd NEL pfeld s.NEL_cnt
        let m1 ← s.m.wr NEL pfeld ind_r v
        let m2 ← m1.wr NEL pfeld s.NEL_cnt swap_tmp
        some { NEL_cnt := u16 (s.NEL_cnt + 1), m := m2 }
      else
        some { NEL_cnt := u16 (s.NEL_cnt + 1), m := s.m })
    fuel { NEL_cnt := 0, m := m }).map (fun s => s.m)

/-! ## The butterfly stages -/

/-- Loop state of `stage_1` and `stage_2`: the counter and the two running
pointers (as offsets into their arrays). -/
structure StageSt (α : Type) where
  NEL_cnt : Nat
  sfeld : Nat
  dfeld : Nat
  m : Mem α

/-- `stage_1(sfeld, dfeld)` (lines 164-175); `src`, `dst` name the arrays the
two pointers point to (they may be the same array). -/
def stage_1 [Field α] (NEL : Nat) (fuel : Nat) (src dst : Buf) (m : Mem α) :
    Option (Mem α) :=
  (loop (fun s : StageSt α => decide (s.NEL_cnt < NEL))
    (fun s => do
      let f0 ← s.m.rd NEL src s.sfeld
      let f1 ← s.m.rd NEL src (s.sfeld + 1)
      let m1 ← s.m.wr NEL dst s.dfeld (f0 + f1)
      let m2 ← m1.wr NEL dst (s.dfeld + 1) (f0 - f1)
      some { NEL_cnt := u16 (s.NEL_cnt + 2), sfeld := s.sfeld + 2, dfeld := s.dfeld + 2,
             m := m2 })
    fuel { NEL_cnt := 0, sfeld := 0, dfeld := 0, m := m }).map (fun s => s.m)

/-- `stage_2(sfeld, dfeld)` (lines 176-189). -/
def stage_2 [Field α] (NEL : Nat) (fuel : Nat) (src dst : Buf) (m : Mem α) :
    Option (Mem α) :=
  (loop (fun s : StageSt α => decide (s.NEL_cnt < NEL))
    (fun s => do
      let f0 ← s.m.rd NEL src s.sfeld
      let f1 ← s.m.rd NEL src (s.sfeld + 1)
      let f2 ← s.m.rd NEL src (s.sfeld + 2)
      let f3 ← s.m.rd NEL src (s.sfeld + 3)
      let m1 ← s.m.wr NEL dst s.dfeld (f0 + f2)
      let m2 ← m1.wr NEL dst (s.dfeld + 1) (f1 + f3)
      let m3 ← m2.wr NEL dst (s.dfeld + 2) (f0 - f2)
      let m4 ← m3.wr NEL dst (s.dfeld + 3) (f1 - f3)
      some { NEL_cnt := u16 (s.NEL_cnt + 4), sfeld := s.sfeld + 4, dfeld := s.dfeld + 4,
             m := m4 })
    fuel { NEL_cnt := 0, sfeld := 0, dfeld := 0, m := m }).map (fun s => s.m)

/-- State of the inner loop of `stage_x`: the counter and the seven running
pointers (`ps1`, `pc1` into `sinfunc`, `pq1`, `pqc`, `pqs` into the source,
`pz1`, `pz2` into the destination). -/
structure InnerSt (α : Type) where
  i_cnt : Nat
  ps1 : Nat
  pc1 : Nat
  pq1 : Nat
  pqc : Nat
  pqs : Nat
  pz1 : Nat
  pz2 : Nat
  m : Mem α

/-- The body of the `i_cnt` loop of `stage_x` (lines 222-230). A pointer
moved below the start of its array traps. -/
def stage_x_inner [Field α] (NEL : Nat) (src dst : Buf) (tri_s : Nat) (s : InnerSt α) :
    Option (InnerSt α) := do
  let pc1 := s.pc1 + tri_s
  let ps1 := s.ps1 + tri_s
  -- dt = (*pqc++ * *pc1) + (*--pqs * *ps1);
  let qc ← s.m.rd NEL src s.pqc
  let vc ← s.m.rdsin NEL pc1
  let pqs ← if 0 < s.pqs then some (s.pqs - 1) else none
  let qs ← s.m.rd NEL src pqs
  let vs ← s.m.rdsin NEL ps1
  let dt := (qc * vc) + (qs * vs)
  -- *pz1++ = *pq1 + dt;
  let q1 ← s.m.rd NEL src s.pq1
  let m1 ← s.m.wr NEL dst s.pz1 (q1 + dt)
  -- *pz2++ = *pq1++ - dt;
  let q1b ← m1.rd NEL src s.pq1
  let m2 ← m1.wr NEL dst s.pz2 (q1b - dt)
  some { i_cnt := u16 (s.i_cnt + 1), ps1 := ps1, pc1 := pc1, pq1 := s.pq1 + 1,
         pqc := s.pqc + 1, pqs := pqs, pz1 := s.pz1 + 1, pz2 := s.pz2 + 1, m := m2 }

/-- The first butterfly of a block of `stage_x` (lines 209-219): the pointer
set-up and the two statements marked `Exeption 1`. -/
def stage_x_first [Field α] (NEL : Nat) (src dst : Buf) (stub stub_d2 : Nat)
    (sfeld dfeld : Nat) (m : Mem α) : Option (InnerSt α) := do
  let ps1 := 0
  let pc1 := NEL_d4 NEL
  let pz1 := dfeld
  let pz2 := dfeld + stub_d2
  let pq1 := sfeld
  let pqc := sfeld + stub_d2
  let pqs := sfeld + stub
  -- *pz1++ = *pq1 + *pqc;
  let a ← m.rd NEL src pq1
  let c ← m.rd NEL src pqc
  let m1 ← m.wr NEL dst pz1 (a + c)
  -- *pz2++ = *pq1++ - *pqc++;
  let a2 ← m1.rd NEL src pq1
  let c2 ← m1.rd NEL src pqc
  let m2 ← m1.wr NEL dst pz2 (a2 - c2)
  some { i_cnt := 1, ps1 := ps1, pc1 := pc1, pq1 := pq1 + 1, pqc := pqc + 1, pqs := pqs,
         pz1 := pz1 + 1, pz2 := pz2 + 1, m := m2 }

/-- One block of `stage_x` (lines 209-231): the body of the `n_cnt` loop up to
the pointer advance. -/
def stage_x_block [Field α] (NEL : Nat) (fuel : Nat) (src dst : Buf)
    (stub stub_d2 tri_s : Nat) (sfeld dfeld : Nat) (m : Mem α) : Option (Mem α) := do
  let s0 ← stage_x_first NEL src dst stub stub_d2 sfeld dfeld m
  (loop (fun s : InnerSt α => decide (s.i_cnt < stub_d2))
    (stage_x_inner NEL src dst tri_s) fuel s0).map (fun s => s.m)

/-- `stage_x(sfeld, dfeld, ist_x)` (lines 191-236). The division
`NEL / stub` traps when `stub` is zero. -/
def stage_x [Field α] (NEL : Nat) (fuel : Nat) (src dst : Buf) (ist_x : Nat)
    (m : Mem α) : Option (Mem α) :=
  let stub := u16 (1 <<< ist_x)
  let stub_d2 := u16 (stub >>> 1)
  if stub = 0 then none
  else
    let tri_s := u16 (NEL / stub)
    (loop (fun s : StageSt α => decide (s.NEL_cnt < NEL))
      (fun s => do
        let m1 ← stage_x_block NEL fuel src dst stub stub_d2 tri_s s.sfeld s.dfeld s.m
        some { NEL_cnt := u16 (s.NEL_cnt + stub), sfeld := s.sfeld + stub,
               dfeld := s.dfeld + stub, m := m1 })
      fuel { NEL_cnt := 0, sfeld := 0, dfeld := 0, m := m }).map (fun s => s.m)

/-! ## dfht_do -/

/-- Loop state of the stage loop of `dfht_do`: the stage counter `i` and the
two toggling buffer pointers `z0`, `z1`. -/
structure DoSt (α : Type) where
  i : Nat
  z0 : Buf
  z1 : Buf
  m : Mem α

/-- Loop state of the normalisation loop of `dfht_do`. -/
structure NormSt (α : Type) where
  j : Nat
  m : Mem α

/-- The permutation and the butterfly cascade of `dfht_do` (lines 253-282),
everything before the normalisation. -/
def dfht_cascade [Field α] (NEL DATA_BITS : Nat) (sin : α → α) (M_TWO_PI : α)
    (fuel : Nat) (m : Mem α) : Option (Mem α) := do
  let m0 ← init_dfht NEL sin M_TWO_PI fuel m
  let m1 ← bit_reverse NEL DATA_BITS fuel .pdaten m0
  let (m2, z0, z1) ←
    if DATA_BITS &&& 1 ≠ 0 then
      (stage_1 NEL fuel .pdaten .pdaten m1).map (fun r => (r, Buf.work_buf, Buf.pdaten))
    else
      (stage_1 NEL fuel .pdaten .work_buf m1).map (fun r => (r, Buf.pdaten, Buf.work_buf))
  let m3 ← stage_2 NEL fuel z1 z0 m2
  (loop (fun s : DoSt α => decide (s.i ≤ DATA_BITS))
    (fun s => do
      let r ← stage_x NEL fuel s.z0 s.z1 s.i s.m
      some { i := u8 (s.i + 1), z0 := s.z1, z1 := s.z0, m := r })
    fuel { i := 3, z0 := z0, z1 := z1, m := m3 }).map (fun s => s.m)

/-- `dfht_do(pdaten, richtung)` (lines 245-292): `m.pdaten` is the caller's
array. -/
def dfht_do [Field α] (NEL DATA_BITS : Nat) (sin : α → α) (M_TWO_PI : α)
    (fuel : Nat) (m : Mem α) (richtung : Nat) : Option (Mem α) := do
  let m4 ← dfht_cascade NEL DATA_BITS sin M_TWO_PI fuel m
  if richtung = 0 then
    (loop (fun s : NormSt α => decide (s.j < NEL))
      (fun s => do
        let v ← s.m.rd NEL .pdaten s.j
        let m1 ← s.m.wr NEL .pdaten s.j (v / (NEL : α))
        some { j := u16 (s.j + 1), m := m1 })
      fuel { j := 0, m := m4 }).map (fun s => s.m)
  else some m4

/-! ## dfht_power -/

/-- Loop state of `dfht_power`. -/
structure PowSt (α : Type) where
  i : Nat
  maxp : α
  dfeld : Nat → α

/-- `dfht_power(sfeld, dfeld)` (lines 302-321): `sfeld` is a `float[NEL]`
array, `dfeld` a distinct `float[NEL/2]` array; the result is the new
contents of `dfeld` and the returned maximum. -/
def dfht_power [LinearOrderedField α] (NEL : Nat) (fuel : Nat) (sfeld dfeld : Nat → α) :
    Option ((Nat → α) × α) := do
  let rd := fun (i : Nat) => if i < NEL then some (sfeld i) else none
  let wr := fun (d : Nat → α) (i : Nat) (v : α) =>
    if i < NEL_d2 NEL then some (Function.update d i v) else none
  let s0 ← rd 0
  let d0 ← wr dfeld 0 (2 * s0 * s0)
  let maxp ← if 0 < NEL_d2 NEL then some (d0 0) else none
  (loop (fun s : PowSt α => decide (s.i < NEL_d2 NEL))
    (fun s => do
      let a ← rd s.i
      let b ← rd (NEL - s.i)
      let p := (a * a) + (b * b)
      let d1 ← wr s.dfeld s.i p
      some { i := u16 (s.i + 1), maxp := if p > s.maxp then p else s.maxp, dfeld := d1 })
    fuel { i := 1, maxp := maxp, dfeld := d0 }).map (fun s => (s.dfeld, s.maxp))

/-! ## The buffer toggling of dfht_do -/

/-- Loop state of the buffer toggling of `dfht_do` with the data left out: the
stage counter `i`, the pointers `z0`, `z1`, and the destination of the stage
run last. -/
structure PtrSt where
  i : Nat
  z0 : Buf
  z1 : Buf
  dest : Buf
  deriving DecidableEq, Repr

/-- The buffer toggling of `dfht_do` (lines 263-282) with every stage call
reduced to its destination argument: the destination of the last butterfly
stage run. -/
def last_stage_dest (DATA_BITS : Nat) (fuel : Nat) : Option Buf :=
  -- stage_1(pdaten, pdaten) or stage_1(pdaten, work_buf)
  let z0 := if DATA_BITS &&& 1 ≠ 0 then Buf.work_buf else Buf.pdaten
  let z1 := if DATA_BITS &&& 1 ≠ 0 then Buf.pdaten else Buf.work_buf
  -- stage_2(z1, z0), then stage_x(z0, z1, i) and the swap
  (loop (fun s : PtrSt => decide (s.i ≤ DATA_BITS))
    (fun s => some { i := u8 (s.i + 1), z0 := s.z1, z1 := s.z0, dest := s.z1 })
    fuel { i := 3, z0 := z0, z1 := z1, dest := z0 }).map (fun s => s.dest)

/-! ## The demo's slow Fourier synthesis (dfht.c) -/

/-- Loop state of the slow synthesis: the counter `i` and the running `sum`. -/
structure SlowSt (α : Type) where
  i : Nat
  sum : α

/-- The inner loop of the "Classical Slow Fourier Synthesis" of the demo
(`dfht.c` lines 164-183, a block compiled under `#if DATA_SIZE <= 64`) for one
sample `n`: `daten` is the `float[DATA_SIZE]` array that holds the Hartley
coefficients, `i` is a `uint16_t`, the result is the printed `sum`. -/
def slow_synthesis [Field α] (DATA_SIZE : Nat) (cos sin : α → α) (M_TWO_PI : α)
    (fuel : Nat) (daten : Nat → α) (n : Nat) : Option α :=
  let rd := fun (i : Nat) => if i < DATA_SIZE then some (daten i) else none
  (loop (fun s : SlowSt α => decide (s.i ≤ DATA_SIZE / 2))
    (fun s => do
      let frq := (((n : α) * M_TWO_PI) * (s.i : α)) / (DATA_SIZE : α)
      let k ←
        if s.i = DATA_SIZE / 2 then (rd (DATA_SIZE / 2)).map (fun v => (v, (0 : α)))
        else if s.i ≠ 0 then do
          let a ← rd s.i
          let b ← rd (DATA_SIZE - s.i)
          some (a + b, a - b)
        else (rd 0).map (fun v => (v, (0 : α)))
      some { i := u16 (s.i + 1), sum := s.sum + (k.1 * cos frq + k.2 * sin frq) })
    fuel { i := 0, sum := 0 }).map (fun s => s.sum)

/-! ## Specification-side functions -/

/-- The value `dfht_power` stores in `dfeld[v]`. -/
def powerBin [LinearOrderedField α] (c : Nat → α) (N v : Nat) : α :=
  if v = 0 then 2 * c 0 * c 0 else c v * c v + c (N - v) * c (N - v)

/-- The running maximum `maxp` of `dfht_power` once bin `k` has been written. -/
def powerMax [LinearOrderedField α] (c : Nat → α) (N : Nat) : Nat → α
  | 0 => powerBin c N 0
  | k + 1 => if powerBin c N (k + 1) > powerMax c N k then powerBin c N (k + 1)
             else powerMax c N k

/-- The number whose low `B` bits are those of `i` in reverse order
(bit `k` of the result is bit `B-1-k` of `i`). -/
def reverse_bits : Nat → Nat → Nat
  | 0, _ => 0
  | b + 1, i => (i % 2) * 2 ^ b + reverse_bits b (i / 2)

/-- What `stage_1` leaves in `dest[j]` when the source held `a`. -/
def stage1F [Field α] (a : Nat → α) (j : Nat) : α :=
  if j % 2 = 0 then a j + a (j + 1) else a (j - 1) - a j

/-- What `stage_2` leaves in `dest[j]` when the source held `a`. -/
def stage2F [Field α] (a : Nat → α) (j : Nat) : α :=
  if j % 4 < 2 then a j + a (j + 2) else a (j - 2) - a j

/-- What `stage_x` with stage index `s` leaves in `dest[j]` when the source
held `a` and the sine table `tbl`: with `L = 2^s`, `h = L/2`, `n` the start of
the block of `j` and `i` the offset of `j` in its half block. -/
def stageXF [Field α] (N : Nat) (tbl : Nat → α) (s : Nat) (a : Nat → α) (j : Nat) : α :=
  let L := 2 ^ s
  let h := L / 2
  let n := j / L * L
  let i := j % h
  let corr := if i = 0 then a (n + h)
    else a (n + h + i) * tbl (N / 4 + i * (N / L)) + a (n + L - i) * tbl (i * (N / L))
  if j % L < h then a (n + i) + corr else a (n + i) - corr

/-- What stage `s` of the cascade leaves in its destination. -/
def stageF [Field α] (N : Nat) (tbl : Nat → α) (s : Nat) (a : Nat → α) : Nat → α :=
  if s = 1 then stage1F a else if s = 2 then stage2F a else stageXF N tbl s a

/-- The array that receives the output of stage `s ≥ 1` in `dfht_do`: the
caller's array when `DATA_BITS - s` is even. -/
def stageBuf (B s : Nat) : Buf := if (B + s) % 2 = 0 then .pdaten else .work_buf

/-- Contents of the array `stageBuf B s` after stage `s` of `dfht_do` (after the
permutation for `s = 0`, which is in `pdaten`), when `pdaten` held `x` and
`work_buf` held `w` at the call and the sine table is `tbl`. -/
def bufAfter [Field α] (N B : Nat) (tbl x w : Nat → α) : Nat → Nat → α
  | 0 => fun j => if j < N then x (reverse_bits B j) else x j
  | s + 1 => fun j =>
      if j < N then stageF N tbl (s + 1) (bufAfter N B tbl x w s) j
      else if (B + (s + 1)) % 2 = 0 then x j else w j

/-- The memory `init_dfht` leaves. -/
def initMem [Field α] (N : Nat) (sin : α → α) (M_TWO_PI : α) (m : Mem α) : Mem α :=
  if m.init ≠ 0 then m
  else { m with init := 1,
                sinfunc := fun i => if i < 3 * NEL_d4 N + 1
                  then sin (((i : α) * M_TWO_PI) / (N : α)) else m.sinfunc i }

/-- The memory the cascade of `dfht_do` leaves (before the normalisation). -/
def cascadeMem [Field α] (N B : Nat) (sin : α → α) (M_TWO_PI : α) (m : Mem α) : Mem α :=
  { pdaten := bufAfter N B (initMem N sin M_TWO_PI m).sinfunc m.pdaten m.work_buf B,
    work_buf := bufAfter N B (initMem N sin M_TWO_PI m).sinfunc m.pdaten m.work_buf (B - 1),
    sinfunc := (initMem N sin M_TWO_PI m).sinfunc,
    init := (initMem N sin M_TWO_PI m).init }

/-- The unnormalised discrete Hartley sum of `z` over `L` points at bin `k`,
for given cosine and sine functions. -/
def hartley [Field α] (cos sin : α → α) (two_pi : α) (L : Nat) (z : Nat → α) (k : Nat) : α :=
  ∑ t in Finset.range L,
    z t * (cos (two_pi * (k : α) * (t : α) / (L : α)) + sin (two_pi * (k : α) * (t : α) / (L : α)))

/-- The memory after the normalisation loop of `dfht_do`: the `N` elements of
`pdaten` divided by `N`. -/
def normMem [Field α] (N : Nat) (m : Mem α) : Mem α :=
  { m with pdaten := fun j => if j < N then m.pdaten j / (N : α) else m.pdaten j }

/-- The sine table is valid: once the flag `init` is set, entry `i` of
`sinfunc` is `sin(2πi/N)` for every `i` in `[0, 3N/4]`. (The flag is clear at
program start and only `init_dfht` sets it.) -/
def TableReady (N : Nat) (m : Mem ℝ) : Prop :=
  m.init ≠ 0 → ∀ i, i < 3 * NEL_d4 N + 1 →
    m.sinfunc i = Real.sin (((i : ℝ) * (2 * Real.pi)) / (N : ℝ))

/-- The sine table is consistent with the flag, for any field and any `sin`:
once `init` is set, entry `i` of `sinfunc` is what `init_dfht` stores there,
for every `i` in `[0, 3N/4]`. -/
def TableValid [Field α] (N : Nat) (sin : α → α) (M_TWO_PI : α) (m : Mem α) : Prop :=
  m.init ≠ 0 → ∀ i, i < 3 * NEL_d4 N + 1 →
    m.sinfunc i = sin (((i : α) * M_TWO_PI) / (N : α))

/-- The cosine coefficient `k_cos` the slow synthesis forms for index `i` from
the Hartley coefficients `daten`. -/
def k_cos [Field α] (N : Nat) (daten : Nat → α) (i : Nat) : α :=
  if i = N / 2 then daten (N / 2) else if i ≠ 0 then daten i + daten (N - i) else daten 0

/-- The sine coefficient `k_sin` the slow synthesis forms for index `i` from
the Hartley coefficients `daten`. -/
def k_sin [Field α] (N : Nat) (daten : Nat → α) (i : Nat) : α :=
  if i = N / 2 then 0 else if i ≠ 0 then daten i - daten (N - i) else 0

/-! # Theorems -/

/-! ## Loops -/

theorem loop_iterate_from {σ : Type} (cond : σ → Bool) (body : σ → Option σ) (f : Nat → σ)
    (n : Nat) (hstep : ∀ k, k < n → cond (f k) = true ∧ body (f k) = some (f (k + 1)))
    (hexit : cond (f n) = false) :
    ∀ (d k fuel : Nat), k + d = n → d < fuel → loop cond body fuel (f k) = some (f n) := by
  intro d
  induction d with
  | zero =>
    intro k fuel hk hf
    obtain ⟨g, rfl⟩ : ∃ g, fuel = g + 1 := ⟨fuel - 1, by omega⟩
    have : k = n := by omega
    subst this
    simp [loop, hexit]
  | succ d ih =>
    intro k fuel hk hf
    obtain ⟨g, rfl⟩ : ∃ g, fuel = g + 1 := ⟨fuel - 1, by omega⟩
    obtain ⟨hc, hb⟩ := hstep k (by omega)
    simp only [loop, hc, hb, if_true, Option.some_bind]
    exact ih (k + 1) g (by omega) (by omega)

/-- A loop whose states follow the sequence `f` and whose test first fails at
`f n` returns `f n` as soon as the fuel exceeds `n`. -/
theorem loop_iterate {σ : Type} (cond : σ → Bool) (body : σ → Option σ) (f : Nat → σ)
    (n : Nat) (hstep : ∀ k, k < n → cond (f k) = true ∧ body (f k) = some (f (k + 1)))
    (hexit : cond (f n) = false) (fuel : Nat) (hf : n < fuel) :
    loop cond body fuel (f 0) = some (f n) :=
  loop_iterate_from cond body f n hstep hexit n 0 fuel (by omega) hf

/-- A loop whose test holds for the first `n` states does not return on fuel
`n` or less. -/
theorem loop_short {σ : Type} (cond : σ → Bool) (body : σ → Option σ) (J : Nat → σ → Prop)
    (n : Nat)
    (h : ∀ k s, J k s → k < n → cond s = true ∧ ∀ s', body s = some s' → J (k + 1) s') :
    ∀ (fuel k : Nat) (s : σ), J k s → k + fuel ≤ n → loop cond body fuel s = none := by
  intro fuel
  induction fuel with
  | zero => intro k s _ _; rfl
  | succ g ih =>
    intro k s hJ hk
    obtain ⟨hc, hb⟩ := h k s hJ (by omega)
    simp only [loop, hc, if_true]
    cases hbs : body s with
    | none => rfl
    | some s' => exact ih (k + 1) s' (hb s' hbs) (by omega)

/-- A loop with an invariant that implies its test never returns. -/
theorem loop_diverges {σ : Type} (cond : σ → Bool) (body : σ → Option σ) (I : σ → Prop)
    (h : ∀ s, I s → cond s = true ∧ ∀ s', body s = some s' → I s')
    (fuel : Nat) (s : σ) (hs : I s) : loop cond body fuel s = none :=
  loop_short cond body (fun _ s => I s) fuel (fun _ s hI _ => h s hI) fuel 0 s hs (by omega)

theorem u16_of_lt {n : Nat} (h : n < 65536) : u16 n = n := Nat.mod_eq_of_lt h

theorem u8_of_lt {n : Nat} (h : n < 256) : u8 n = n := Nat.mod_eq_of_lt h

/-! ## Supported sizes -/

theorem DATA_BITS_spec {N B : Nat} (h : DATA_BITS N = some B) :
    N = 2 ^ B ∧ 3 ≤ B ∧ B ≤ 16 := by
  unfold DATA_BITS at h
  by_cases h3 : N = 8
  · rw [if_pos h3] at h; cases h; subst h3; norm_num
  rw [if_neg h3] at h
  by_cases h4 : N = 16
  · rw [if_pos h4] at h; cases h; subst h4; norm_num
  rw [if_neg h4] at h
  by_cases h5 : N = 32
  · rw [if_pos h5] at h; cases h; subst h5; norm_num
  rw [if_neg h5] at h
  by_cases h6 : N = 64
  · rw [if_pos h6] at h; cases h; subst h6; norm_num
  rw [if_neg h6] at h
  by_cases h7 : N = 128
  · rw [if_pos h7] at h; cases h; subst h7; norm_num
  rw [if_neg h7] at h
  by_cases h8 : N = 256
  · rw [if_pos h8] at h; cases h; subst h8; norm_num
  rw [if_neg h8] at h
  by_cases h9 : N = 512
  · rw [if_pos h9] at h; cases h; subst h9; norm_num
  rw [if_neg h9] at h
  by_cases h10 : N = 1024
  · rw [if_pos h10] at h; cases h; subst h10; norm_num
  rw [if_neg h10] at h
  by_cases h11 : N = 2048
  · rw [if_pos h11] at h; cases h; subst h11; norm_num
  rw [if_neg h11] at h
  by_cases h12 : N = 4096
  · rw [if_pos h12] at h; cases h; subst h12; norm_num
  rw [if_neg h12] at h
  by_cases h13 : N = 8192
  · rw [if_pos h13] at h; cases h; subst h13; norm_num
  rw [if_neg h13] at h
  by_cases h14 : N = 16384
  · rw [if_pos h14] at h; cases h; subst h14; norm_num
  rw [if_neg h14] at h
  by_cases h15 : N = 32768
  · rw [if_pos h15] at h; cases h; subst h15; norm_num
  rw [if_neg h15] at h
  by_cases h16 : N = 65536
  · rw [if_pos h16] at h; cases h; subst h16; norm_num
  rw [if_neg h16] at h
  cases h

theorem DATA_BITS_pow {B : Nat} (h3 : 3 ≤ B) (h16 : B ≤ 16) : DATA_BITS (2 ^ B) = some B := by
  interval_cases B <;> rfl

theorem DATA_BITS_bounds {N B : Nat} (h : DATA_BITS N = some B) : 8 ≤ N ∧ N ≤ 65536 := by
  obtain ⟨rfl, h3, h16⟩ := DATA_BITS_spec h
  constructor
  · calc 8 = 2 ^ 3 := by norm_num
      _ ≤ 2 ^ B := Nat.pow_le_pow_right (by norm_num) h3
  · calc 2 ^ B ≤ 2 ^ 16 := Nat.pow_le_pow_right (by norm_num) h16
      _ = 65536 := by norm_num

/-! ## dfht_power -/

theorem dfht_power_eq [LinearOrderedField α] (N fuel : Nat) (c out : Nat → α)
    (h2 : 2 ≤ N) (hN : N ≤ 65536) (hf : N / 2 ≤ fuel) :
    dfht_power N fuel c out =
      some (fun v => if v < N / 2 then powerBin c N v else out v, powerMax c N (N / 2 - 1)) := by
  have hd : 0 < N / 2 := by omega
  let f : Nat → PowSt α := fun k =>
    { i := k + 1, maxp := powerMax c N k,
      dfeld := fun v => if v ≤ k then powerBin c N v else out v }
  have h0 : (⟨1, Function.update out 0 (2 * c 0 * c 0) 0,
      Function.update out 0 (2 * c 0 * c 0)⟩ : PowSt α) = f 0 := by
    have e : Function.update out 0 (2 * c 0 * c 0) =
        fun v => if v ≤ 0 then powerBin c N v else out v := by
      funext v
      by_cases hv : v = 0 <;> simp [Function.update, hv, powerBin]
    simp only [f, powerMax]
    rw [e]
    simp [powerBin]
  unfold dfht_power
  simp only [NEL_d2, show 0 < N from by omega, hd, if_true, Option.bind_eq_bind,
    Option.some_bind, Option.pure_def]
  rw [h0]
  rw [loop_iterate _ _ f (N / 2 - 1) _ _ fuel (by omega)]
  · simp only [Option.map_some', f]
    congr 2
    funext v
    have : (v ≤ N / 2 - 1) ↔ v < N / 2 := by omega
    simp only [this]
  · intro k hk
    refine ⟨by simp [f]; omega, ?_⟩
    have h1 : k + 1 < N := by omega
    have h3 : N - (k + 1) < N := by omega
    have h4 : k + 1 < N / 2 := by omega
    simp only [f, h1, h3, h4, if_true, Option.bind_eq_bind, Option.some_bind, Option.pure_def]
    rw [u16_of_lt (by omega)]
    congr 2
    funext v
    by_cases hv : v = k + 1
    · subst hv; simp [powerBin]
    · have : (v ≤ k + 1) ↔ v ≤ k := by omega
      simp [Function.update, hv, this]
  · simp [f]; omega

theorem powerBin_nonneg [LinearOrderedField α] (c : Nat → α) (N v : Nat) :
    0 ≤ powerBin c N v := by
  unfold powerBin
  split
  · have := mul_self_nonneg (c 0)
    nlinarith
  · have h1 := mul_self_nonneg (c v)
    have h2 := mul_self_nonneg (c (N - v))
    linarith

theorem powerMax_ge [LinearOrderedField α] (c : Nat → α) (N : Nat) :
    ∀ k w, w ≤ k → powerBin c N w ≤ powerMax c N k := by
  intro k
  induction k with
  | zero => intro w hw; have : w = 0 := by omega
            subst this; exact le_refl _
  | succ k ih =>
    intro w hw
    simp only [powerMax]
    by_cases hlt : powerBin c N (k + 1) > powerMax c N k
    · rw [if_pos hlt]
      rcases Nat.lt_or_ge w (k + 1) with h | h
      · exact le_trans (ih w (by omega)) (le_of_lt hlt)
      · have : w = k + 1 := by omega
        subst this; exact le_refl _
    · rw [if_neg hlt]
      rcases Nat.lt_or_ge w (k + 1) with h | h
      · exact ih w (by omega)
      · have : w = k + 1 := by omega
        subst this; exact not_lt.mp hlt

theorem powerMax_mem [LinearOrderedField α] (c : Nat → α) (N : Nat) :
    ∀ k, ∃ v, v ≤ k ∧ powerMax c N k = powerBin c N v := by
  intro k
  induction k with
  | zero => exact ⟨0, le_refl _, rfl⟩
  | succ k ih =>
    simp only [powerMax]
    by_cases hlt : powerBin c N (k + 1) > powerMax c N k
    · rw [if_pos hlt]; exact ⟨k + 1, le_refl _, rfl⟩
    · rw [if_neg hlt]
      obtain ⟨v, hv, he⟩ := ih
      exact ⟨v, by omega, he⟩

/-- C5. For every supported size `N` (`DATA_BITS N = some B`) and enough fuel,
`dfht_power(c, out)` returns, having written `out[0] = 2 * c[0]^2` and
`out[v] = c[v]^2 + c[N-v]^2` for `1 ≤ v < N/2`; the entries of `out` from
`N/2` on keep their old value, the `N/2` written entries do not depend on the
old contents of `out`, and nothing depends on `c[N/2]`. -/
theorem dfht_power_bins [LinearOrderedField α] (N B fuel : Nat) (c out : Nat → α)
    (hN : DATA_BITS N = some B) (hf : N / 2 ≤ fuel) :
    ∃ out' mx, dfht_power N fuel c out = some (out', mx) ∧
      out' 0 = 2 * c 0 ^ 2 ∧
      (∀ v, 1 ≤ v → v < N / 2 → out' v = c v ^ 2 + c (N - v) ^ 2) ∧
      (∀ v, N / 2 ≤ v → out' v = out v) ∧
      (∀ out2, ∃ o2, dfht_power N fuel c out2 = some (o2, mx) ∧
        ∀ v, v < N / 2 → o2 v = out' v) ∧
      (∀ c', (∀ i, i ≠ N / 2 → c' i = c i) → dfht_power N fuel c' out = some (out', mx)) := by
  obtain ⟨h8, h65⟩ := DATA_BITS_bounds hN
  refine ⟨_, _, dfht_power_eq N fuel c out (by omega) h65 hf, ?_, ?_, ?_, ?_, ?_⟩
  · simp only [show 0 < N / 2 from by omega, if_true, powerBin]; ring
  · intro v h1 h2
    simp only [h2, if_true, powerBin, show v ≠ 0 from by omega, if_false]; ring
  · intro v hv
    simp only [show ¬ v < N / 2 from by omega, if_false]
  · intro out2
    refine ⟨_, dfht_power_eq N fuel c out2 (by omega) h65 hf, ?_⟩
    intro v hv
    simp only [hv, if_true]
  · intro c' hc
    rw [dfht_power_eq N fuel c' out (by omega) h65 hf]
    have hb : ∀ v, v < N / 2 → powerBin c' N v = powerBin c N v := by
      intro v hv
      unfold powerBin
      rw [hc 0 (by omega), hc v (by omega), hc (N - v) (by omega)]
    have hm : ∀ k, k < N / 2 → powerMax c' N k = powerMax c N k := by
      intro k
      induction k with
      | zero => intro h; simp only [powerMax]; exact hb 0 h
      | succ k ih =>
        intro h
        simp only [powerMax]
        rw [hb (k + 1) h, ih (by omega)]
    rw [hm (N / 2 - 1) (by omega)]
    congr 2
    funext v
    by_cases hv : v < N / 2
    · simp only [hv, if_true]; exact hb v hv
    · simp only [hv, if_false]

theorem dfht_power_bins_witness :
    ∃ out' mx, dfht_power 8 4 (fun i => (i : ℚ)) (fun _ => 0) = some (out', mx) ∧
      out' 0 = 2 * ((0 : Nat) : ℚ) ^ 2 ∧
      (∀ v, 1 ≤ v → v < 8 / 2 → out' v = ((v : Nat) : ℚ) ^ 2 + ((8 - v : Nat) : ℚ) ^ 2) ∧
      (∀ v, 8 / 2 ≤ v → out' v = (fun _ => (0 : ℚ)) v) ∧
      (∀ out2, ∃ o2, dfht_power 8 4 (fun i => (i : ℚ)) out2 = some (o2, mx) ∧
        ∀ v, v < 8 / 2 → o2 v = out' v) ∧
      (∀ c' : Nat → ℚ, (∀ i : Nat, i ≠ 8 / 2 → c' i = (i : ℚ)) →
        dfht_power 8 4 c' (fun _ => 0) = some (out', mx)) :=
  dfht_power_bins 8 3 4 (fun i => (i : ℚ)) (fun _ => 0) (by decide) (by decide)

/-- C7. For every supported size and enough fuel, the value `dfht_power`
returns is one of the `N/2` values it wrote, no written value exceeds it, and
every written value is nonnegative. -/
theorem dfht_power_max [LinearOrderedField α] (N B fuel : Nat) (c out : Nat → α)
    (hN : DATA_BITS N = some B) (hf : N / 2 ≤ fuel) :
    ∃ out' mx, dfht_power N fuel c out = some (out', mx) ∧
      (∃ v, v < N / 2 ∧ mx = out' v) ∧
      (∀ w, w < N / 2 → out' w ≤ mx) ∧
      (∀ v, v < N / 2 → 0 ≤ out' v) := by
  obtain ⟨h8, h65⟩ := DATA_BITS_bounds hN
  refine ⟨_, _, dfht_power_eq N fuel c out (by omega) h65 hf, ?_, ?_, ?_⟩
  · obtain ⟨v, hv, he⟩ := powerMax_mem c N (N / 2 - 1)
    refine ⟨v, by omega, ?_⟩
    simp only [show v < N / 2 from by omega, if_true]
    exact he
  · intro w hw
    simp only [hw, if_true]
    exact powerMax_ge c N (N / 2 - 1) w (by omega)
  · intro v hv
    simp only [hv, if_true]
    exact powerBin_nonneg c N v

theorem dfht_power_max_witness :
    ∃ out' mx, dfht_power 8 4 (fun i => (i : ℚ) - 3) (fun _ => 0) = some (out', mx) ∧
      (∃ v, v < 8 / 2 ∧ mx = out' v) ∧
      (∀ w, w < 8 / 2 → out' w ≤ mx) ∧
      (∀ v, v < 8 / 2 → 0 ≤ out' v) :=
  dfht_power_max 8 3 4 (fun i => (i : ℚ) - 3) (fun _ => 0) (by decide) (by decide)

/-- C6 (header formula `P(0) = H(0)^2`, `P(v) = (H(v)^2 + H(N-v)^2)/2`): at
`N = 8` with all coefficients `1`, `dfht_power` stores `2` in bins `0` and `1`,
where the header's formulas give `1`. -/
theorem dfht_power_header_mismatch :
    ∃ out' mx, dfht_power 8 4 (fun _ => (1 : ℚ)) (fun _ => 0) = some (out', mx) ∧
      out' 0 = 2 ∧ out' 0 ≠ (1 : ℚ) ^ 2 ∧
      out' 1 = 2 ∧ out' 1 ≠ ((1 : ℚ) ^ 2 + (1 : ℚ) ^ 2) / 2 := by
  refine ⟨_, _, dfht_power_eq 8 4 (fun _ => (1 : ℚ)) (fun _ => 0) (by decide) (by decide)
    (by decide), ?_, ?_, ?_, ?_⟩ <;> norm_num [powerBin]

/-- `dfht_power` stores exactly twice the header's power spectrum in every bin. -/
theorem dfht_power_twice_header [LinearOrderedField α] (N B fuel : Nat) (c out : Nat → α)
    (hN : DATA_BITS N = some B) (hf : N / 2 ≤ fuel) :
    ∃ out' mx, dfht_power N fuel c out = some (out', mx) ∧
      out' 0 = 2 * (c 0 ^ 2) ∧
      (∀ v, 1 ≤ v → v < N / 2 → out' v = 2 * ((c v ^ 2 + c (N - v) ^ 2) / 2)) := by
  obtain ⟨h8, h65⟩ := DATA_BITS_bounds hN
  refine ⟨_, _, dfht_power_eq N fuel c out (by omega) h65 hf, ?_, ?_⟩
  · simp only [show 0 < N / 2 from by omega, if_true, powerBin]; ring
  · intro v h1 h2
    simp only [h2, if_true, powerBin, show v ≠ 0 from by omega, if_false]; ring

/-! ## DATA_SIZE = 65536: the 16-bit counters never reach NEL -/

theorem u16_lt (n : Nat) : u16 n < 65536 := Nat.mod_lt _ (by norm_num)

theorem bit_reverse_65536 (fuel : Nat) (pfeld : Buf) (m : Mem α) :
    bit_reverse 65536 16 fuel pfeld m = none := by
  unfold bit_reverse
  rw [loop_diverges _ _ (fun s : RevSt α => s.NEL_cnt < 65536) _ fuel _ (by simp)]
  · rfl
  · intro s hs
    refine ⟨by simpa using hs, ?_⟩
    intro s' h
    simp only [Option.bind_eq_bind, Option.bind_eq_some] at h
    obtain ⟨r, -, h⟩ := h
    split at h
    · simp only [Option.bind_eq_some] at h
      obtain ⟨_, -, _, -, _, -, _, -, h⟩ := h
      cases h
      exact u16_lt _
    · cases h
      exact u16_lt _

theorem stage_1_65536 [Field α] (fuel : Nat) (src dst : Buf) (m : Mem α) :
    stage_1 65536 fuel src dst m = none := by
  unfold stage_1
  rw [loop_diverges _ _ (fun s : StageSt α => s.NEL_cnt < 65536) _ fuel _ (by simp)]
  · rfl
  · intro s hs
    refine ⟨by simpa using hs, ?_⟩
    intro s' h
    simp only [Option.bind_eq_bind, Option.bind_eq_some] at h
    obtain ⟨_, -, _, -, _, -, _, -, h⟩ := h
    cases h
    exact u16_lt _

theorem stage_2_65536 [Field α] (fuel : Nat) (src dst : Buf) (m : Mem α) :
    stage_2 65536 fuel src dst m = none := by
  unfold stage_2
  rw [loop_diverges _ _ (fun s : StageSt α => s.NEL_cnt < 65536) _ fuel _ (by simp)]
  · rfl
  · intro s hs
    refine ⟨by simpa using hs, ?_⟩
    intro s' h
    simp only [Option.bind_eq_bind, Option.bind_eq_some] at h
    obtain ⟨_, -, _, -, _, -, _, -, _, -, _, -, _, -, _, -, h⟩ := h
    cases h
    exact u16_lt _

theorem stage_x_16_traps [Field α] (NEL fuel : Nat) (src dst : Buf) (m : Mem α) :
    stage_x NEL fuel src dst 16 m = none := by
  unfold stage_x
  simp [u16]

theorem dfht_cascade_65536 [Field α] (sin : α → α) (M_TWO_PI : α) (fuel : Nat) (m : Mem α) :
    dfht_cascade 65536 16 sin M_TWO_PI fuel m = none := by
  unfold dfht_cascade
  simp only [Option.bind_eq_bind, bit_reverse_65536, Option.none_bind]
  cases init_dfht 65536 sin M_TWO_PI fuel m <;> rfl

theorem dfht_do_65536 [Field α] (sin : α → α) (M_TWO_PI : α) (fuel : Nat) (m : Mem α)
    (richtung : Nat) : dfht_do 65536 16 sin M_TWO_PI fuel m richtung = none := by
  unfold dfht_do
  simp only [Option.bind_eq_bind, dfht_cascade_65536, Option.none_bind]

/-! ## bit_reverse -/

theorem reverse_bits_lt : ∀ (b i : Nat), reverse_bits b i < 2 ^ b := by
  intro b
  induction b with
  | zero => intro i; simp [reverse_bits]
  | succ b ih =>
    intro i
    have h1 := ih (i / 2)
    have h2 : i % 2 < 2 := Nat.mod_lt _ (by norm_num)
    have h3 : i % 2 * 2 ^ b ≤ 1 * 2 ^ b := Nat.mul_le_mul_right _ (by omega)
    simp only [reverse_bits, pow_succ]
    omega

/-- Peeling the high input bit: one more step of the shift loop. -/
theorem reverse_bits_step : ∀ (k j : Nat),
    reverse_bits (k + 1) j = 2 * reverse_bits k j + (j / 2 ^ k) % 2 := by
  intro k
  induction k with
  | zero => intro j; simp [reverse_bits]
  | succ k ih =>
    intro j
    have e : j / 2 ^ (k + 1) = j / 2 / 2 ^ k := by
      rw [pow_succ, Nat.mul_comm, Nat.div_div_eq_div_mul]
    rw [reverse_bits, ih (j / 2), e]
    simp only [reverse_bits, pow_succ]
    ring

theorem reverse_bits_even (b m : Nat) : reverse_bits (b + 1) (2 * m) = reverse_bits b m := by
  simp [reverse_bits]

theorem reverse_bits_odd (b m : Nat) :
    reverse_bits (b + 1) (2 * m + 1) = 2 ^ b + reverse_bits b m := by
  have h1 : (2 * m + 1) % 2 = 1 := by omega
  have h2 : (2 * m + 1) / 2 = m := by omega
  simp [reverse_bits, h1, h2]

theorem reverse_bits_testBit : ∀ (b i k : Nat),
    (reverse_bits b i).testBit k = (decide (k < b) && i.testBit (b - 1 - k)) := by
  intro b
  induction b with
  | zero => intro i k; simp [reverse_bits]
  | succ b ih =>
    intro i k
    have hlt := reverse_bits_lt b (i / 2)
    rw [reverse_bits, Nat.mul_comm, Nat.testBit_mul_pow_two_add _ hlt, ih]
    by_cases hk : k < b
    · have e : b + 1 - 1 - k = (b - 1 - k) + 1 := by omega
      simp only [hk, if_true, decide_True, Bool.true_and, show k < b + 1 from by omega, e,
        Nat.testBit_add_one]
    · simp only [hk, if_false]
      by_cases hkb : k = b
      · subst hkb
        simp [Nat.testBit_zero]
      · have h2 : i % 2 < 2 ^ (k - b) := by
          have : 2 ^ 1 ≤ 2 ^ (k - b) := Nat.pow_le_pow_right (by norm_num) (by omega)
          have := Nat.mod_lt i (show 0 < 2 by norm_num)
          omega
        simp [Nat.testBit_lt_two_pow h2, show ¬ k < b + 1 from by omega]

theorem reverse_bits_involutive (b i : Nat) (h : i < 2 ^ b) :
    reverse_bits b (reverse_bits b i) = i := by
  apply Nat.eq_of_testBit_eq
  intro k
  rw [reverse_bits_testBit, reverse_bits_testBit]
  by_cases hk : k < b
  · have e : b - 1 - (b - 1 - k) = k := by omega
    simp [hk, e, show b - 1 - k < b from by omega]
  · have : i < 2 ^ k := lt_of_lt_of_le h (Nat.pow_le_pow_right (by norm_num) (by omega))
    simp [hk, Nat.testBit_lt_two_pow this]

theorem reverse_index_eq (B fuel j : Nat) (hB : B ≤ 16) (hj : j < 65536) (hf : B < fuel) :
    reverse_index B fuel j = some (reverse_bits B j) := by
  let f : Nat → BitSt := fun k =>
    { bits := k, ind_s := j / 2 ^ k, ind_r := reverse_bits k j }
  have h0 : ({ bits := 0, ind_s := j, ind_r := 0 } : BitSt) = f 0 := by
    simp [f, reverse_bits]
  unfold reverse_index
  rw [h0, loop_iterate _ _ f B _ _ fuel hf]
  · rfl
  · intro k hk
    refine ⟨by simpa [f] using hk, ?_⟩
    have hr := reverse_bits_lt k j
    have hp : 2 ^ k ≤ 2 ^ 15 := Nat.pow_le_pow_right (by norm_num) (by omega)
    have hdiv : j / 2 ^ k ≤ j := Nat.div_le_self _ _
    have e1 : (j / 2 ^ k) >>> 1 = j / 2 ^ (k + 1) := by
      rw [Nat.shiftRight_eq_div_pow, Nat.div_div_eq_div_mul, pow_one, ← pow_succ]
    have hdiv2 : j / 2 ^ (k + 1) ≤ j := Nat.div_le_self _ _
    simp only [f, Nat.shiftLeft_eq, Nat.and_one_is_mod, pow_one, e1]
    rw [u8_of_lt (by omega), u16_of_lt (show j / 2 ^ (k + 1) < 65536 by omega),
      u16_of_lt (show reverse_bits k j * 2 < 65536 by omega), reverse_bits_step]
    have hm : (j / 2 ^ k) % 2 < 2 := Nat.mod_lt _ (by norm_num)
    by_cases hbit : (j / 2 ^ k) % 2 = 0
    · simp [hbit]; ring
    · have : (j / 2 ^ k) % 2 = 1 := by omega
      rw [if_pos (by omega), u16_of_lt (by omega), this]
      simp; ring
  · simp [f]


@[simp] theorem Mem.get_set_same (m : Mem α) (b : Buf) (f : Nat → α) :
    (m.set b f).get b = f := by
  cases b <;> rfl

theorem Mem.get_set_ne (m : Mem α) {b b' : Buf} (h : b' ≠ b) (f : Nat → α) :
    (m.set b f).get b' = m.get b' := by
  cases b <;> cases b' <;> first | rfl | exact absurd rfl h

@[simp] theorem Mem.set_set (m : Mem α) (b : Buf) (f g : Nat → α) :
    (m.set b f).set b g = m.set b g := by
  cases b <;> rfl

@[simp] theorem Mem.sinfunc_set (m : Mem α) (b : Buf) (f : Nat → α) :
    (m.set b f).sinfunc = m.sinfunc := by
  cases b <;> rfl

@[simp] theorem Mem.init_set (m : Mem α) (b : Buf) (f : Nat → α) :
    (m.set b f).init = m.init := by
  cases b <;> rfl

theorem Mem.set_get (m : Mem α) (b : Buf) : m.set b (m.get b) = m := by
  cases b <;> rfl

theorem Mem.rd_eq {N i : Nat} (m : Mem α) (b : Buf) (h : i < N) :
    m.rd N b i = some (m.get b i) := by
  simp [Mem.rd, h]

theorem Mem.wr_eq {N i : Nat} (m : Mem α) (b : Buf) (v : α) (h : i < N) :
    m.wr N b i v = some (m.set b (Function.update (m.get b) i v)) := by
  simp [Mem.wr, h]

theorem bit_reverse_eq (B fuel : Nat) (pfeld : Buf) (m : Mem α) (hB : B ≤ 15)
    (hf : 2 ^ B < fuel) :
    bit_reverse (2 ^ B) B fuel pfeld m =
      some (m.set pfeld (fun j => if j < 2 ^ B then m.get pfeld (reverse_bits B j)
        else m.get pfeld j)) := by
  have hN : 2 ^ B ≤ 2 ^ 15 := Nat.pow_le_pow_right (by norm_num) hB
  have hBN : B < 2 ^ B := Nat.lt_two_pow B
  set x := m.get pfeld with hx
  set N := 2 ^ B with hNdef
  let f : Nat → RevSt α := fun c =>
    { NEL_cnt := c,
      m := m.set pfeld (fun j =>
        if j < N ∧ (j < c ∨ reverse_bits B j < c) then x (reverse_bits B j) else x j) }
  have h0 : ({ NEL_cnt := 0, m := m } : RevSt α) = f 0 := by
    simp only [f, Nat.not_lt_zero, or_self, and_false, if_false]
    rw [hx, Mem.set_get]
  unfold bit_reverse
  rw [h0, loop_iterate _ _ f N _ _ fuel hf]
  · simp only [Option.map_some', f]
    congr 2
    funext j
    by_cases hj : j < N
    · simp [hj]
    · simp [hj]
  · intro c hc
    refine ⟨by simpa [f] using hc, ?_⟩
    have hrc : reverse_bits B c < N := reverse_bits_lt B c
    have hinv : reverse_bits B (reverse_bits B c) = c := reverse_bits_involutive B c hc
    simp only [f, Option.bind_eq_bind]
    rw [reverse_index_eq B fuel c (by omega) (by omega) (by omega)]
    simp only [Option.some_bind]
    rw [u16_of_lt (show c + 1 < 65536 by omega)]
    by_cases hgt : reverse_bits B c > c
    · rw [if_pos hgt]
      rw [Mem.rd_eq _ _ hrc, Mem.rd_eq _ _ hc]
      simp only [Option.some_bind]
      rw [Mem.wr_eq _ _ _ hrc]
      simp only [Option.some_bind]
      rw [Mem.wr_eq _ _ _ hc]
      simp only [Option.some_bind, Mem.get_set_same, Mem.set_set]
      congr 3
      funext j
      by_cases hj : j < N
      · have hinvj : reverse_bits B (reverse_bits B j) = j := reverse_bits_involutive B j hj
        by_cases hjc : j = c
        · subst hjc
          have h1 : ¬ (reverse_bits B j < N ∧ (reverse_bits B j < j ∨
              reverse_bits B (reverse_bits B j) < j)) := by
            rw [hinvj]; omega
          simp [Function.update, h1, hj]
        · by_cases hjr : j = reverse_bits B c
          · have h1 : ¬ (c < N ∧ (c < c ∨ reverse_bits B c < c)) := by omega
            have h2 : j < N ∧ (j < c + 1 ∨ reverse_bits B j < c + 1) := by
              refine ⟨hj, Or.inr ?_⟩
              rw [hjr, hinv]; omega
            rw [Function.update_noteq hjc, hjr, Function.update_same, if_neg h1]
            rw [← hjr, if_pos h2, hjr, hinv]
          · have hne : reverse_bits B j ≠ c := by
              intro h
              apply hjr
              rw [← h, hinvj]
            rw [Function.update_noteq hjc, Function.update_noteq hjr]
            have : (j < N ∧ (j < c ∨ reverse_bits B j < c)) ↔
                (j < N ∧ (j < c + 1 ∨ reverse_bits B j < c + 1)) := by omega
            simp only [this]
      · have h1 : j ≠ c := by omega
        have h2 : j ≠ reverse_bits B c := by omega
        rw [Function.update_noteq h1, Function.update_noteq h2]
        simp [hj]
    · rw [if_neg hgt]
      congr 3
      funext j
      by_cases hj : j < N
      · have hinvj : reverse_bits B (reverse_bits B j) = j := reverse_bits_involutive B j hj
        by_cases hjc : j = c
        · subst hjc
          by_cases hlt : reverse_bits B j < j
          · simp [hj, hlt]
          · have : reverse_bits B j = j := by omega
            simp [hj, this]
        · by_cases hrj : reverse_bits B j = c
          · have hjr : j = reverse_bits B c := by rw [← hrj, hinvj]
            have : j < c := by omega
            simp [hj, this, show j < c + 1 from by omega]
          · have : (j < N ∧ (j < c ∨ reverse_bits B j < c)) ↔
                (j < N ∧ (j < c + 1 ∨ reverse_bits B j < c + 1)) := by omega
            simp only [this]
      · simp [hj]
  · simp [f]



/-! ## stage_1 and stage_2 -/

theorem Mem.get_set (m : Mem α) (b b' : Buf) (f : Nat → α) :
    (m.set b f).get b' = if b' = b then f else m.get b' := by
  cases b <;> cases b' <;> rfl

theorem stage_1_eq [Field α] (N fuel : Nat) (src dst : Buf) (m : Mem α)
    (hev : N % 2 = 0) (hN : N < 65536) (hf : N / 2 < fuel) :
    stage_1 N fuel src dst m =
      some (m.set dst (fun j => if j < N then stage1F (m.get src) j else m.get dst j)) := by
  set a := m.get src with ha
  set d := m.get dst with hd
  let f : Nat → StageSt α := fun k =>
    { NEL_cnt := 2 * k, sfeld := 2 * k, dfeld := 2 * k,
      m := m.set dst (fun j => if j < 2 * k then stage1F a j else d j) }
  have h0 : ({ NEL_cnt := 0, sfeld := 0, dfeld := 0, m := m } : StageSt α) = f 0 := by
    simp only [f, Nat.mul_zero, Nat.not_lt_zero, if_false]
    rw [hd, Mem.set_get]
  have hrd : ∀ k j, 2 * k ≤ j →
      (m.set dst (fun j => if j < 2 * k then stage1F a j else d j)).get src j = a j := by
    intro k j hj
    rw [Mem.get_set]
    by_cases hsd : src = dst
    · rw [if_pos hsd, if_neg (by omega), hd, ← hsd]
    · rw [if_neg hsd]
  unfold stage_1
  rw [h0, loop_iterate _ _ f (N / 2) _ _ fuel hf]
  · simp only [Option.map_some', f]
    rw [show 2 * (N / 2) = N from by omega]
  · intro k hk
    refine ⟨by simp only [f, decide_eq_true_eq]; omega, ?_⟩
    simp only [f, Option.bind_eq_bind]
    rw [Mem.rd_eq _ _ (show 2 * k < N by omega), Mem.rd_eq _ _ (show 2 * k + 1 < N by omega)]
    simp only [Option.some_bind]
    rw [Mem.wr_eq _ _ _ (show 2 * k < N by omega)]
    simp only [Option.some_bind]
    rw [Mem.wr_eq _ _ _ (show 2 * k + 1 < N by omega)]
    simp only [Option.some_bind, Mem.get_set_same, Mem.set_set]
    rw [hrd k (2 * k) (le_refl _), hrd k (2 * k + 1) (by omega), u16_of_lt (by omega)]
    have e : 2 * (k + 1) = 2 * k + 2 := by ring
    simp only [e]
    congr 3
    funext j
    by_cases h1 : j = 2 * k + 1
    · subst h1
      simp [stage1F, show (2 * k + 1) % 2 ≠ 0 from by omega]
    · rw [Function.update_noteq h1]
      by_cases h2 : j = 2 * k
      · subst h2
        simp [stage1F]
      · rw [Function.update_noteq h2]
        have : j < 2 * k + 2 ↔ j < 2 * k := by omega
        simp only [this]
  · simp only [f, decide_eq_false_iff_not]; omega

theorem stage_2_eq [Field α] (N fuel : Nat) (src dst : Buf) (m : Mem α)
    (hev : N % 4 = 0) (hN : N < 65536) (hf : N / 4 < fuel) :
    stage_2 N fuel src dst m =
      some (m.set dst (fun j => if j < N then stage2F (m.get src) j else m.get dst j)) := by
  set a := m.get src with ha
  set d := m.get dst with hd
  let f : Nat → StageSt α := fun k =>
    { NEL_cnt := 4 * k, sfeld := 4 * k, dfeld := 4 * k,
      m := m.set dst (fun j => if j < 4 * k then stage2F a j else d j) }
  have h0 : ({ NEL_cnt := 0, sfeld := 0, dfeld := 0, m := m } : StageSt α) = f 0 := by
    simp only [f, Nat.mul_zero, Nat.not_lt_zero, if_false]
    rw [hd, Mem.set_get]
  have hrd : ∀ k j, 4 * k ≤ j →
      (m.set dst (fun j => if j < 4 * k then stage2F a j else d j)).get src j = a j := by
    intro k j hj
    rw [Mem.get_set]
    by_cases hsd : src = dst
    · rw [if_pos hsd, if_neg (by omega), hd, ← hsd]
    · rw [if_neg hsd]
  unfold stage_2
  rw [h0, loop_iterate _ _ f (N / 4) _ _ fuel hf]
  · simp only [Option.map_some', f]
    rw [show 4 * (N / 4) = N from by omega]
  · intro k hk
    refine ⟨by simp only [f, decide_eq_true_eq]; omega, ?_⟩
    simp only [f, Option.bind_eq_bind]
    rw [Mem.rd_eq _ _ (show 4 * k < N by omega), Mem.rd_eq _ _ (show 4 * k + 1 < N by omega),
      Mem.rd_eq _ _ (show 4 * k + 2 < N by omega), Mem.rd_eq _ _ (show 4 * k + 3 < N by omega)]
    simp only [Option.some_bind]
    rw [Mem.wr_eq _ _ _ (show 4 * k < N by omega)]
    simp only [Option.some_bind]
    rw [Mem.wr_eq _ _ _ (show 4 * k + 1 < N by omega)]
    simp only [Option.some_bind]
    rw [Mem.wr_eq _ _ _ (show 4 * k + 2 < N by omega)]
    simp only [Option.some_bind]
    rw [Mem.wr_eq _ _ _ (show 4 * k + 3 < N by omega)]
    simp only [Option.some_bind, Mem.get_set_same, Mem.set_set]
    rw [hrd k (4 * k) (le_refl _), hrd k (4 * k + 1) (by omega), hrd k (4 * k + 2) (by omega),
      hrd k (4 * k + 3) (by omega), u16_of_lt (by omega)]
    have e : 4 * (k + 1) = 4 * k + 4 := by ring
    simp only [e]
    congr 3
    funext j
    by_cases h3 : j = 4 * k + 3
    · subst h3
      simp [stage2F, show ¬ (4 * k + 3) % 4 < 2 from by omega]
    · rw [Function.update_noteq h3]
      by_cases h2 : j = 4 * k + 2
      · subst h2
        simp [stage2F, show ¬ (4 * k + 2) % 4 < 2 from by omega]
      · rw [Function.update_noteq h2]
        by_cases h1 : j = 4 * k + 1
        · subst h1
          simp [stage2F, show (4 * k + 1) % 4 < 2 from by omega]
        · rw [Function.update_noteq h1]
          by_cases h0 : j = 4 * k
          · subst h0
            simp [stage2F, show (4 * k) % 4 < 2 from by omega]
          · rw [Function.update_noteq h0]
            have : j < 4 * k + 4 ↔ j < 4 * k := by omega
            simp only [this]
  · simp only [f, decide_eq_false_iff_not]; omega

/-! ## stage_x -/

theorem Mem.rdsin_eq {N i : Nat} (m : Mem α) (h : i < 3 * NEL_d4 N + 1) :
    m.rdsin N i = some (m.sinfunc i) := by
  simp [Mem.rdsin, h]

theorem stageXF_lo [Field α] (N : Nat) (tbl : Nat → α) (s : Nat) (a : Nat → α) (k i h : Nat)
    (hL : 2 ^ s = 2 * h) (hi : i < h) :
    stageXF N tbl s a (k * 2 ^ s + i) = a (k * 2 ^ s + i) +
      (if i = 0 then a (k * 2 ^ s + h)
       else a (k * 2 ^ s + h + i) * tbl (N / 4 + i * (N / 2 ^ s)) +
         a (k * 2 ^ s + 2 ^ s - i) * tbl (i * (N / 2 ^ s))) := by
  have h1 : 2 ^ s / 2 = h := by omega
  have h2 : (k * 2 ^ s + i) / 2 ^ s = k := by
    rw [Nat.mul_comm, Nat.mul_add_div (by omega), Nat.div_eq_of_lt (by omega)]; rfl
  have h3 : (k * 2 ^ s + i) % h = i := by
    rw [hL, show k * (2 * h) + i = h * (k * 2) + i from by ring, Nat.mul_add_mod,
      Nat.mod_eq_of_lt hi]
  have h4 : (k * 2 ^ s + i) % 2 ^ s = i := by
    rw [Nat.mul_comm, Nat.mul_add_mod, Nat.mod_eq_of_lt (by omega)]
  simp only [stageXF, h1, h2, h3, h4, hi, if_true]

theorem stageXF_hi [Field α] (N : Nat) (tbl : Nat → α) (s : Nat) (a : Nat → α) (k i h : Nat)
    (hL : 2 ^ s = 2 * h) (hi : i < h) :
    stageXF N tbl s a (k * 2 ^ s + h + i) = a (k * 2 ^ s + i) -
      (if i = 0 then a (k * 2 ^ s + h)
       else a (k * 2 ^ s + h + i) * tbl (N / 4 + i * (N / 2 ^ s)) +
         a (k * 2 ^ s + 2 ^ s - i) * tbl (i * (N / 2 ^ s))) := by
  have h1 : 2 ^ s / 2 = h := by omega
  have h2 : (k * 2 ^ s + h + i) / 2 ^ s = k := by
    rw [Nat.add_assoc, Nat.mul_comm, Nat.mul_add_div (by omega), Nat.div_eq_of_lt (by omega)]
    rfl
  have h3 : (k * 2 ^ s + h + i) % h = i := by
    rw [hL, show k * (2 * h) + h + i = h * (k * 2 + 1) + i from by ring, Nat.mul_add_mod,
      Nat.mod_eq_of_lt hi]
  have h4 : (k * 2 ^ s + h + i) % 2 ^ s = h + i := by
    rw [Nat.add_assoc, Nat.mul_comm, Nat.mul_add_mod, Nat.mod_eq_of_lt (by omega)]
  simp only [stageXF, h1, h2, h3, h4, show ¬ h + i < h from by omega, if_false]

/-- One block of `stage_x`, for distinct source and destination arrays. -/
theorem stage_x_block_eq [Field α] (N fuel s h k tri : Nat) (src dst : Buf) (m : Mem α)
    (hsd : src ≠ dst) (hL : 2 ^ s = 2 * h) (hh : 1 ≤ h) (hN : N < 65536)
    (hk : k * 2 ^ s + 2 ^ s ≤ N) (htri : tri = N / 2 ^ s)
    (htbl : ∀ i, i < h → NEL_d4 N + i * tri < 3 * NEL_d4 N + 1) (hf : h ≤ fuel) :
    stage_x_block N fuel src dst (2 ^ s) h tri (k * 2 ^ s) (k * 2 ^ s) m =
      some (m.set dst (fun j =>
        if k * 2 ^ s ≤ j ∧ j < k * 2 ^ s + 2 ^ s then stageXF N m.sinfunc s (m.get src) j
        else m.get dst j)) := by
  set a := m.get src with ha
  set d := m.get dst with hd
  set tbl := m.sinfunc with htb
  set n := k * 2 ^ s with hn
  set L := 2 ^ s with hLdef
  let g : Nat → InnerSt α := fun t =>
    { i_cnt := t + 1, ps1 := t * tri, pc1 := NEL_d4 N + t * tri, pq1 := n + t + 1,
      pqc := n + h + t + 1, pqs := n + L - t, pz1 := n + t + 1, pz2 := n + h + t + 1,
      m := m.set dst (fun j =>
        if (n ≤ j ∧ j < n + t + 1) ∨ (n + h ≤ j ∧ j < n + h + t + 1) then stageXF N tbl s a j
        else d j) }
  have hsrc : ∀ (f : Nat → α), (m.set dst f).get src = a := by
    intro f; rw [Mem.get_set_ne _ hsd]
  have hfirst : stage_x_first N src dst L h n n m = some (g 0) := by
    unfold stage_x_first
    simp only [Option.bind_eq_bind]
    rw [Mem.rd_eq _ _ (show n < N by omega), Mem.rd_eq _ _ (show n + h < N by omega)]
    simp only [Option.some_bind]
    rw [Mem.wr_eq _ _ _ (show n < N by omega)]
    simp only [Option.some_bind]
    rw [Mem.rd_eq _ _ (show n < N by omega), Mem.rd_eq _ _ (show n + h < N by omega)]
    simp only [Option.some_bind]
    rw [Mem.wr_eq _ _ _ (show n + h < N by omega)]
    simp only [Option.some_bind, Mem.get_set_same, Mem.set_set, hsrc, g, Nat.zero_mul,
      Nat.add_zero]
    congr 3
    funext j
    have e0 := stageXF_lo N tbl s a k 0 h hL (by omega)
    have e1 := stageXF_hi N tbl s a k 0 h hL (by omega)
    simp only [Nat.add_zero, if_true] at e0 e1
    by_cases h1 : j = n + h
    · subst h1
      rw [Function.update_same, if_pos (Or.inr ⟨le_refl _, by omega⟩), e1]
    · rw [Function.update_noteq h1]
      by_cases h2 : j = n
      · subst h2
        rw [Function.update_same, if_pos (Or.inl ⟨le_refl _, by omega⟩), e0]
      · rw [Function.update_noteq h2, if_neg (by omega)]
  unfold stage_x_block
  simp only [Option.bind_eq_bind, hfirst, Option.some_bind]
  rw [loop_iterate _ _ g (h - 1) _ _ fuel (by omega)]
  · simp only [Option.map_some', g]
    congr 2
    funext j
    have : ((n ≤ j ∧ j < n + (h - 1) + 1) ∨ (n + h ≤ j ∧ j < n + h + (h - 1) + 1)) ↔
        (n ≤ j ∧ j < n + L) := by omega
    simp only [this]
  · intro t ht
    refine ⟨by simp only [g, decide_eq_true_eq]; omega, ?_⟩
    have hb := htbl (t + 1) (by omega)
    have hb2 : (t + 1) * tri < 3 * NEL_d4 N + 1 := by omega
    unfold stage_x_inner
    simp only [g, Option.bind_eq_bind]
    rw [Mem.rd_eq _ _ (show n + h + t + 1 < N by omega)]
    try simp only [Option.some_bind]
    rw [Mem.rdsin_eq _ (show NEL_d4 N + t * tri + tri < 3 * NEL_d4 N + 1 by
      rw [Nat.add_assoc, ← Nat.succ_mul]; exact hb)]
    try simp only [Option.some_bind]
    rw [if_pos (show 0 < n + L - t by omega)]
    try simp only [Option.some_bind]
    rw [Mem.rd_eq _ _ (show n + L - t - 1 < N by omega)]
    try simp only [Option.some_bind]
    rw [Mem.rdsin_eq _ (show t * tri + tri < 3 * NEL_d4 N + 1 by
      rw [← Nat.succ_mul]; exact hb2)]
    try simp only [Option.some_bind]
    rw [Mem.rd_eq _ _ (show n + t + 1 < N by omega)]
    try simp only [Option.some_bind]
    rw [Mem.wr_eq _ _ _ (show n + t + 1 < N by omega)]
    try simp only [Option.some_bind]
    rw [Mem.rd_eq _ _ (show n + t + 1 < N by omega)]
    try simp only [Option.some_bind]
    rw [Mem.wr_eq _ _ _ (show n + h + t + 1 < N by omega)]
    simp only [Option.some_bind, Mem.get_set_same, Mem.set_set, hsrc, Mem.sinfunc_set]
    rw [u16_of_lt (by omega)]
    have e0 := stageXF_lo N tbl s a k (t + 1) h hL (by omega)
    have e1 := stageXF_hi N tbl s a k (t + 1) h hL (by omega)
    simp only [if_neg (Nat.succ_ne_zero t), ← htri] at e0 e1
    have ea : NEL_d4 N + t * tri + tri = N / 4 + (t + 1) * tri := by
      simp only [NEL_d4]; ring
    have eb : t * tri + tri = (t + 1) * tri := by ring
    have ec : n + L - t - 1 = n + L - (t + 1) := by omega
    have ed : n + h + t + 1 = n + h + (t + 1) := by omega
    rw [Option.some.injEq, InnerSt.mk.injEq]
    refine ⟨rfl, by ring, by ring, by omega, by omega, by omega, by omega, by omega, ?_⟩
    congr 1
    funext j
    by_cases h1 : j = n + h + t + 1
    · subst h1
      rw [Function.update_same, if_pos (Or.inr ⟨by omega, by omega⟩), ed, e1, ea, eb, ec,
        Nat.add_assoc n t 1]
    · rw [Function.update_noteq h1]
      by_cases h2 : j = n + t + 1
      · subst h2
        rw [Function.update_same, if_pos (Or.inl ⟨by omega, by omega⟩), Nat.add_assoc n t 1,
          e0, ea, eb, ec, ed]
      · rw [Function.update_noteq h2]
        have : ((n ≤ j ∧ j < n + t + 1) ∨ (n + h ≤ j ∧ j < n + h + t + 1)) ↔
            ((n ≤ j ∧ j < n + (t + 1) + 1) ∨ (n + h ≤ j ∧ j < n + h + (t + 1) + 1)) := by
          omega
        simp only [this]
  · simp only [g, decide_eq_false_iff_not]; omega

theorem stage_x_eq [Field α] (B s fuel : Nat) (src dst : Buf) (m : Mem α)
    (hsd : src ≠ dst) (h1 : 1 ≤ s) (hs : s ≤ B) (hB2 : 2 ≤ B) (hB : B ≤ 15)
    (hf : 2 ^ B < fuel) :
    stage_x (2 ^ B) fuel src dst s m =
      some (m.set dst (fun j =>
        if j < 2 ^ B then stageXF (2 ^ B) m.sinfunc s (m.get src) j else m.get dst j)) := by
  have hN : 2 ^ B ≤ 2 ^ 15 := Nat.pow_le_pow_right (by norm_num) hB
  have hLN : 2 ^ s ≤ 2 ^ B := Nat.pow_le_pow_right (by norm_num) hs
  have hNL : 2 ^ B = 2 ^ (B - s) * 2 ^ s := by rw [← pow_add]; congr 1; omega
  have hLh : 2 ^ s = 2 * 2 ^ (s - 1) := by
    rw [← pow_succ']; congr 1; omega
  have hN4 : 2 ^ B = 4 * 2 ^ (B - 2) := by
    rw [show (4 : Nat) = 2 ^ 2 from rfl, ← pow_add]; congr 1; omega
  have hLpos : 0 < 2 ^ s := Nat.pow_pos (by norm_num)
  have hhpos : 0 < 2 ^ (s - 1) := Nat.pow_pos (by norm_num)
  have hcpos : 0 < 2 ^ (B - s) := Nat.pow_pos (by norm_num)
  have htri : 2 ^ B / 2 ^ s = 2 ^ (B - s) := by
    rw [hNL, Nat.mul_div_cancel _ hLpos]
  have hhalf : 2 ^ (s - 1) * 2 ^ (B - s) * 2 = 2 ^ B := by
    rw [hNL, hLh]; ring
  set N := 2 ^ B with hNdef
  set L := 2 ^ s with hLdef
  set h := 2 ^ (s - 1) with hhdef
  set cnt := 2 ^ (B - s) with hcdef
  set a := m.get src with ha
  set d := m.get dst with hd
  set tbl := m.sinfunc with htb
  have e1 : u16 (1 <<< s) = L := by
    rw [Nat.one_shiftLeft, u16_of_lt (by omega)]
  have e2 : u16 (L >>> 1) = h := by
    rw [Nat.shiftRight_eq_div_pow, pow_one, u16_of_lt (by omega)]; omega
  have e3 : u16 (N / L) = cnt := by
    rw [htri, u16_of_lt]
    have : cnt ≤ cnt * L := Nat.le_mul_of_pos_right _ hLpos
    omega
  let f : Nat → StageSt α := fun k =>
    { NEL_cnt := k * L, sfeld := k * L, dfeld := k * L,
      m := m.set dst (fun j => if j < k * L then stageXF N tbl s a j else d j) }
  have h0 : ({ NEL_cnt := 0, sfeld := 0, dfeld := 0, m := m } : StageSt α) = f 0 := by
    simp only [f, Nat.zero_mul, Nat.not_lt_zero, if_false]
    rw [hd, Mem.set_get]
  have hcf : cnt < fuel := by
    have : cnt ≤ cnt * L := Nat.le_mul_of_pos_right _ hLpos
    omega
  unfold stage_x
  simp only [e1, e2, e3, show L ≠ 0 from by omega, if_false]
  rw [h0, loop_iterate _ _ f cnt _ _ fuel hcf]
  · simp only [Option.map_some', f, ← hNL]
  · intro k hk
    have hkL : k * L + L ≤ N := by
      have : (k + 1) * L ≤ cnt * L := Nat.mul_le_mul_right _ hk
      rw [hNL]; rw [Nat.succ_mul] at this; exact this
    refine ⟨by simp only [f, decide_eq_true_eq]; omega, ?_⟩
    simp only [f, Option.bind_eq_bind]
    rw [stage_x_block_eq N fuel s h k cnt src dst _ hsd hLh (by omega) (by omega) hkL htri.symm
      _ (by omega)]
    · simp only [Option.some_bind, Mem.get_set_same, Mem.set_set, Mem.sinfunc_set,
        Mem.get_set_ne _ hsd]
      rw [u16_of_lt (by omega)]
      rw [Option.some.injEq, StageSt.mk.injEq]
      refine ⟨by ring, by ring, by ring, ?_⟩
      congr 1
      funext j
      by_cases hj : k * L ≤ j ∧ j < k * L + L
      · rw [if_pos hj, if_pos (by rw [Nat.succ_mul]; omega)]
      · rw [if_neg hj]
        have : j < (k + 1) * L ↔ j < k * L := by rw [Nat.succ_mul]; omega
        simp only [this]
    · intro i hi
      have : i * cnt + cnt ≤ h * cnt := by
        have := Nat.mul_le_mul_right cnt (show i + 1 ≤ h from hi)
        rw [Nat.succ_mul] at this; exact this
      simp only [NEL_d4]
      omega
  · simp only [f, decide_eq_false_iff_not, ← hNL]; omega

/-! ## init_dfht and the cascade of dfht_do -/

theorem init_dfht_eq [Field α] (N fuel : Nat) (sin : α → α) (M_TWO_PI : α) (m : Mem α)
    (hN : N ≤ 65536) (hf : N < fuel) (h8 : 8 ≤ N) :
    init_dfht N sin M_TWO_PI fuel m = some (initMem N sin M_TWO_PI m) := by
  unfold init_dfht initMem
  by_cases hi : m.init ≠ 0
  · rw [if_pos hi, if_pos hi]
  · rw [if_neg hi, if_neg hi]
    let f : Nat → InitSt α := fun k =>
      { i := k, m := { m with init := 1,
                              sinfunc := fun i => if i < k
                                then sin (((i : α) * M_TWO_PI) / (N : α)) else m.sinfunc i } }
    have h0 : ({ i := 0, m := { m with init := 1 } } : InitSt α) = f 0 := by
      simp only [f, Nat.not_lt_zero, if_false]
    have hc : 3 * NEL_d4 N + 1 < fuel := by simp only [NEL_d4]; omega
    rw [h0, loop_iterate _ _ f (3 * NEL_d4 N + 1) _ _ fuel hc]
    · rfl
    · intro k hk
      refine ⟨by simpa [f] using hk, ?_⟩
      simp only [f, Option.bind_eq_bind, Mem.wrsin, hk, if_true, Option.some_bind]
      rw [u16_of_lt (by simp only [NEL_d4] at hk; omega)]
      rw [Option.some.injEq, InitSt.mk.injEq]
      refine ⟨rfl, ?_⟩
      congr 1
      funext i
      by_cases h1 : i = k
      · subst h1
        simp
      · rw [Function.update_noteq h1]
        have : i < k + 1 ↔ i < k := by omega
        simp only [this]
    · simp [f]

theorem initMem_pdaten [Field α] (N : Nat) (sin : α → α) (M_TWO_PI : α) (m : Mem α) :
    (initMem N sin M_TWO_PI m).pdaten = m.pdaten := by
  unfold initMem; split <;> rfl

theorem initMem_work_buf [Field α] (N : Nat) (sin : α → α) (M_TWO_PI : α) (m : Mem α) :
    (initMem N sin M_TWO_PI m).work_buf = m.work_buf := by
  unfold initMem; split <;> rfl

theorem Mem.set_swap (m : Mem α) (b b' : Buf) (f g k : Nat → α) :
    ((m.set b' f).set b g).set b' k = (m.set b g).set b' k := by
  cases b <;> cases b' <;> rfl

theorem Mem.ext_bufs (m m' : Mem α) (h1 : m.pdaten = m'.pdaten) (h2 : m.work_buf = m'.work_buf)
    (h3 : m.sinfunc = m'.sinfunc) (h4 : m.init = m'.init) : m = m' := by
  cases m; cases m'; simp only at h1 h2 h3 h4; subst h1 h2 h3 h4; rfl

theorem stageBuf_succ_ne (B s : Nat) : stageBuf B s ≠ stageBuf B (s + 1) := by
  unfold stageBuf
  by_cases h : (B + s) % 2 = 0
  · rw [if_pos h, if_neg (by omega)]; decide
  · rw [if_neg h, if_pos (by omega)]; decide

theorem stageBuf_add_two (B s : Nat) : stageBuf B (s + 2) = stageBuf B s := by
  unfold stageBuf
  have : (B + (s + 2)) % 2 = (B + s) % 2 := by omega
  rw [this]

theorem bufAfter_ge [Field α] (N B : Nat) (tbl x w : Nat → α) (s j : Nat) (hj : N ≤ j) :
    bufAfter N B tbl x w (s + 1) j = if (B + (s + 1)) % 2 = 0 then x j else w j := by
  simp only [bufAfter, show ¬ j < N from by omega, if_false]

theorem dfht_cascade_eq [Field α] (B fuel : Nat) (sin : α → α) (M_TWO_PI : α) (m : Mem α)
    (h3 : 3 ≤ B) (hB : B ≤ 15) (hf : 2 ^ B < fuel) :
    dfht_cascade (2 ^ B) B sin M_TWO_PI fuel m = some (cascadeMem (2 ^ B) B sin M_TWO_PI m) := by
  have hN : 2 ^ B ≤ 2 ^ 15 := Nat.pow_le_pow_right (by norm_num) hB
  have hN8 : 2 ^ 3 ≤ 2 ^ B := Nat.pow_le_pow_right (by norm_num) h3
  have hN4 : 2 ^ B = 4 * 2 ^ (B - 2) := by
    rw [show (4 : Nat) = 2 ^ 2 from rfl, ← pow_add]; congr 1; omega
  set N := 2 ^ B with hNdef
  set m0 := initMem N sin M_TWO_PI m with hm0
  set tbl := m0.sinfunc with htbl
  set x := m.pdaten with hx
  set w := m.work_buf with hw
  have hx0 : m0.pdaten = x := initMem_pdaten N sin M_TWO_PI m
  have hw0 : m0.work_buf = w := initMem_work_buf N sin M_TWO_PI m
  set A := bufAfter N B tbl x w with hA
  -- memory before stage `t + 3`
  let M : Nat → Mem α := fun t =>
    (m0.set (stageBuf B (t + 3)) (A (t + 1))).set (stageBuf B (t + 2)) (A (t + 2))
  let f : Nat → DoSt α := fun t =>
    { i := 3 + t, z0 := stageBuf B (t + 2), z1 := stageBuf B (t + 3), m := M t }
  have hloop : ∀ z0 z1 m3, (⟨3, z0, z1, m3⟩ : DoSt α) = f 0 →
      (loop (fun s : DoSt α => decide (s.i ≤ B))
        (fun s => do
          let r ← stage_x N fuel s.z0 s.z1 s.i s.m
          some { i := u8 (s.i + 1), z0 := s.z1, z1 := s.z0, m := r })
        fuel ⟨3, z0, z1, m3⟩).map (fun s => s.m) = some (cascadeMem N B sin M_TWO_PI m) := by
    intro z0 z1 m3 h0
    have hBN : B < 2 ^ B := Nat.lt_two_pow B
    rw [h0, loop_iterate _ _ f (B - 2) _ _ fuel (by omega)]
    · simp only [Option.map_some', f, M, Option.some.injEq]
      have e1 : stageBuf B (B - 2 + 2) = .pdaten := by
        simp only [stageBuf, show (B + (B - 2 + 2)) % 2 = 0 from by omega, if_true]
      have e2 : stageBuf B (B - 2 + 3) = .work_buf := by
        simp only [stageBuf, show ¬ (B + (B - 2 + 3)) % 2 = 0 from by omega, if_false]
      rw [e1, e2, show B - 2 + 2 = B from by omega, show B - 2 + 1 = B - 1 from by omega]
      rfl
    · intro t ht
      refine ⟨by simp only [f, decide_eq_true_eq]; omega, ?_⟩
      simp only [f, Option.bind_eq_bind]
      rw [show 3 + t = t + 3 from by omega,
        stage_x_eq B (t + 3) fuel _ _ (M t) (stageBuf_succ_ne B (t + 2)) (by omega) (by omega)
          (by omega) hB hf]
      simp only [Option.some_bind]
      rw [u8_of_lt (by omega), Option.some.injEq, DoSt.mk.injEq]
      refine ⟨by omega, rfl, (stageBuf_add_two B (t + 2)).symm, ?_⟩
      simp only [M, Mem.get_set_same, Mem.sinfunc_set,
        Mem.get_set_ne _ (stageBuf_succ_ne B (t + 2)).symm]
      have hfun : (fun j => if j < N then stageXF N m0.sinfunc (t + 3) (A (t + 2)) j
          else A (t + 1) j) = A (t + 2 + 1) := by
        funext j
        by_cases hj : j < N
        · simp only [hj, if_true, hA, bufAfter, stageF,
            show ¬ (t + 2 + 1 = 1) from by omega, show ¬ (t + 2 + 1 = 2) from by omega, if_false]
        · simp only [hj, if_false, hA]
          rw [bufAfter_ge _ _ _ _ _ _ _ (by omega), bufAfter_ge _ _ _ _ _ _ _ (by omega)]
          have : (B + (t + 1)) % 2 = (B + (t + 2 + 1)) % 2 := by omega
          rw [this]
      have e : stageBuf B (t + 1 + 3) = stageBuf B (t + 2) := stageBuf_add_two B (t + 2)
      rw [hfun, Mem.set_swap, e]
    · simp only [f, decide_eq_false_iff_not]; omega
  have hA1 : ∀ (p : Nat → α) (hp : ∀ j, N ≤ j → p j = if (B + 1) % 2 = 0 then x j else w j),
      (fun j => if j < N then stage1F (A 0) j else p j) = A 1 := by
    intro p hp
    funext j
    by_cases hj : j < N
    · simp only [hj, if_true, hA, bufAfter, stageF]
    · simp only [hj, if_false, hA, bufAfter, stageF]
      exact hp j (by omega)
  have hA2 : ∀ (p : Nat → α) (hp : ∀ j, N ≤ j → p j = if (B + 2) % 2 = 0 then x j else w j),
      (fun j => if j < N then stage2F (A 1) j else p j) = A 2 := by
    intro p hp
    funext j
    by_cases hj : j < N
    · simp only [hj, if_true, hA]
      simp only [bufAfter, stageF, hj, if_true, show ¬ (1 + 1 = 1) from by omega, if_false]
    · simp only [hj, if_false, hA]
      rw [bufAfter_ge _ _ _ _ _ _ _ (by omega)]
      exact hp j (by omega)
  have hA0 : ∀ j, N ≤ j → A 0 j = x j := by
    intro j hj
    simp only [hA, bufAfter, show ¬ j < N from by omega, if_false]
  unfold dfht_cascade
  simp only [Option.bind_eq_bind]
  rw [init_dfht_eq N fuel sin M_TWO_PI m (by omega) hf (by omega)]
  simp only [Option.some_bind]
  rw [bit_reverse_eq B fuel .pdaten _ hB hf]
  simp only [Option.some_bind, Nat.and_one_is_mod]
  have hperm : (fun j => if j < N then m0.get .pdaten (reverse_bits B j)
      else m0.get .pdaten j) = A 0 := by
    funext j
    simp only [hA, bufAfter, Mem.get, hx0]
  rw [← hm0, hperm]
  by_cases hodd : B % 2 ≠ 0
  · rw [if_pos hodd]
    rw [stage_1_eq N fuel .pdaten .pdaten _ (by omega) (by omega) (by omega)]
    simp only [Option.map_some', Option.some_bind, Mem.get_set_same, Mem.set_set]
    rw [hA1 (A 0) (fun j hj => by rw [hA0 j hj, if_pos (by omega)])]
    rw [stage_2_eq N fuel .pdaten .work_buf _ (by omega) (by omega) (by omega)]
    simp only [Option.some_bind, Mem.get_set_same]
    rw [show (m0.set Buf.pdaten (A 1)).get Buf.work_buf = w from hw0]
    rw [hA2 w (fun j hj => by rw [if_neg (by omega)])]
    apply hloop
    simp only [f, M, stageBuf, show ¬ (B + (0 + 2)) % 2 = 0 from by omega,
      show (B + (0 + 3)) % 2 = 0 from by omega, if_true, if_false, Mem.set_set]
  · rw [if_neg hodd]
    rw [stage_1_eq N fuel .pdaten .work_buf _ (by omega) (by omega) (by omega)]
    simp only [Option.map_some', Option.some_bind]
    rw [show (m0.set Buf.pdaten (A 0)).get Buf.pdaten = A 0 from rfl,
      show (m0.set Buf.pdaten (A 0)).get Buf.work_buf = w from hw0]
    rw [hA1 w (fun j hj => by rw [if_neg (by omega)])]
    rw [stage_2_eq N fuel .work_buf .pdaten _ (by omega) (by omega) (by omega)]
    simp only [Option.some_bind, Mem.get_set_same]
    rw [show ((m0.set Buf.pdaten (A 0)).set Buf.work_buf (A 1)).get Buf.pdaten = A 0 from rfl]
    rw [hA2 (A 0) (fun j hj => by rw [hA0 j hj, if_pos (by omega)])]
    apply hloop
    simp only [f, M, stageBuf, show (B + (0 + 2)) % 2 = 0 from by omega,
      show ¬ (B + (0 + 3)) % 2 = 0 from by omega, if_true, if_false]
    rfl

/-! ## The radix-2 Hartley butterfly over the reals -/

theorem sum_range_even_odd (f : Nat → ℝ) (h : Nat) :
    ∑ t in Finset.range (2 * h), f t =
      ∑ t in Finset.range h, f (2 * t) + ∑ t in Finset.range h, f (2 * t + 1) := by
  induction h with
  | zero => simp
  | succ h ih =>
    rw [show 2 * (h + 1) = 2 * h + 1 + 1 from by ring, Finset.sum_range_succ,
      Finset.sum_range_succ, ih, Finset.sum_range_succ, Finset.sum_range_succ]
    ring

theorem cas_add (A p : ℝ) :
    Real.cos (A + p) + Real.sin (A + p) =
      Real.cos p * (Real.cos A + Real.sin A) + Real.sin p * (Real.cos (-A) + Real.sin (-A)) := by
  rw [Real.cos_add, Real.sin_add, Real.cos_neg, Real.sin_neg]; ring

/-- Lower half of the radix-2 Hartley butterfly. -/
theorem hartley_lo (h : Nat) (hh : 1 ≤ h) (z : Nat → ℝ) (i : Nat) (hi : i < h) :
    hartley Real.cos Real.sin (2 * Real.pi) (2 * h) z i =
      hartley Real.cos Real.sin (2 * Real.pi) h (fun t => z (2 * t)) i +
      (if i = 0 then hartley Real.cos Real.sin (2 * Real.pi) h (fun t => z (2 * t + 1)) 0
       else
        hartley Real.cos Real.sin (2 * Real.pi) h (fun t => z (2 * t + 1)) i *
            Real.cos (2 * Real.pi * i / (2 * h : ℕ)) +
        hartley Real.cos Real.sin (2 * Real.pi) h (fun t => z (2 * t + 1)) (h - i) *
            Real.sin (2 * Real.pi * i / (2 * h : ℕ))) := by
  have hne : (h : ℝ) ≠ 0 := by exact_mod_cast (show h ≠ 0 by omega)
  unfold hartley
  rw [sum_range_even_odd]
  congr 1
  · apply Finset.sum_congr rfl
    intro t _
    have : 2 * Real.pi * (i : ℝ) * ((2 * t : ℕ) : ℝ) / ((2 * h : ℕ) : ℝ) =
        2 * Real.pi * (i : ℝ) * (t : ℝ) / (h : ℝ) := by
      push_cast; field_simp; ring
    rw [this]
  · by_cases hi0 : i = 0
    · subst hi0
      simp
    · rw [if_neg hi0, Finset.sum_mul, Finset.sum_mul, ← Finset.sum_add_distrib]
      apply Finset.sum_congr rfl
      intro t _
      have e1 : 2 * Real.pi * (i : ℝ) * ((2 * t + 1 : ℕ) : ℝ) / ((2 * h : ℕ) : ℝ) =
          2 * Real.pi * (i : ℝ) * (t : ℝ) / (h : ℝ) + 2 * Real.pi * (i : ℝ) / ((2 * h : ℕ) : ℝ) := by
        push_cast; field_simp; ring
      have e2 : 2 * Real.pi * ((h - i : ℕ) : ℝ) * (t : ℝ) / (h : ℝ) =
          (t : ℝ) * (2 * Real.pi) - 2 * Real.pi * (i : ℝ) * (t : ℝ) / (h : ℝ) := by
        rw [Nat.cast_sub (le_of_lt hi)]; field_simp; ring
      rw [e1, cas_add, e2, Real.cos_nat_mul_two_pi_sub, Real.sin_nat_mul_two_pi_sub,
        Real.cos_neg, Real.sin_neg]
      ring

/-- Upper half of the radix-2 Hartley butterfly. -/
theorem hartley_hi (h : Nat) (hh : 1 ≤ h) (z : Nat → ℝ) (i : Nat) (hi : i < h) :
    hartley Real.cos Real.sin (2 * Real.pi) (2 * h) z (h + i) =
      hartley Real.cos Real.sin (2 * Real.pi) h (fun t => z (2 * t)) i -
      (if i = 0 then hartley Real.cos Real.sin (2 * Real.pi) h (fun t => z (2 * t + 1)) 0
       else
        hartley Real.cos Real.sin (2 * Real.pi) h (fun t => z (2 * t + 1)) i *
            Real.cos (2 * Real.pi * i / (2 * h : ℕ)) +
        hartley Real.cos Real.sin (2 * Real.pi) h (fun t => z (2 * t + 1)) (h - i) *
            Real.sin (2 * Real.pi * i / (2 * h : ℕ))) := by
  have hne : (h : ℝ) ≠ 0 := by exact_mod_cast (show h ≠ 0 by omega)
  unfold hartley
  rw [sum_range_even_odd, sub_eq_add_neg]
  congr 1
  · apply Finset.sum_congr rfl
    intro t _
    have : 2 * Real.pi * ((h + i : ℕ) : ℝ) * ((2 * t : ℕ) : ℝ) / ((2 * h : ℕ) : ℝ) =
        2 * Real.pi * (i : ℝ) * (t : ℝ) / (h : ℝ) + (t : ℝ) * (2 * Real.pi) := by
      push_cast; field_simp; ring
    rw [this, Real.cos_add_nat_mul_two_pi, Real.sin_add_nat_mul_two_pi]
  · by_cases hi0 : i = 0
    · subst hi0
      simp only [if_true, Nat.add_zero, ← Finset.sum_neg_distrib]
      apply Finset.sum_congr rfl
      intro t _
      have e1 : 2 * Real.pi * (h : ℝ) * ((2 * t + 1 : ℕ) : ℝ) / ((2 * h : ℕ) : ℝ) =
          Real.pi + (t : ℝ) * (2 * Real.pi) := by
        push_cast; field_simp; ring
      rw [e1, Real.cos_add_nat_mul_two_pi, Real.sin_add_nat_mul_two_pi, Real.cos_pi, Real.sin_pi]
      simp
    · rw [if_neg hi0, Finset.sum_mul, Finset.sum_mul, ← Finset.sum_add_distrib,
        ← Finset.sum_neg_distrib]
      apply Finset.sum_congr rfl
      intro t _
      have e1 : 2 * Real.pi * ((h + i : ℕ) : ℝ) * ((2 * t + 1 : ℕ) : ℝ) / ((2 * h : ℕ) : ℝ) =
          (2 * Real.pi * (i : ℝ) * (t : ℝ) / (h : ℝ) + 2 * Real.pi * (i : ℝ) / ((2 * h : ℕ) : ℝ)
            + Real.pi) + (t : ℝ) * (2 * Real.pi) := by
        push_cast; field_simp; ring
      have e2 : 2 * Real.pi * ((h - i : ℕ) : ℝ) * (t : ℝ) / (h : ℝ) =
          (t : ℝ) * (2 * Real.pi) - 2 * Real.pi * (i : ℝ) * (t : ℝ) / (h : ℝ) := by
        rw [Nat.cast_sub (le_of_lt hi)]; field_simp; ring
      rw [e1, Real.cos_add_nat_mul_two_pi, Real.sin_add_nat_mul_two_pi, Real.cos_add_pi,
        Real.sin_add_pi, e2, Real.cos_nat_mul_two_pi_sub, Real.sin_nat_mul_two_pi_sub]
      have := cas_add (2 * Real.pi * (i : ℝ) * (t : ℝ) / (h : ℝ))
        (2 * Real.pi * (i : ℝ) / ((2 * h : ℕ) : ℝ))
      rw [Real.cos_neg, Real.sin_neg] at this
      linear_combination (-(z (2 * t + 1))) * this

/-- The table entries `stage_x` reads are the cosine and the sine of the
butterfly angle. -/
theorem table_cos_sin (B s h i : Nat) (tbl : Nat → ℝ) (hs : s ≤ B) (hB2 : 2 ≤ B)
    (hL : 2 ^ s = 2 * h) (hi : i < h)
    (htbl : ∀ i, i < 3 * NEL_d4 (2 ^ B) + 1 →
      tbl i = Real.sin (((i : ℝ) * (2 * Real.pi)) / ((2 ^ B : ℕ) : ℝ))) :
    tbl (2 ^ B / 4 + i * (2 ^ B / 2 ^ s)) = Real.cos (2 * Real.pi * i / ((2 * h : ℕ) : ℝ)) ∧
    tbl (i * (2 ^ B / 2 ^ s)) = Real.sin (2 * Real.pi * i / ((2 * h : ℕ) : ℝ)) := by
  have hNL : 2 ^ B = 2 ^ (B - s) * 2 ^ s := by rw [← pow_add]; congr 1; omega
  have hN4 : 2 ^ B = 4 * 2 ^ (B - 2) := by
    rw [show (4 : Nat) = 2 ^ 2 from rfl, ← pow_add]; congr 1; omega
  have hLpos : 0 < 2 ^ s := Nat.pow_pos (by norm_num)
  have hcpos : 0 < 2 ^ (B - s) := Nat.pow_pos (by norm_num)
  have htri : 2 ^ B / 2 ^ s = 2 ^ (B - s) := by
    rw [hNL, Nat.mul_div_cancel _ hLpos]
  have h4 : 2 ^ B / 4 = 2 ^ (B - 2) := by omega
  have hhalf : 2 * (h * 2 ^ (B - s)) = 2 ^ B := by
    rw [hNL, hL]; ring
  have hic : i * 2 ^ (B - s) + 2 ^ (B - s) ≤ h * 2 ^ (B - s) := by
    have := Nat.mul_le_mul_right (2 ^ (B - s)) (show i + 1 ≤ h from hi)
    rw [Nat.succ_mul] at this; exact this
  have hNr : ((2 ^ B : ℕ) : ℝ) = 2 * (h : ℝ) * ((2 ^ (B - s) : ℕ) : ℝ) := by
    rw [← hhalf]; push_cast; ring
  have hN4r : ((2 ^ B : ℕ) : ℝ) = 4 * ((2 ^ (B - 2) : ℕ) : ℝ) := by
    exact_mod_cast hN4
  have hcne : ((2 ^ (B - s) : ℕ) : ℝ) ≠ 0 := by exact_mod_cast (show 2 ^ (B - s) ≠ 0 by omega)
  have hhne : (h : ℝ) ≠ 0 := by exact_mod_cast (show h ≠ 0 by omega)
  have h4ne : ((2 ^ (B - 2) : ℕ) : ℝ) ≠ 0 := by
    exact_mod_cast (show 2 ^ (B - 2) ≠ 0 from by positivity)
  rw [htri, h4]
  constructor
  · rw [htbl _ (by simp only [NEL_d4]; omega)]
    have : ((2 ^ (B - 2) + i * 2 ^ (B - s) : ℕ) : ℝ) * (2 * Real.pi) / ((2 ^ B : ℕ) : ℝ) =
        2 * Real.pi * i / ((2 * h : ℕ) : ℝ) + Real.pi / 2 := by
      have e1 : ((2 ^ (B - 2) : ℕ) : ℝ) * (2 * Real.pi) / ((2 ^ B : ℕ) : ℝ) = Real.pi / 2 := by
        rw [hN4r]; field_simp; ring
      have e2 : ((i * 2 ^ (B - s) : ℕ) : ℝ) * (2 * Real.pi) / ((2 ^ B : ℕ) : ℝ) =
          2 * Real.pi * i / ((2 * h : ℕ) : ℝ) := by
        rw [hNr]; push_cast; field_simp; ring
      rw [Nat.cast_add, add_mul, add_div, e1, e2]; ring
    rw [this, Real.sin_add_pi_div_two]
  · rw [htbl _ (by simp only [NEL_d4]; omega)]
    congr 1
    rw [hNr]; push_cast; field_simp; ring

/-- Every stage of the cascade is the radix-2 Hartley butterfly on each block. -/
theorem stageF_real (B s h q i : Nat) (tbl a : Nat → ℝ) (hs1 : 1 ≤ s) (hs : s ≤ B)
    (hB2 : 2 ≤ B) (hL : 2 ^ s = 2 * h) (hi : i < h)
    (htbl : ∀ i, i < 3 * NEL_d4 (2 ^ B) + 1 →
      tbl i = Real.sin (((i : ℝ) * (2 * Real.pi)) / ((2 ^ B : ℕ) : ℝ))) :
    stageF (2 ^ B) tbl s a (q * 2 ^ s + i) = a (q * 2 ^ s + i) +
      (if i = 0 then a (q * 2 ^ s + h)
       else a (q * 2 ^ s + h + i) * Real.cos (2 * Real.pi * i / ((2 * h : ℕ) : ℝ)) +
         a (q * 2 ^ s + 2 ^ s - i) * Real.sin (2 * Real.pi * i / ((2 * h : ℕ) : ℝ))) ∧
    stageF (2 ^ B) tbl s a (q * 2 ^ s + h + i) = a (q * 2 ^ s + i) -
      (if i = 0 then a (q * 2 ^ s + h)
       else a (q * 2 ^ s + h + i) * Real.cos (2 * Real.pi * i / ((2 * h : ℕ) : ℝ)) +
         a (q * 2 ^ s + 2 ^ s - i) * Real.sin (2 * Real.pi * i / ((2 * h : ℕ) : ℝ))) := by
  by_cases h1 : s = 1
  · subst h1
    have hh : h = 1 := by simpa using hL.symm
    subst hh
    have hi0 : i = 0 := by omega
    subst hi0
    simp only [stageF, if_true, stage1F, pow_one, Nat.add_zero,
      show (q * 2) % 2 = 0 from by omega, show ¬ (q * 2 + 1) % 2 = 0 from by omega, if_false,
      Nat.add_sub_cancel]
    try exact ⟨trivial, trivial⟩
  · by_cases h2 : s = 2
    · subst h2
      have hh : h = 2 := by norm_num at hL; omega
      subst hh
      have hc : Real.cos (2 * Real.pi * ((1 : ℕ) : ℝ) / ((2 * 2 : ℕ) : ℝ)) = 0 := by
        rw [show 2 * Real.pi * ((1 : ℕ) : ℝ) / ((2 * 2 : ℕ) : ℝ) = Real.pi / 2 from by
          push_cast; ring]
        exact Real.cos_pi_div_two
      have hsn : Real.sin (2 * Real.pi * ((1 : ℕ) : ℝ) / ((2 * 2 : ℕ) : ℝ)) = 1 := by
        rw [show 2 * Real.pi * ((1 : ℕ) : ℝ) / ((2 * 2 : ℕ) : ℝ) = Real.pi / 2 from by
          push_cast; ring]
        exact Real.sin_pi_div_two
      have hi01 : i = 0 ∨ i = 1 := by omega
      rcases hi01 with rfl | rfl
      · simp only [stageF, show ¬ (2 = 1) from by decide, if_false, if_true, stage2F,
          Nat.add_zero, show (q * 2 ^ 2) % 4 < 2 from by omega,
          show ¬ (q * 2 ^ 2 + 2) % 4 < 2 from by omega, Nat.add_sub_cancel]
        try exact ⟨trivial, trivial⟩
      · simp only [stageF, show ¬ (2 = 1) from by decide, if_false, if_true, stage2F,
          show (q * 2 ^ 2 + 1) % 4 < 2 from by omega,
          show ¬ (q * 2 ^ 2 + 2 + 1) % 4 < 2 from by omega, hc, hsn,
          show ¬ (1 = 0) from by decide, mul_zero, mul_one, zero_add,
          show q * 2 ^ 2 + 2 + 1 - 2 = q * 2 ^ 2 + 1 from by omega,
          show q * 2 ^ 2 + 1 + 2 = q * 2 ^ 2 + 2 + 1 from by omega,
          show q * 2 ^ 2 + 2 ^ 2 - 1 = q * 2 ^ 2 + 2 + 1 from by norm_num]
        try exact ⟨trivial, trivial⟩
    · obtain ⟨hc, hsn⟩ := table_cos_sin B s h i tbl hs hB2 hL hi htbl
      simp only [stageF, h1, h2, if_false]
      rw [stageXF_lo (2 ^ B) tbl s a q i h hL hi, stageXF_hi (2 ^ B) tbl s a q i h hL hi, hc, hsn]
      exact ⟨rfl, rfl⟩

theorem hartley_congr (L : Nat) (z z' : Nat → ℝ) (k : Nat) (h : ∀ t, t < L → z t = z' t) :
    hartley Real.cos Real.sin (2 * Real.pi) L z k =
      hartley Real.cos Real.sin (2 * Real.pi) L z' k := by
  unfold hartley
  apply Finset.sum_congr rfl
  intro t ht
  rw [h t (Finset.mem_range.mp ht)]

/-- After stage `s`, block `q` of the working array holds the `2^s`-point
Hartley sums of the decimated input `t ↦ x[rev(q) + 2^(B-s) t]`. -/
theorem bufAfter_hartley (B : Nat) (tbl x w : Nat → ℝ) (hB2 : 2 ≤ B)
    (htbl : ∀ i, i < 3 * NEL_d4 (2 ^ B) + 1 →
      tbl i = Real.sin (((i : ℝ) * (2 * Real.pi)) / ((2 ^ B : ℕ) : ℝ))) :
    ∀ s, s ≤ B → ∀ q k, q < 2 ^ (B - s) → k < 2 ^ s →
      bufAfter (2 ^ B) B tbl x w s (q * 2 ^ s + k) =
        hartley Real.cos Real.sin (2 * Real.pi) (2 ^ s)
          (fun t => x (reverse_bits (B - s) q + 2 ^ (B - s) * t)) k := by
  intro s
  induction s with
  | zero =>
    intro _ q k hq hk
    have hk0 : k = 0 := by simpa using hk
    subst hk0
    have hq' : q < 2 ^ B := by simpa using hq
    simp [bufAfter, hq', hartley]
  | succ s ih =>
    intro hs q k hq hk
    have ih' := ih (by omega)
    set h := 2 ^ s with hh
    have hL : 2 ^ (s + 1) = 2 * h := by rw [pow_succ]; ring
    have hc : 2 ^ (B - s) = 2 * 2 ^ (B - (s + 1)) := by
      rw [← pow_succ']; congr 1; omega
    have hN : 2 ^ B = 2 ^ (B - (s + 1)) * 2 ^ (s + 1) := by rw [← pow_add]; congr 1; omega
    have hhpos : 0 < h := Nat.pow_pos (by norm_num)
    have hjN : q * 2 ^ (s + 1) + k < 2 ^ B := by
      have := Nat.mul_le_mul_right (2 ^ (s + 1)) (show q + 1 ≤ 2 ^ (B - (s + 1)) from hq)
      rw [Nat.succ_mul] at this
      omega
    set c := 2 ^ (B - (s + 1)) with hcdef
    set r := reverse_bits (B - (s + 1)) q with hr
    have hBs : B - s = (B - (s + 1)) + 1 := by omega
    have hre : reverse_bits (B - s) (2 * q) = r := by
      rw [hBs, reverse_bits_even]
    have hro : reverse_bits (B - s) (2 * q + 1) = c + r := by
      rw [hBs, reverse_bits_odd]
    -- the two half blocks, by the induction hypothesis
    have hE : ∀ i, i < h → bufAfter (2 ^ B) B tbl x w s (q * (2 * h) + i) =
        hartley Real.cos Real.sin (2 * Real.pi) h
          (fun t => x (r + c * (2 * t))) i := by
      intro i hi
      have := ih' (2 * q) i (by omega) hi
      rw [show 2 * q * h + i = q * (2 * h) + i from by ring] at this
      rw [this, hre]
      apply hartley_congr
      intro t _
      rw [hc]; congr 1; ring
    have hO : ∀ i, i < h → bufAfter (2 ^ B) B tbl x w s (q * (2 * h) + h + i) =
        hartley Real.cos Real.sin (2 * Real.pi) h
          (fun t => x (r + c * (2 * t + 1))) i := by
      intro i hi
      have := ih' (2 * q + 1) i (by omega) hi
      rw [show (2 * q + 1) * h + i = q * (2 * h) + h + i from by ring] at this
      rw [this, hro]
      apply hartley_congr
      intro t _
      rw [hc]; congr 1; ring
    have hO' : ∀ i, 1 ≤ i → i < h →
        bufAfter (2 ^ B) B tbl x w s (q * (2 * h) + 2 * h - i) =
        hartley Real.cos Real.sin (2 * Real.pi) h
          (fun t => x (r + c * (2 * t + 1))) (h - i) := by
      intro i hi1 hi
      have := hO (h - i) (by omega)
      rw [show q * (2 * h) + h + (h - i) = q * (2 * h) + 2 * h - i from by omega] at this
      exact this
    have hbuf : bufAfter (2 ^ B) B tbl x w (s + 1) (q * 2 ^ (s + 1) + k) =
        stageF (2 ^ B) tbl (s + 1) (bufAfter (2 ^ B) B tbl x w s) (q * 2 ^ (s + 1) + k) := by
      simp only [bufAfter, hjN, if_true]
    rw [hbuf]
    by_cases hk2 : k < h
    · rw [(stageF_real B (s + 1) h q k tbl _ (by omega) hs hB2 hL hk2 htbl).1, hL,
        hartley_lo h hhpos _ k hk2, hE k hk2]
      congr 1
      by_cases hk0 : k = 0
      · subst hk0
        simp only [if_true]
        exact hO 0 hhpos
      · simp only [hk0, if_false]
        rw [hO k hk2, hO' k (by omega) hk2]
    · obtain ⟨i, rfl⟩ : ∃ i, k = h + i := ⟨k - h, by omega⟩
      have hi : i < h := by omega
      rw [← Nat.add_assoc, (stageF_real B (s + 1) h q i tbl _ (by omega) hs hB2 hL hi htbl).2,
        hL, hartley_hi h hhpos _ i hi, hE i hi]
      congr 1
      by_cases hk0 : i = 0
      · subst hk0
        simp only [if_true]
        exact hO 0 hhpos
      · simp only [hk0, if_false]
        rw [hO i hi, hO' i (by omega) hi]

/-! ## dfht_do as a function of the memory -/

theorem norm_loop_eq [Field α] (N fuel : Nat) (m : Mem α) (hN : N < 65536) (hf : N < fuel) :
    (loop (fun s : NormSt α => decide (s.j < N))
      (fun s => do
        let v ← s.m.rd N .pdaten s.j
        let m1 ← s.m.wr N .pdaten s.j (v / (N : α))
        some { j := u16 (s.j + 1), m := m1 })
      fuel { j := 0, m := m }).map (fun s => s.m) = some (normMem N m) := by
  let f : Nat → NormSt α := fun k =>
    { j := k, m := { m with pdaten := fun j => if j < k then m.pdaten j / (N : α)
                                               else m.pdaten j } }
  have h0 : ({ j := 0, m := m } : NormSt α) = f 0 := by
    simp only [f, Nat.not_lt_zero, if_false]
  rw [h0, loop_iterate _ _ f N _ _ fuel hf]
  · rfl
  · intro k hk
    refine ⟨by simpa [f] using hk, ?_⟩
    simp only [f, Option.bind_eq_bind, Mem.rd, Mem.wr, hk, if_true, Option.some_bind, Mem.get,
      Mem.set, Nat.lt_irrefl, if_false]
    rw [u16_of_lt (by omega), Option.some.injEq, NormSt.mk.injEq]
    refine ⟨rfl, ?_⟩
    congr 1
    funext j
    by_cases h1 : j = k
    · subst h1; simp
    · rw [Function.update_noteq h1]
      have : j < k + 1 ↔ j < k := by omega
      simp only [this]
  · simp [f]

theorem dfht_do_eq [Field α] (B fuel : Nat) (sin : α → α) (M_TWO_PI : α) (m : Mem α)
    (richtung : Nat) (h3 : 3 ≤ B) (hB : B ≤ 15) (hf : 2 ^ B < fuel) :
    dfht_do (2 ^ B) B sin M_TWO_PI fuel m richtung =
      some (if richtung = 0 then normMem (2 ^ B) (cascadeMem (2 ^ B) B sin M_TWO_PI m)
            else cascadeMem (2 ^ B) B sin M_TWO_PI m) := by
  have hN : 2 ^ B ≤ 2 ^ 15 := Nat.pow_le_pow_right (by norm_num) hB
  unfold dfht_do
  simp only [Option.bind_eq_bind, dfht_cascade_eq B fuel sin M_TWO_PI m h3 hB hf,
    Option.some_bind]
  by_cases hr : richtung = 0
  · rw [if_pos hr, if_pos hr]
    exact norm_loop_eq (2 ^ B) fuel _ (by omega) hf
  · rw [if_neg hr, if_neg hr]

theorem bit_reverse_short (N B fuel : Nat) (pfeld : Buf) (m : Mem α) (hN : N < 65536)
    (hf : fuel ≤ N) : bit_reverse N B fuel pfeld m = none := by
  unfold bit_reverse
  rw [loop_short _ _ (fun k (s : RevSt α) => s.NEL_cnt = k) N _ fuel 0 _ rfl (by omega)]
  · rfl
  · intro k s hs hk
    refine ⟨by simp only [decide_eq_true_eq]; omega, ?_⟩
    intro s' h
    simp only [Option.bind_eq_bind, Option.bind_eq_some] at h
    obtain ⟨r, -, h⟩ := h
    split at h
    · simp only [Option.bind_eq_some] at h
      obtain ⟨_, -, _, -, _, -, _, -, h⟩ := h
      cases h
      simp only [hs]
      exact u16_of_lt (by omega)
    · cases h
      simp only [hs]
      exact u16_of_lt (by omega)

theorem dfht_do_short [Field α] (N B fuel : Nat) (sin : α → α) (M_TWO_PI : α) (m : Mem α)
    (richtung : Nat) (hN : N < 65536) (hf : fuel ≤ N) :
    dfht_do N B sin M_TWO_PI fuel m richtung = none := by
  unfold dfht_do dfht_cascade
  simp only [Option.bind_eq_bind, bit_reverse_short N B fuel _ _ hN hf, Option.none_bind]
  cases init_dfht N sin M_TWO_PI fuel m <;> rfl

/-! ## Orthogonality of the Hartley kernel -/

/-- Sum of the `N`-th roots of unity `exp(2πi·d·t/N)`, `t < N`. -/
theorem sum_exp_roots (N : Nat) (hN : 0 < N) (d : ℤ) :
    ∑ t in Finset.range N,
        Complex.exp (((2 * Real.pi * (d : ℝ) * (t : ℝ) / (N : ℝ) : ℝ) : ℂ) * Complex.I) =
      if (N : ℤ) ∣ d then (N : ℂ) else 0 := by
  have hNne : (N : ℂ) ≠ 0 := by exact_mod_cast (show N ≠ 0 by omega)
  have hpi : (Real.pi : ℂ) ≠ 0 := by exact_mod_cast Real.pi_ne_zero
  set ζ : ℂ := Complex.exp ((d : ℂ) / (N : ℂ) * (2 * Real.pi * Complex.I)) with hζ
  have hterm : ∀ t : ℕ,
      Complex.exp (((2 * Real.pi * (d : ℝ) * (t : ℝ) / (N : ℝ) : ℝ) : ℂ) * Complex.I) = ζ ^ t := by
    intro t
    rw [hζ, ← Complex.exp_nat_mul]
    congr 1
    push_cast
    field_simp
    ring
  simp only [hterm]
  have hpow : ζ ^ N = 1 := by
    rw [hζ, ← Complex.exp_nat_mul]
    rw [show (N : ℂ) * ((d : ℂ) / (N : ℂ) * (2 * Real.pi * Complex.I)) =
      (d : ℂ) * (2 * Real.pi * Complex.I) from by field_simp]
    exact Complex.exp_int_mul_two_pi_mul_I d
  by_cases hd : (N : ℤ) ∣ d
  · rw [if_pos hd]
    obtain ⟨c, rfl⟩ := hd
    have hone : ζ = 1 := by
      rw [hζ]
      rw [show (((N : ℤ) * c : ℤ) : ℂ) / (N : ℂ) * (2 * Real.pi * Complex.I) =
        (c : ℂ) * (2 * Real.pi * Complex.I) from by push_cast; field_simp]
      exact Complex.exp_int_mul_two_pi_mul_I c
    simp [hone]
  · rw [if_neg hd]
    have hne : ζ ≠ 1 := by
      intro h1
      rw [hζ, Complex.exp_eq_one_iff] at h1
      obtain ⟨n, hn⟩ := h1
      apply hd
      refine ⟨n, ?_⟩
      have h2 : (d : ℂ) / (N : ℂ) = (n : ℂ) := by
        have h2pi : (2 * (Real.pi : ℂ) * Complex.I) ≠ 0 := by
          simp [hpi, Complex.I_ne_zero]
        exact mul_right_cancel₀ h2pi hn
      have h3 : (d : ℂ) = (N : ℂ) * (n : ℂ) := by
        rw [← h2]; field_simp
      exact_mod_cast h3
    rw [geom_sum_eq hne, hpow, sub_self, zero_div]

theorem sum_cos_roots (N : Nat) (hN : 0 < N) (d : ℤ) :
    ∑ t in Finset.range N, Real.cos (2 * Real.pi * (d : ℝ) * (t : ℝ) / (N : ℝ)) =
      if (N : ℤ) ∣ d then (N : ℝ) else 0 := by
  have h := congrArg Complex.re (sum_exp_roots N hN d)
  rw [Complex.re_sum] at h
  simp only [Complex.exp_ofReal_mul_I_re] at h
  rw [h]
  split <;> simp

theorem sum_sin_roots (N : Nat) (hN : 0 < N) (d : ℤ) :
    ∑ t in Finset.range N, Real.sin (2 * Real.pi * (d : ℝ) * (t : ℝ) / (N : ℝ)) = 0 := by
  have h := congrArg Complex.im (sum_exp_roots N hN d)
  rw [Complex.im_sum] at h
  simp only [Complex.exp_ofReal_mul_I_im] at h
  rw [h]
  split <;> simp

theorem cas_mul_cas (A C : ℝ) :
    (Real.cos A + Real.sin A) * (Real.cos C + Real.sin C) =
      Real.cos (A - C) + Real.sin (A + C) := by
  rw [Real.cos_sub, Real.sin_add]; ring

/-- Orthogonality of the Hartley kernel. -/
theorem cas_orthogonal (N : Nat) (hN : 0 < N) (u t : Nat) (hu : u < N) (ht : t < N) :
    ∑ v in Finset.range N,
      (Real.cos (2 * Real.pi * (v : ℝ) * (u : ℝ) / (N : ℝ)) +
        Real.sin (2 * Real.pi * (v : ℝ) * (u : ℝ) / (N : ℝ))) *
      (Real.cos (2 * Real.pi * (t : ℝ) * (v : ℝ) / (N : ℝ)) +
        Real.sin (2 * Real.pi * (t : ℝ) * (v : ℝ) / (N : ℝ))) =
      if u = t then (N : ℝ) else 0 := by
  have h1 : ∀ v : ℕ,
      (Real.cos (2 * Real.pi * (v : ℝ) * (u : ℝ) / (N : ℝ)) +
        Real.sin (2 * Real.pi * (v : ℝ) * (u : ℝ) / (N : ℝ))) *
      (Real.cos (2 * Real.pi * (t : ℝ) * (v : ℝ) / (N : ℝ)) +
        Real.sin (2 * Real.pi * (t : ℝ) * (v : ℝ) / (N : ℝ))) =
      Real.cos (2 * Real.pi * (((u : ℤ) - (t : ℤ) : ℤ) : ℝ) * (v : ℝ) / (N : ℝ)) +
        Real.sin (2 * Real.pi * (((u : ℤ) + (t : ℤ) : ℤ) : ℝ) * (v : ℝ) / (N : ℝ)) := by
    intro v
    rw [cas_mul_cas]
    congr 2 <;> (push_cast; ring)
  simp only [h1]
  rw [Finset.sum_add_distrib, sum_cos_roots N hN, sum_sin_roots N hN, add_zero]
  by_cases hut : u = t
  · subst hut
    simp
  · rw [if_neg hut, if_neg]
    intro hdvd
    obtain ⟨c, hc⟩ := hdvd
    have hc0 : c = 0 := by
      by_contra hne
      rcases lt_or_gt_of_ne hne with h | h
      · have : (N : ℤ) * c ≤ (N : ℤ) * (-1) := by
          apply mul_le_mul_of_nonneg_left (by omega) (by omega)
        omega
      · have : (N : ℤ) * 1 ≤ (N : ℤ) * c := by
          apply mul_le_mul_of_nonneg_left (by omega) (by omega)
        omega
    subst hc0
    omega

/-- The unnormalised Hartley sum of the normalised Hartley sum is the input. -/
theorem hartley_inverse (N : Nat) (hN : 0 < N) (x H : Nat → ℝ) (t : Nat) (ht : t < N)
    (hH : ∀ v, v < N → H v = hartley Real.cos Real.sin (2 * Real.pi) N x v / (N : ℝ)) :
    hartley Real.cos Real.sin (2 * Real.pi) N H t = x t := by
  have hNne : (N : ℝ) ≠ 0 := by exact_mod_cast (show N ≠ 0 by omega)
  unfold hartley
  have h1 : ∀ v ∈ Finset.range N,
      H v * (Real.cos (2 * Real.pi * (t : ℝ) * (v : ℝ) / (N : ℝ)) +
        Real.sin (2 * Real.pi * (t : ℝ) * (v : ℝ) / (N : ℝ))) =
      ∑ u in Finset.range N, x u / (N : ℝ) *
        ((Real.cos (2 * Real.pi * (v : ℝ) * (u : ℝ) / (N : ℝ)) +
          Real.sin (2 * Real.pi * (v : ℝ) * (u : ℝ) / (N : ℝ))) *
        (Real.cos (2 * Real.pi * (t : ℝ) * (v : ℝ) / (N : ℝ)) +
          Real.sin (2 * Real.pi * (t : ℝ) * (v : ℝ) / (N : ℝ)))) := by
    intro v hv
    rw [hH v (Finset.mem_range.mp hv)]
    unfold hartley
    rw [Finset.sum_div, Finset.sum_mul]
    apply Finset.sum_congr rfl
    intro u _
    ring
  rw [Finset.sum_congr rfl h1, Finset.sum_comm]
  have h2 : ∀ u ∈ Finset.range N,
      ∑ v in Finset.range N, x u / (N : ℝ) *
        ((Real.cos (2 * Real.pi * (v : ℝ) * (u : ℝ) / (N : ℝ)) +
          Real.sin (2 * Real.pi * (v : ℝ) * (u : ℝ) / (N : ℝ))) *
        (Real.cos (2 * Real.pi * (t : ℝ) * (v : ℝ) / (N : ℝ)) +
          Real.sin (2 * Real.pi * (t : ℝ) * (v : ℝ) / (N : ℝ)))) =
      if u = t then x u else 0 := by
    intro u hu
    rw [← Finset.mul_sum, cas_orthogonal N hN u t (Finset.mem_range.mp hu) ht]
    by_cases hut : u = t
    · rw [if_pos hut, if_pos hut]; field_simp
    · rw [if_neg hut, if_neg hut, mul_zero]
  rw [Finset.sum_congr rfl h2, Finset.sum_ite_eq' (Finset.range N) t x]
  simp [ht]

/-! ## Analysis and synthesis for sizes up to 32768 -/

theorem initMem_table (N : Nat) (m : Mem ℝ) (ht : TableReady N m) :
    ∀ i, i < 3 * NEL_d4 N + 1 →
      (initMem N Real.sin (2 * Real.pi) m).sinfunc i =
        Real.sin (((i : ℝ) * (2 * Real.pi)) / (N : ℝ)) := by
  intro i hi
  unfold initMem
  by_cases h : m.init ≠ 0
  · rw [if_pos h]; exact ht h i hi
  · rw [if_neg h]; simp only [hi, if_true]

theorem initMem_init [Field α] (N : Nat) (sin : α → α) (M_TWO_PI : α) (m : Mem α) :
    (initMem N sin M_TWO_PI m).init ≠ 0 := by
  unfold initMem
  by_cases h : m.init ≠ 0
  · rw [if_pos h]; exact h
  · rw [if_neg h]; simp

theorem cascadeMem_ready (N B : Nat) (m : Mem ℝ) (ht : TableReady N m) :
    TableReady N (cascadeMem N B Real.sin (2 * Real.pi) m) := by
  intro _ i hi
  exact initMem_table N m ht i hi

theorem normMem_ready (N : Nat) (m : Mem ℝ) (ht : TableReady N m) :
    TableReady N (normMem N m) := ht

/-- The cascade leaves the unnormalised Hartley sums of the input in `pdaten`. -/
theorem cascadeMem_hartley (B : Nat) (m : Mem ℝ) (hB2 : 2 ≤ B) (ht : TableReady (2 ^ B) m)
    (v : Nat) (hv : v < 2 ^ B) :
    (cascadeMem (2 ^ B) B Real.sin (2 * Real.pi) m).pdaten v =
      hartley Real.cos Real.sin (2 * Real.pi) (2 ^ B) m.pdaten v := by
  have h := bufAfter_hartley B (initMem (2 ^ B) Real.sin (2 * Real.pi) m).sinfunc m.pdaten
    m.work_buf hB2 (initMem_table (2 ^ B) m ht) B (le_refl _) 0 v (by simp) hv
  simp only [Nat.zero_mul, Nat.zero_add, Nat.sub_self, pow_zero, Nat.one_mul, reverse_bits] at h
  simp only [cascadeMem]
  rw [h]

theorem cascadeMem_frame [Field α] (N B : Nat) (sin : α → α) (M_TWO_PI : α) (m : Mem α)
    (hB : 1 ≤ B) (v : Nat) (hv : N ≤ v) :
    (cascadeMem N B sin M_TWO_PI m).pdaten v = m.pdaten v := by
  obtain ⟨b, rfl⟩ : ∃ b, B = b + 1 := ⟨B - 1, by omega⟩
  simp only [cascadeMem]
  rw [bufAfter_ge _ _ _ _ _ _ _ hv, if_pos (by omega)]

/-- Analysis for every supported size up to 32768: `dfht_do(pdaten, 0)` returns
and leaves the discrete Hartley transform of the input in `pdaten`. -/
theorem dfht_do_analysis_le_32768 (N B : Nat) (hN : DATA_BITS N = some B) (hB : B ≤ 15)
    (fuel : Nat) (hf : N < fuel) (m : Mem ℝ) (ht : TableReady N m) :
    ∃ m', dfht_do N B Real.sin (2 * Real.pi) fuel m 0 = some m' ∧
      (∀ v, v < N → m'.pdaten v = (1 / (N : ℝ)) * ∑ t in Finset.range N,
        m.pdaten t * (Real.cos (2 * Real.pi * v * t / N) + Real.sin (2 * Real.pi * v * t / N))) ∧
      (∀ v, N ≤ v → m'.pdaten v = m.pdaten v) ∧ TableReady N m' ∧ m'.init ≠ 0 := by
  obtain ⟨rfl, h3, h16⟩ := DATA_BITS_spec hN
  refine ⟨_, dfht_do_eq B fuel Real.sin (2 * Real.pi) m 0 h3 hB hf, ?_, ?_, ?_, ?_⟩
  · intro v hv
    simp only [if_true, normMem, hv]
    rw [cascadeMem_hartley B m (by omega) ht v hv]
    unfold hartley
    rw [div_eq_mul_inv, mul_comm, one_div]
  · intro v hv
    simp only [if_true, normMem, show ¬ v < 2 ^ B from by omega, if_false]
    exact cascadeMem_frame _ B _ _ m (by omega) v hv
  · simp only [if_true]
    exact normMem_ready _ _ (cascadeMem_ready _ B m ht)
  · simp only [if_true, normMem, cascadeMem]
    exact initMem_init _ _ _ m

/-- Synthesis for every supported size up to 32768: `dfht_do(pdaten, d)` with
`d ≠ 0` returns and leaves the unnormalised Hartley sums in `pdaten`. -/
theorem dfht_do_synthesis_le_32768 (N B : Nat) (hN : DATA_BITS N = some B) (hB : B ≤ 15)
    (fuel : Nat) (hf : N < fuel) (m : Mem ℝ) (ht : TableReady N m) (d : Nat) (hd : d ≠ 0) :
    ∃ m', dfht_do N B Real.sin (2 * Real.pi) fuel m d = some m' ∧
      (∀ v, v < N → m'.pdaten v = hartley Real.cos Real.sin (2 * Real.pi) N m.pdaten v) ∧
      (∀ v, N ≤ v → m'.pdaten v = m.pdaten v) ∧ TableReady N m' ∧ m'.init ≠ 0 := by
  obtain ⟨rfl, h3, h16⟩ := DATA_BITS_spec hN
  refine ⟨_, dfht_do_eq B fuel Real.sin (2 * Real.pi) m d h3 hB hf, ?_, ?_, ?_, ?_⟩
  · intro v hv
    simp only [hd, if_false]
    exact cascadeMem_hartley B m (by omega) ht v hv
  · intro v hv
    simp only [hd, if_false]
    exact cascadeMem_frame _ B _ _ m (by omega) v hv
  · simp only [hd, if_false]
    exact cascadeMem_ready _ B m ht
  · simp only [hd, if_false, cascadeMem]
    exact initMem_init _ _ _ m

/-! ## Constant and single-tone inputs -/

theorem DATA_BITS_le_32768 {N B : Nat} (h : DATA_BITS N = some B) (hN : N ≤ 32768) : B ≤ 15 := by
  obtain ⟨rfl, h3, h16⟩ := DATA_BITS_spec h
  by_contra hc
  have : B = 16 := by omega
  subst this
  norm_num at hN

theorem DATA_BITS_65536 {N B : Nat} (h : DATA_BITS N = some B) (hN : N = 65536) : B = 16 := by
  subst hN
  have : DATA_BITS 65536 = some 16 := by decide
  rw [this] at h
  cases h; rfl

theorem int_dvd_small (N : Nat) (d : ℤ) (h1 : -(N : ℤ) < d) (h2 : d < N) :
    (N : ℤ) ∣ d ↔ d = 0 := by
  constructor
  · rintro ⟨c, hc⟩
    have hc0 : c = 0 := by
      by_contra hne
      rcases lt_or_gt_of_ne hne with h | h
      · have : (N : ℤ) * c ≤ (N : ℤ) * (-1) := by
          apply mul_le_mul_of_nonneg_left (by omega) (by omega)
        omega
      · have : (N : ℤ) * 1 ≤ (N : ℤ) * c := by
          apply mul_le_mul_of_nonneg_left (by omega) (by omega)
        omega
    subst hc0
    omega
  · rintro rfl
    exact dvd_zero _

/-- Hartley sums of a constant sequence. -/
theorem hartley_const (N : Nat) (hN : 0 < N) (x : Nat → ℝ) (k : ℝ)
    (hx : ∀ t, t < N → x t = k) (v : Nat) (hv : v < N) :
    hartley Real.cos Real.sin (2 * Real.pi) N x v = if v = 0 then (N : ℝ) * k else 0 := by
  unfold hartley
  have h1 : ∀ t ∈ Finset.range N,
      x t * (Real.cos (2 * Real.pi * (v : ℝ) * (t : ℝ) / (N : ℝ)) +
        Real.sin (2 * Real.pi * (v : ℝ) * (t : ℝ) / (N : ℝ))) =
      k * Real.cos (2 * Real.pi * (((v : ℤ) : ℤ) : ℝ) * (t : ℝ) / (N : ℝ)) +
        k * Real.sin (2 * Real.pi * (((v : ℤ) : ℤ) : ℝ) * (t : ℝ) / (N : ℝ)) := by
    intro t ht
    rw [hx t (Finset.mem_range.mp ht)]
    push_cast
    ring
  rw [Finset.sum_congr rfl h1, Finset.sum_add_distrib, ← Finset.mul_sum, ← Finset.mul_sum,
    sum_cos_roots N hN, sum_sin_roots N hN, mul_zero, add_zero]
  have : ((N : ℤ) ∣ (v : ℤ)) ↔ v = 0 := by
    rw [int_dvd_small N v (by omega) (by omega)]
    omega
  by_cases hv0 : v = 0
  · rw [if_pos (this.mpr hv0), if_pos hv0]; ring
  · rw [if_neg (fun h => hv0 (this.mp h)), if_neg hv0, mul_zero]

/-- Hartley sums of a sine tone of integer frequency `f`. -/
theorem hartley_tone (N : Nat) (hN : 0 < N) (x : Nat → ℝ) (f : Nat) (hf1 : 1 ≤ f)
    (hf2 : f < N / 2)
    (hx : ∀ t, t < N → x t = Real.sin (2 * Real.pi * (f : ℝ) * (t : ℝ) / (N : ℝ)))
    (v : Nat) (hv : v < N) :
    hartley Real.cos Real.sin (2 * Real.pi) N x v =
      if v = f then (N : ℝ) / 2 else if v = N - f then -((N : ℝ) / 2) else 0 := by
  unfold hartley
  have h1 : ∀ t ∈ Finset.range N,
      x t * (Real.cos (2 * Real.pi * (v : ℝ) * (t : ℝ) / (N : ℝ)) +
        Real.sin (2 * Real.pi * (v : ℝ) * (t : ℝ) / (N : ℝ))) =
      (1 / 2) * Real.sin (2 * Real.pi * (((f : ℤ) + (v : ℤ) : ℤ) : ℝ) * (t : ℝ) / (N : ℝ)) +
      (1 / 2) * Real.sin (2 * Real.pi * (((f : ℤ) - (v : ℤ) : ℤ) : ℝ) * (t : ℝ) / (N : ℝ)) +
      (1 / 2) * Real.cos (2 * Real.pi * (((f : ℤ) - (v : ℤ) : ℤ) : ℝ) * (t : ℝ) / (N : ℝ)) -
      (1 / 2) * Real.cos (2 * Real.pi * (((f : ℤ) + (v : ℤ) : ℤ) : ℝ) * (t : ℝ) / (N : ℝ)) := by
    intro t ht
    rw [hx t (Finset.mem_range.mp ht)]
    have ea : 2 * Real.pi * (((f : ℤ) + (v : ℤ) : ℤ) : ℝ) * (t : ℝ) / (N : ℝ) =
        2 * Real.pi * (f : ℝ) * (t : ℝ) / (N : ℝ) + 2 * Real.pi * (v : ℝ) * (t : ℝ) / (N : ℝ) := by
      push_cast; ring
    have es : 2 * Real.pi * (((f : ℤ) - (v : ℤ) : ℤ) : ℝ) * (t : ℝ) / (N : ℝ) =
        2 * Real.pi * (f : ℝ) * (t : ℝ) / (N : ℝ) - 2 * Real.pi * (v : ℝ) * (t : ℝ) / (N : ℝ) := by
      push_cast; ring
    rw [ea, es, Real.sin_add, Real.sin_sub, Real.cos_add, Real.cos_sub]
    ring
  rw [Finset.sum_congr rfl h1, Finset.sum_sub_distrib, Finset.sum_add_distrib,
    Finset.sum_add_distrib, ← Finset.mul_sum, ← Finset.mul_sum, ← Finset.mul_sum,
    ← Finset.mul_sum, sum_cos_roots N hN, sum_cos_roots N hN, sum_sin_roots N hN,
    sum_sin_roots N hN]
  have hd1 : ((N : ℤ) ∣ ((f : ℤ) - (v : ℤ))) ↔ v = f := by
    rw [int_dvd_small N _ (by omega) (by omega)]
    omega
  have hd2 : ((N : ℤ) ∣ ((f : ℤ) + (v : ℤ))) ↔ v = N - f := by
    constructor
    · intro h
      have h' : (N : ℤ) ∣ ((f : ℤ) + (v : ℤ) - (N : ℤ)) := Dvd.dvd.sub h (dvd_refl _)
      rw [int_dvd_small N _ (by omega) (by omega)] at h'
      omega
    · intro h
      have : (f : ℤ) + (v : ℤ) = (N : ℤ) := by omega
      rw [this]
  by_cases hvf : v = f
  · have hne : ¬ v = N - f := by omega
    rw [if_pos hvf, if_pos (hd1.mpr hvf), if_neg (fun h => hne (hd2.mp h))]
    ring
  · rw [if_neg hvf, if_neg (fun h => hvf (hd1.mp h))]
    by_cases hvn : v = N - f
    · rw [if_pos hvn, if_pos (hd2.mpr hvn)]
      ring
    · rw [if_neg hvn, if_neg (fun h => hvn (hd2.mp h))]
      ring

/-! ## The transform: analysis, round trip, directions, test inputs, permutation -/

/-- C1. For every supported size `N` (`DATA_BITS N = some B`): when `N ≤ 32768`
and the fuel exceeds `N`, `dfht_do(pdaten, 0)` returns with
`pdaten[v] = (1/N) Σ_{t<N} x[t] (cos(2πvt/N) + sin(2πvt/N))` for every `v < N`,
`x` being the contents of `pdaten` at the call; when `N = 65536`,
`dfht_do(pdaten, 0)` returns for no amount of fuel. -/
theorem dfht_do_analysis_hartley (N B : Nat) (hN : DATA_BITS N = some B) (fuel : Nat)
    (m : Mem ℝ) :
    (N ≤ 32768 → N < fuel → TableReady N m →
      ∃ m', dfht_do N B Real.sin (2 * Real.pi) fuel m 0 = some m' ∧
        ∀ v, v < N → m'.pdaten v = (1 / (N : ℝ)) * ∑ t in Finset.range N,
          m.pdaten t *
            (Real.cos (2 * Real.pi * v * t / N) + Real.sin (2 * Real.pi * v * t / N))) ∧
    (N = 65536 → dfht_do N B Real.sin (2 * Real.pi) fuel m 0 = none) := by
  constructor
  · intro h1 hf ht
    obtain ⟨m', h, hv, -⟩ :=
      dfht_do_analysis_le_32768 N B hN (DATA_BITS_le_32768 hN h1) fuel hf m ht
    exact ⟨m', h, hv⟩
  · intro h
    have hB := DATA_BITS_65536 hN h
    subst h; subst hB
    exact dfht_do_65536 _ _ fuel m 0

theorem dfht_do_analysis_hartley_witness :
    ∃ m', dfht_do 8 3 Real.sin (2 * Real.pi) 9
        { pdaten := fun t => (t : ℝ), work_buf := fun _ => 0, sinfunc := fun _ => 0, init := 0 }
        0 = some m' ∧
      ∀ v, v < 8 → m'.pdaten v = (1 / ((8 : ℕ) : ℝ)) * ∑ t in Finset.range 8,
        (fun t : ℕ => (t : ℝ)) t *
          (Real.cos (2 * Real.pi * v * t / (8 : ℕ)) + Real.sin (2 * Real.pi * v * t / (8 : ℕ))) :=
  (dfht_do_analysis_hartley 8 3 (by decide) 9
    { pdaten := fun t => (t : ℝ), work_buf := fun _ => 0, sinfunc := fun _ => 0, init := 0 }).1
    (by norm_num) (by norm_num) (fun h => absurd rfl h)

/-- C2. For every supported size `N`: when `N ≤ 32768` and the fuel exceeds
`N`, `dfht_do(pdaten, 0)` followed by `dfht_do(pdaten, 1)` on the memory the
first call left returns with `pdaten` equal to its initial contents at every
index; when `N = 65536` the first call returns for no amount of fuel. -/
theorem dfht_do_round_trip (N B : Nat) (hN : DATA_BITS N = some B) (fuel : Nat) (m : Mem ℝ) :
    (N ≤ 32768 → N < fuel → TableReady N m →
      ∃ m' m'', dfht_do N B Real.sin (2 * Real.pi) fuel m 0 = some m' ∧
        dfht_do N B Real.sin (2 * Real.pi) fuel m' 1 = some m'' ∧
        ∀ t, m''.pdaten t = m.pdaten t) ∧
    (N = 65536 → dfht_do N B Real.sin (2 * Real.pi) fuel m 0 = none) := by
  constructor
  · intro h1 hf ht
    have hB := DATA_BITS_le_32768 hN h1
    obtain ⟨h8, -⟩ := DATA_BITS_bounds hN
    obtain ⟨m', h, hv, hfr, ht', -⟩ := dfht_do_analysis_le_32768 N B hN hB fuel hf m ht
    obtain ⟨m'', h', hv', hfr', -⟩ :=
      dfht_do_synthesis_le_32768 N B hN hB fuel hf m' ht' 1 (by decide)
    refine ⟨m', m'', h, h', ?_⟩
    intro t
    by_cases htN : t < N
    · rw [hv' t htN]
      apply hartley_inverse N (by omega) m.pdaten m'.pdaten t htN
      intro v hvN
      rw [hv v hvN]
      unfold hartley
      ring
    · rw [hfr' t (by omega), hfr t (by omega)]
  · intro h
    have hB := DATA_BITS_65536 hN h
    subst h; subst hB
    exact dfht_do_65536 _ _ fuel m 0

theorem dfht_do_round_trip_witness :
    DATA_BITS 64 = some 6 ∧
    ∀ err : ℕ, err < 5 →
      ∃ m' m'', dfht_do 64 6 Real.sin (2 * Real.pi) 65
          { pdaten := fun i =>
              0.4 * 20 * Real.sin ((2 + (err : ℝ) / 5) * (2 * Real.pi) * (i : ℝ) / 64),
            work_buf := fun _ => 0, sinfunc := fun _ => 0, init := 0 } 0 = some m' ∧
        dfht_do 64 6 Real.sin (2 * Real.pi) 65 m' 1 = some m'' ∧
        ∀ t : ℕ, m''.pdaten t =
          0.4 * 20 * Real.sin ((2 + (err : ℝ) / 5) * (2 * Real.pi) * (t : ℝ) / 64) :=
  ⟨by decide, fun err _ =>
    (dfht_do_round_trip 64 6 (by decide) 65
      { pdaten := fun i =>
          0.4 * 20 * Real.sin ((2 + (err : ℝ) / 5) * (2 * Real.pi) * (i : ℝ) / 64),
        work_buf := fun _ => 0, sinfunc := fun _ => 0, init := 0 }).1
      (by norm_num) (by norm_num) (fun h => absurd rfl h)⟩

/-- C3. For every supported size, every fuel, every memory and every non-zero
direction `d`: `dfht_do(pdaten, 0)` returns exactly when `dfht_do(pdaten, d)`
does, and then its result is that of `dfht_do(pdaten, d)` with the `N` elements
of `pdaten` divided by `N`; `dfht_do(pdaten, d)` is the bare cascade, without
normalisation; both return whenever `N ≤ 32768` and the fuel exceeds `N`. -/
theorem dfht_do_directions [Field α] (N B : Nat) (hN : DATA_BITS N = some B)
    (sin : α → α) (M_TWO_PI : α) (fuel : Nat) (m : Mem α) (d : Nat) (hd : d ≠ 0) :
    dfht_do N B sin M_TWO_PI fuel m 0 =
      (dfht_do N B sin M_TWO_PI fuel m d).map (fun r =>
        { r with pdaten := fun v => if v < N then r.pdaten v / (N : α) else r.pdaten v }) ∧
    dfht_do N B sin M_TWO_PI fuel m d = dfht_cascade N B sin M_TWO_PI fuel m ∧
    (N ≤ 32768 → N < fuel → (dfht_do N B sin M_TWO_PI fuel m d).isSome = true) := by
  have hcas : dfht_do N B sin M_TWO_PI fuel m d = dfht_cascade N B sin M_TWO_PI fuel m := by
    unfold dfht_do
    simp only [Option.bind_eq_bind, hd, if_false]
    cases dfht_cascade N B sin M_TWO_PI fuel m <;> rfl
  obtain ⟨rfl, h3, h16⟩ := DATA_BITS_spec hN
  refine ⟨?_, hcas, ?_⟩
  · by_cases hB : B ≤ 15
    · have hN' : 2 ^ B ≤ 2 ^ 15 := Nat.pow_le_pow_right (by norm_num) hB
      by_cases hf : 2 ^ B < fuel
      · rw [dfht_do_eq B fuel sin M_TWO_PI m 0 h3 hB hf,
          dfht_do_eq B fuel sin M_TWO_PI m d h3 hB hf]
        simp only [if_true, hd, if_false, Option.map_some']
        rfl
      · rw [dfht_do_short _ B fuel sin M_TWO_PI m 0 (by omega) (by omega),
          dfht_do_short _ B fuel sin M_TWO_PI m d (by omega) (by omega)]
        rfl
    · have : B = 16 := by omega
      subst this
      rw [show (2 : ℕ) ^ 16 = 65536 from by norm_num, dfht_do_65536, dfht_do_65536]
      rfl
  · intro h1 hf
    have hB := DATA_BITS_le_32768 hN h1
    rw [dfht_do_eq B fuel sin M_TWO_PI m d h3 hB hf]
    rfl

theorem dfht_do_directions_witness :
    dfht_do 8 3 (fun x : ℚ => x) 6 9
        { pdaten := fun t => (t : ℚ), work_buf := fun _ => 0, sinfunc := fun _ => 0, init := 0 }
        0 =
      (dfht_do 8 3 (fun x : ℚ => x) 6 9
        { pdaten := fun t => (t : ℚ), work_buf := fun _ => 0, sinfunc := fun _ => 0, init := 0 }
        1).map (fun r =>
        { r with pdaten := fun v => if v < 8 then r.pdaten v / ((8 : ℕ) : ℚ) else r.pdaten v }) ∧
    dfht_do 8 3 (fun x : ℚ => x) 6 9
        { pdaten := fun t => (t : ℚ), work_buf := fun _ => 0, sinfunc := fun _ => 0, init := 0 }
        1 =
      dfht_cascade 8 3 (fun x : ℚ => x) 6 9
        { pdaten := fun t => (t : ℚ), work_buf := fun _ => 0, sinfunc := fun _ => 0, init := 0 } ∧
    (8 ≤ 32768 → 8 < 9 → (dfht_do 8 3 (fun x : ℚ => x) 6 9
        { pdaten := fun t => (t : ℚ), work_buf := fun _ => 0, sinfunc := fun _ => 0, init := 0 }
        1).isSome = true) :=
  dfht_do_directions 8 3 (by decide) (fun x : ℚ => x) 6 9
    { pdaten := fun t => (t : ℚ), work_buf := fun _ => 0, sinfunc := fun _ => 0, init := 0 }
    1 (by decide)

/-- C8. For every supported size `N`: when `N ≤ 32768`, the fuel exceeds `N`
and every input sample equals `k`, `dfht_do(pdaten, 0)` returns with
`pdaten[0] = k` and `pdaten[v] = 0` for `1 ≤ v < N`; when `N = 65536` it returns
for no amount of fuel. -/
theorem dfht_do_constant_input (N B : Nat) (hN : DATA_BITS N = some B) (fuel : Nat)
    (m : Mem ℝ) (k : ℝ) :
    (N ≤ 32768 → N < fuel → TableReady N m → (∀ t, t < N → m.pdaten t = k) →
      ∃ m', dfht_do N B Real.sin (2 * Real.pi) fuel m 0 = some m' ∧
        m'.pdaten 0 = k ∧ ∀ v, 1 ≤ v → v < N → m'.pdaten v = 0) ∧
    (N = 65536 → dfht_do N B Real.sin (2 * Real.pi) fuel m 0 = none) := by
  constructor
  · intro h1 hf ht hk
    have hB := DATA_BITS_le_32768 hN h1
    obtain ⟨h8, -⟩ := DATA_BITS_bounds hN
    have hNne : (N : ℝ) ≠ 0 := by exact_mod_cast (show N ≠ 0 by omega)
    obtain ⟨m', h, hv, -⟩ := dfht_do_analysis_le_32768 N B hN hB fuel hf m ht
    have hH : ∀ v, v < N → m'.pdaten v = (1 / (N : ℝ)) * (if v = 0 then (N : ℝ) * k else 0) := by
      intro v hvN
      rw [hv v hvN, ← hartley_const N (by omega) m.pdaten k hk v hvN]
      rfl
    refine ⟨m', h, ?_, ?_⟩
    · rw [hH 0 (by omega), if_pos rfl]; field_simp
    · intro v hv1 hvN
      rw [hH v hvN, if_neg (by omega), mul_zero]
  · intro h
    have hB := DATA_BITS_65536 hN h
    subst h; subst hB
    exact dfht_do_65536 _ _ fuel m 0

theorem dfht_do_constant_input_witness :
    ∃ m', dfht_do 8 3 Real.sin (2 * Real.pi) 9
        { pdaten := fun _ => (7 : ℝ), work_buf := fun _ => 0, sinfunc := fun _ => 0, init := 0 }
        0 = some m' ∧
      m'.pdaten 0 = 7 ∧ ∀ v, 1 ≤ v → v < 8 → m'.pdaten v = 0 :=
  (dfht_do_constant_input 8 3 (by decide) 9
    { pdaten := fun _ => (7 : ℝ), work_buf := fun _ => 0, sinfunc := fun _ => 0, init := 0 }
    7).1 (by norm_num) (by norm_num) (fun h => absurd rfl h) (fun _ _ => rfl)

/-- C9. For every supported size `N`: when `N ≤ 32768`, the fuel exceeds `N`,
`1 ≤ f < N/2` and `x[i] = sin(2πfi/N)`, `dfht_do(x, 0)` followed by
`dfht_power` returns with `out[v] < out[f]` for every `v < N/2` other than `f`,
and the returned maximum is `out[f]`; when `N = 65536`, `dfht_do` returns for no
amount of fuel. -/
theorem dfht_single_tone_spectrum (N B : Nat) (hN : DATA_BITS N = some B) (fuel : Nat)
    (m : Mem ℝ) (f : Nat) (out : Nat → ℝ) :
    (N ≤ 32768 → N < fuel → TableReady N m → 1 ≤ f → f < N / 2 →
      (∀ i, i < N → m.pdaten i = Real.sin (2 * Real.pi * (f : ℝ) * (i : ℝ) / (N : ℝ))) →
      ∃ m' out' mx, dfht_do N B Real.sin (2 * Real.pi) fuel m 0 = some m' ∧
        dfht_power N fuel m'.pdaten out = some (out', mx) ∧
        (∀ v, v < N / 2 → v ≠ f → out' v < out' f) ∧ mx = out' f) ∧
    (N = 65536 → dfht_do N B Real.sin (2 * Real.pi) fuel m 0 = none) := by
  constructor
  · intro h1 hf ht hf1 hf2 hx
    have hB := DATA_BITS_le_32768 hN h1
    obtain ⟨h8, h65⟩ := DATA_BITS_bounds hN
    have hNne : (N : ℝ) ≠ 0 := by exact_mod_cast (show N ≠ 0 by omega)
    obtain ⟨m', h, hv, -⟩ := dfht_do_analysis_le_32768 N B hN hB fuel hf m ht
    have hH : ∀ v, v < N → m'.pdaten v =
        if v = f then 1 / 2 else if v = N - f then -(1 / 2) else 0 := by
      intro v hvN
      have e : m'.pdaten v = (1 / (N : ℝ)) *
          hartley Real.cos Real.sin (2 * Real.pi) N m.pdaten v := by
        rw [hv v hvN]; rfl
      rw [e, hartley_tone N (by omega) m.pdaten f hf1 hf2 hx v hvN]
      by_cases h1 : v = f
      · rw [if_pos h1, if_pos h1]; field_simp
      · rw [if_neg h1, if_neg h1]
        by_cases h2 : v = N - f
        · rw [if_pos h2, if_pos h2]; field_simp
        · rw [if_neg h2, if_neg h2, mul_zero]
    set c := m'.pdaten with hc
    have hPf : powerBin c N f = 1 / 2 := by
      unfold powerBin
      rw [if_neg (by omega), hH f (by omega), hH (N - f) (by omega), if_pos rfl,
        if_neg (by omega), if_pos rfl]
      norm_num
    have hP0 : ∀ v, v < N / 2 → v ≠ f → powerBin c N v = 0 := by
      intro v hv2 hvf
      unfold powerBin
      by_cases hv0 : v = 0
      · rw [if_pos hv0, hH 0 (by omega), if_neg (by omega), if_neg (by omega)]
        ring
      · rw [if_neg hv0, hH v (by omega), hH (N - v) (by omega), if_neg hvf, if_neg (by omega),
          if_neg (by omega), if_neg (by omega)]
        ring
    refine ⟨m', _, _, h, dfht_power_eq N fuel c out (by omega) h65 (by omega), ?_, ?_⟩
    · intro v hv2 hvf
      simp only [hv2, hf2, if_true]
      rw [hP0 v hv2 hvf, hPf]
      norm_num
    · simp only [hf2, if_true]
      obtain ⟨v0, hv0, he⟩ := powerMax_mem c N (N / 2 - 1)
      have hge := powerMax_ge c N (N / 2 - 1) f (by omega)
      by_cases hvf : v0 = f
      · rw [he, hvf]
      · rw [he, hP0 v0 (by omega) hvf, hPf] at hge
        norm_num at hge
  · intro h
    have hB := DATA_BITS_65536 hN h
    subst h; subst hB
    exact dfht_do_65536 _ _ fuel m 0

theorem dfht_single_tone_spectrum_witness :
    ∃ m' out' mx, dfht_do 8 3 Real.sin (2 * Real.pi) 9
        { pdaten := fun i => Real.sin (2 * Real.pi * ((1 : ℕ) : ℝ) * (i : ℝ) / ((8 : ℕ) : ℝ)),
          work_buf := fun _ => 0, sinfunc := fun _ => 0, init := 0 } 0 = some m' ∧
      dfht_power 8 9 m'.pdaten (fun _ => 0) = some (out', mx) ∧
      (∀ v, v < 8 / 2 → v ≠ 1 → out' v < out' 1) ∧ mx = out' 1 :=
  (dfht_single_tone_spectrum 8 3 (by decide) 9
    { pdaten := fun i => Real.sin (2 * Real.pi * ((1 : ℕ) : ℝ) * (i : ℝ) / ((8 : ℕ) : ℝ)),
      work_buf := fun _ => 0, sinfunc := fun _ => 0, init := 0 } 1 (fun _ => 0)).1
    (by norm_num) (by norm_num) (fun h => absurd rfl h) (by norm_num) (by norm_num)
    (fun _ _ => rfl)

/-- C10. For every supported size `N`: when `N ≤ 32768` and the fuel exceeds
`N`, `bit_reverse` returns and the value that was at index `i < N` is at index
`reverse_bits B i`, where `reverse_bits B` maps `[0, N)` to itself, is its own
inverse there (so no value is lost or duplicated) and has bit `k` equal to bit
`B-1-k` of its argument; indices from `N` on and the other arrays are not
touched. When `N = 65536`, `bit_reverse` returns for no amount of fuel. -/
theorem bit_reverse_permutes (N B : Nat) (hN : DATA_BITS N = some B) (fuel : Nat)
    (pfeld : Buf) (m : Mem α) :
    (N ≤ 32768 → N < fuel →
      ∃ m', bit_reverse N B fuel pfeld m = some m' ∧
        (∀ i, i < N → reverse_bits B i < N ∧
          m'.get pfeld (reverse_bits B i) = m.get pfeld i) ∧
        (∀ i, i < N → reverse_bits B (reverse_bits B i) = i) ∧
        (∀ i j, i < N → j < N → reverse_bits B i = reverse_bits B j → i = j) ∧
        (∀ j, N ≤ j → m'.get pfeld j = m.get pfeld j) ∧
        (∀ b, b ≠ pfeld → m'.get b = m.get b) ∧ m'.sinfunc = m.sinfunc ∧ m'.init = m.init) ∧
    (∀ i k, (reverse_bits B i).testBit k = (decide (k < B) && i.testBit (B - 1 - k))) ∧
    (N = 65536 → bit_reverse N B fuel pfeld m = none) := by
  refine ⟨?_, reverse_bits_testBit B, ?_⟩
  · intro h1 hf
    have hB := DATA_BITS_le_32768 hN h1
    obtain ⟨rfl, h3, h16⟩ := DATA_BITS_spec hN
    refine ⟨_, bit_reverse_eq B fuel pfeld m hB hf, ?_, ?_, ?_, ?_, ?_, ?_, ?_⟩
    · intro i hi
      have hlt := reverse_bits_lt B i
      refine ⟨hlt, ?_⟩
      simp only [Mem.get_set_same, hlt, if_true, reverse_bits_involutive B i hi]
    · intro i hi
      exact reverse_bits_involutive B i hi
    · intro i j hi hj hij
      rw [← reverse_bits_involutive B i hi, ← reverse_bits_involutive B j hj, hij]
    · intro j hj
      simp only [Mem.get_set_same, show ¬ j < 2 ^ B from by omega, if_false]
    · intro b hb
      exact Mem.get_set_ne m hb _
    · exact Mem.sinfunc_set m _ _
    · exact Mem.init_set m _ _
  · intro h
    have hB := DATA_BITS_65536 hN h
    subst h; subst hB
    exact bit_reverse_65536 fuel pfeld m

theorem bit_reverse_permutes_witness :
    ∃ m', bit_reverse 8 3 9 Buf.pdaten
        ({ pdaten := fun i => i, work_buf := fun _ => 0, sinfunc := fun _ => 0, init := 0 } :
          Mem ℕ) = some m' ∧
      (∀ i, i < 8 → reverse_bits 3 i < 8 ∧
        m'.get Buf.pdaten (reverse_bits 3 i) =
          ({ pdaten := fun i => i, work_buf := fun _ => 0, sinfunc := fun _ => 0, init := 0 } :
            Mem ℕ).get Buf.pdaten i) ∧
      (∀ i, i < 8 → reverse_bits 3 (reverse_bits 3 i) = i) ∧
      (∀ i j, i < 8 → j < 8 → reverse_bits 3 i = reverse_bits 3 j → i = j) ∧
      (∀ j, 8 ≤ j → m'.get Buf.pdaten j =
        ({ pdaten := fun i => i, work_buf := fun _ => 0, sinfunc := fun _ => 0, init := 0 } :
          Mem ℕ).get Buf.pdaten j) ∧
      (∀ b, b ≠ Buf.pdaten → m'.get b =
        ({ pdaten := fun i => i, work_buf := fun _ => 0, sinfunc := fun _ => 0, init := 0 } :
          Mem ℕ).get b) ∧
      m'.sinfunc = (fun _ => 0) ∧ m'.init = 0 :=
  (bit_reverse_permutes 8 3 (by decide) 9 Buf.pdaten
    ({ pdaten := fun i => i, work_buf := fun _ => 0, sinfunc := fun _ => 0, init := 0 } :
      Mem ℕ)).1 (by norm_num) (by norm_num)

/-- C4. For every supported size `N ≤ 32768`, `dfht_do` returns (no loop runs
out of a fuel above `N`, no access leaves its array, no division by zero), and
`stub = 1 << s` is `2^s`, not zero, for the stages `3 ≤ s ≤ 15`. At
`DATA_SIZE = 65536` (a size the header admits, with `DATA_BITS = 16`) the test
`NEL_cnt < NEL` holds for every value of a 16-bit counter, so the loops of
`bit_reverse`, `stage_1` and `stage_2` never exit and `dfht_do` returns for no
amount of fuel; and in stage 16 `stub = 1 << 16` is stored as `0`, so
`NEL / stub` divides by zero. -/
theorem dfht_do_completion [Field α] (sin : α → α) (M_TWO_PI : α) :
    (∀ N B, DATA_BITS N = some B → N ≤ 32768 → ∀ fuel, N < fuel →
      ∀ (m : Mem α) (richtung : Nat),
        (dfht_do N B sin M_TWO_PI fuel m richtung).isSome = true) ∧
    (∀ s, 3 ≤ s → s ≤ 15 → u16 (1 <<< s) = 2 ^ s ∧ u16 (1 <<< s) ≠ 0) ∧
    DATA_BITS 65536 = some 16 ∧
    (∀ c : Nat, u16 c < 65536) ∧
    (∀ (fuel : Nat) (pfeld : Buf) (m : Mem α), bit_reverse 65536 16 fuel pfeld m = none) ∧
    (∀ (fuel : Nat) (src dst : Buf) (m : Mem α), stage_1 65536 fuel src dst m = none) ∧
    (∀ (fuel : Nat) (src dst : Buf) (m : Mem α), stage_2 65536 fuel src dst m = none) ∧
    u16 (1 <<< 16) = 0 ∧
    (∀ (fuel : Nat) (src dst : Buf) (m : Mem α), stage_x 65536 fuel src dst 16 m = none) ∧
    (∀ (fuel : Nat) (m : Mem α) (richtung : Nat),
      dfht_do 65536 16 sin M_TWO_PI fuel m richtung = none) := by
  refine ⟨?_, ?_, by decide, u16_lt, bit_reverse_65536, stage_1_65536, stage_2_65536,
    by decide, stage_x_16_traps 65536, dfht_do_65536 sin M_TWO_PI⟩
  · intro N B hN h1 fuel hf m richtung
    have hB := DATA_BITS_le_32768 hN h1
    obtain ⟨rfl, h3, -⟩ := DATA_BITS_spec hN
    rw [dfht_do_eq B fuel sin M_TWO_PI m richtung h3 hB hf]
    rfl
  · intro s h3 h15
    have h : 2 ^ s ≤ 2 ^ 15 := Nat.pow_le_pow_right (by norm_num) h15
    have hp : 0 < 2 ^ s := Nat.pow_pos (by norm_num)
    rw [Nat.one_shiftLeft, u16_of_lt (by omega)]
    exact ⟨rfl, by omega⟩

theorem dfht_do_completion_witness :
    (dfht_do 8 3 (fun x : ℚ => x) 6 9
      { pdaten := fun t => (t : ℚ), work_buf := fun _ => 0, sinfunc := fun _ => 0, init := 0 }
      0).isSome = true :=
  (dfht_do_completion (fun x : ℚ => x) 6).1 8 3 (by decide) (by norm_num) 9 (by norm_num) _ 0

theorem init_dfht_set [Field α] (N fuel : Nat) (sin : α → α) (M_TWO_PI : α) (m : Mem α)
    (h : m.init ≠ 0) : init_dfht N sin M_TWO_PI fuel m = some m := by
  unfold init_dfht
  rw [if_pos h]

/-- C18. For every supported size and a fuel above `N`, the first call of
`init_dfht` (flag clear) returns with entry `i` of the table equal to
`sin(2πi/N)` for every `i` in `[0, 3N/4]` (`3N/4+1` entries), the flag set to
`1` and everything else untouched; every later call, whatever its fuel, returns
the memory unchanged, so any number `k ≥ 1` of calls leaves the memory of the
first. -/
theorem init_dfht_idempotent (N B : Nat) (hN : DATA_BITS N = some B) (fuel : Nat)
    (hf : N < fuel) (m : Mem ℝ) (h0 : m.init = 0) :
    ∃ m1, init_dfht N Real.sin (2 * Real.pi) fuel m = some m1 ∧
      (∀ i, i < 3 * (N / 4) + 1 → m1.sinfunc i = Real.sin (2 * Real.pi * (i : ℝ) / (N : ℝ))) ∧
      (∀ i, 3 * (N / 4) + 1 ≤ i → m1.sinfunc i = m.sinfunc i) ∧
      m1.init = 1 ∧ m1.pdaten = m.pdaten ∧ m1.work_buf = m.work_buf ∧
      (∀ fuel', init_dfht N Real.sin (2 * Real.pi) fuel' m1 = some m1) ∧
      (∀ k, 1 ≤ k →
        (fun o : Option (Mem ℝ) => o.bind (init_dfht N Real.sin (2 * Real.pi) fuel))^[k]
          (some m) = some m1) := by
  obtain ⟨h8, h65⟩ := DATA_BITS_bounds hN
  have hcall := init_dfht_eq N fuel Real.sin (2 * Real.pi) m h65 hf h8
  have hinit : (initMem N Real.sin (2 * Real.pi) m).init = 1 := by
    simp [initMem, h0]
  have hlater : ∀ fuel', init_dfht N Real.sin (2 * Real.pi) fuel'
      (initMem N Real.sin (2 * Real.pi) m) = some (initMem N Real.sin (2 * Real.pi) m) := by
    intro fuel'
    exact init_dfht_set N fuel' _ _ _ (by rw [hinit]; decide)
  refine ⟨_, hcall, ?_, ?_, hinit, initMem_pdaten _ _ _ m, initMem_work_buf _ _ _ m, hlater, ?_⟩
  · intro i hi
    simp only [initMem, h0, ne_eq, not_true_eq_false, if_false, NEL_d4, hi, if_true]
    congr 1
    ring
  · intro i hi
    simp only [initMem, h0, ne_eq, not_true_eq_false, if_false, NEL_d4,
      show ¬ i < 3 * (N / 4) + 1 from by omega]
  · intro k hk
    induction k with
    | zero => omega
    | succ k ih =>
      rw [Function.iterate_succ_apply']
      by_cases hk0 : k = 0
      · subst hk0
        simp only [Function.iterate_zero, id_eq, Option.some_bind]
        exact hcall
      · rw [ih (by omega), Option.some_bind]
        exact hlater fuel

theorem init_dfht_idempotent_witness :
    ∃ m1, init_dfht 8 Real.sin (2 * Real.pi) 9
        { pdaten := fun _ => 0, work_buf := fun _ => 0, sinfunc := fun _ => 5, init := 0 } =
        some m1 ∧
      (∀ i, i < 3 * (8 / 4) + 1 →
        m1.sinfunc i = Real.sin (2 * Real.pi * (i : ℝ) / ((8 : ℕ) : ℝ))) ∧
      (∀ i, 3 * (8 / 4) + 1 ≤ i → m1.sinfunc i = 5) ∧
      m1.init = 1 ∧ m1.pdaten = (fun _ => 0) ∧ m1.work_buf = (fun _ => 0) ∧
      (∀ fuel', init_dfht 8 Real.sin (2 * Real.pi) fuel' m1 = some m1) ∧
      (∀ k, 1 ≤ k →
        (fun o : Option (Mem ℝ) => o.bind (init_dfht 8 Real.sin (2 * Real.pi) 9))^[k]
          (some { pdaten := fun _ => 0, work_buf := fun _ => 0, sinfunc := fun _ => 5,
                  init := 0 }) = some m1) :=
  init_dfht_idempotent 8 3 (by decide) 9 (by norm_num)
    { pdaten := fun _ => 0, work_buf := fun _ => 0, sinfunc := fun _ => 5, init := 0 } rfl

/-- C11. For every supported size `N`: when `N ≤ 32768` and the fuel exceeds
`N`, `bit_reverse` applied twice returns the memory it started from (the buffer
is back in its original order, nothing else is touched); when `N = 65536`,
`bit_reverse` returns for no amount of fuel. -/
theorem bit_reverse_involution (N B : Nat) (hN : DATA_BITS N = some B) (fuel : Nat)
    (pfeld : Buf) (m : Mem α) :
    (N ≤ 32768 → N < fuel →
      ∃ m1, bit_reverse N B fuel pfeld m = some m1 ∧
        bit_reverse N B fuel pfeld m1 = some m) ∧
    (N = 65536 → bit_reverse N B fuel pfeld m = none) := by
  constructor
  · intro h1 hf
    have hB := DATA_BITS_le_32768 hN h1
    obtain ⟨rfl, h3, h16⟩ := DATA_BITS_spec hN
    refine ⟨_, bit_reverse_eq B fuel pfeld m hB hf, ?_⟩
    rw [bit_reverse_eq B fuel pfeld _ hB hf]
    simp only [Mem.get_set_same, Mem.set_set]
    have : (fun j => if j < 2 ^ B then
        (if reverse_bits B j < 2 ^ B then m.get pfeld (reverse_bits B (reverse_bits B j))
          else m.get pfeld (reverse_bits B j))
        else if j < 2 ^ B then m.get pfeld (reverse_bits B j) else m.get pfeld j) =
        m.get pfeld := by
      funext j
      by_cases hj : j < 2 ^ B
      · simp only [hj, if_true, reverse_bits_lt B j, reverse_bits_involutive B j hj]
      · simp only [hj, if_false]
    rw [this, Mem.set_get]
  · intro h
    have hB := DATA_BITS_65536 hN h
    subst h; subst hB
    exact bit_reverse_65536 fuel pfeld m

theorem bit_reverse_involution_witness :
    ∃ m1, bit_reverse 8 3 9 Buf.pdaten
        ({ pdaten := fun i => i, work_buf := fun _ => 0, sinfunc := fun _ => 0, init := 0 } :
          Mem ℕ) = some m1 ∧
      bit_reverse 8 3 9 Buf.pdaten m1 =
        some ({ pdaten := fun i => i, work_buf := fun _ => 0, sinfunc := fun _ => 0,
                init := 0 } : Mem ℕ) :=
  (bit_reverse_involution 8 3 (by decide) 9 Buf.pdaten
    ({ pdaten := fun i => i, work_buf := fun _ => 0, sinfunc := fun _ => 0, init := 0 } :
      Mem ℕ)).1 (by norm_num) (by norm_num)

/-- C16. For every supported size `N`: when `N ≤ 32768` and the fuel exceeds
`N`, `stage_1(source, dest)` returns with `dest[2k] = f0 + f1` and
`dest[2k+1] = f0 - f1` for every `k < N/2`, where `f0`, `f1` are the values
`source[2k]`, `source[2k+1]` held before the call, whether `dest` is another
array or the same array as `source`; the in-place call leaves in `pdaten[0..N)`
what the transporting call leaves in `work_buf[0..N)`. When `N = 65536`,
`stage_1` returns for no amount of fuel. -/
theorem stage_1_butterfly [Field α] (N B : Nat) (hN : DATA_BITS N = some B) (fuel : Nat)
    (src dst : Buf) (m : Mem α) :
    (N ≤ 32768 → N < fuel →
      (∃ m', stage_1 N fuel src dst m = some m' ∧
        (∀ k, k < N / 2 →
          m'.get dst (2 * k) = m.get src (2 * k) + m.get src (2 * k + 1) ∧
          m'.get dst (2 * k + 1) = m.get src (2 * k) - m.get src (2 * k + 1)) ∧
        (∀ j, N ≤ j → m'.get dst j = m.get dst j) ∧
        (∀ b, b ≠ dst → m'.get b = m.get b)) ∧
      (∃ mi mt, stage_1 N fuel .pdaten .pdaten m = some mi ∧
        stage_1 N fuel .pdaten .work_buf m = some mt ∧
        ∀ j, j < N → mi.pdaten j = mt.work_buf j)) ∧
    (N = 65536 → stage_1 N fuel src dst m = none) := by
  constructor
  · intro h1 hf
    have hB := DATA_BITS_le_32768 hN h1
    obtain ⟨rfl, h3, h16⟩ := DATA_BITS_spec hN
    have hN4 : 2 ^ B = 4 * 2 ^ (B - 2) := by
      rw [show (4 : Nat) = 2 ^ 2 from rfl, ← pow_add]; congr 1; omega
    constructor
    · refine ⟨_, stage_1_eq (2 ^ B) fuel src dst m (by omega) (by omega) (by omega), ?_, ?_, ?_⟩
      · intro k hk
        simp only [Mem.get_set_same, show 2 * k < 2 ^ B from by omega,
          show 2 * k + 1 < 2 ^ B from by omega, if_true, stage1F,
          show (2 * k) % 2 = 0 from by omega, show ¬ (2 * k + 1) % 2 = 0 from by omega,
          if_false, Nat.add_sub_cancel]
        exact ⟨trivial, trivial⟩
      · intro j hj
        simp only [Mem.get_set_same, show ¬ j < 2 ^ B from by omega, if_false]
      · intro b hb
        exact Mem.get_set_ne m hb _
    · refine ⟨_, _, stage_1_eq (2 ^ B) fuel .pdaten .pdaten m (by omega) (by omega) (by omega),
        stage_1_eq (2 ^ B) fuel .pdaten .work_buf m (by omega) (by omega) (by omega), ?_⟩
      intro j hj
      simp only [Mem.set, hj, if_true]
  · intro h
    subst h
    exact stage_1_65536 fuel src dst m

theorem stage_1_butterfly_witness :
    (∃ m', stage_1 8 9 Buf.pdaten Buf.pdaten
        ({ pdaten := fun i => (i : ℚ) * i, work_buf := fun _ => 0, sinfunc := fun _ => 0,
           init := 0 } : Mem ℚ) = some m' ∧
      (∀ k, k < 8 / 2 →
        m'.get Buf.pdaten (2 * k) = (((2 * k : ℕ) : ℚ) * ((2 * k : ℕ) : ℚ)) +
          (((2 * k + 1 : ℕ) : ℚ) * ((2 * k + 1 : ℕ) : ℚ)) ∧
        m'.get Buf.pdaten (2 * k + 1) = (((2 * k : ℕ) : ℚ) * ((2 * k : ℕ) : ℚ)) -
          (((2 * k + 1 : ℕ) : ℚ) * ((2 * k + 1 : ℕ) : ℚ))) ∧
      (∀ j, 8 ≤ j → m'.get Buf.pdaten j = (j : ℚ) * j) ∧
      (∀ b, b ≠ Buf.pdaten → m'.get b =
        ({ pdaten := fun i => (i : ℚ) * i, work_buf := fun _ => 0, sinfunc := fun _ => 0,
           init := 0 } : Mem ℚ).get b)) ∧
    (∃ mi mt, stage_1 8 9 Buf.pdaten Buf.pdaten
        ({ pdaten := fun i => (i : ℚ) * i, work_buf := fun _ => 0, sinfunc := fun _ => 0,
           init := 0 } : Mem ℚ) = some mi ∧
      stage_1 8 9 Buf.pdaten Buf.work_buf
        ({ pdaten := fun i => (i : ℚ) * i, work_buf := fun _ => 0, sinfunc := fun _ => 0,
           init := 0 } : Mem ℚ) = some mt ∧
      ∀ j, j < 8 → mi.pdaten j = mt.work_buf j) :=
  (stage_1_butterfly 8 3 (by decide) 9 Buf.pdaten Buf.pdaten
    ({ pdaten := fun i => (i : ℚ) * i, work_buf := fun _ => 0, sinfunc := fun _ => 0,
       init := 0 } : Mem ℚ)).1 (by norm_num) (by norm_num)

/-- C17. For every supported size `N`: when `N ≤ 32768` and the fuel exceeds
`N`, `stage_2(source, dest)` with distinct arrays returns with
`dest[4k] = f0 + f2`, `dest[4k+1] = f1 + f3`, `dest[4k+2] = f0 - f2`,
`dest[4k+3] = f1 - f3` for every `k < N/4`, where `(f0, f1, f2, f3)` are
`source[4k..4k+3]`, and leaves `source` (and everything but `dest[0..N)`)
unchanged. When `N = 65536`, `stage_2` returns for no amount of fuel. -/
theorem stage_2_butterfly [Field α] (N B : Nat) (hN : DATA_BITS N = some B) (fuel : Nat)
    (src dst : Buf) (hsd : src ≠ dst) (m : Mem α) :
    (N ≤ 32768 → N < fuel →
      ∃ m', stage_2 N fuel src dst m = some m' ∧
        (∀ k, k < N / 4 →
          m'.get dst (4 * k) = m.get src (4 * k) + m.get src (4 * k + 2) ∧
          m'.get dst (4 * k + 1) = m.get src (4 * k + 1) + m.get src (4 * k + 3) ∧
          m'.get dst (4 * k + 2) = m.get src (4 * k) - m.get src (4 * k + 2) ∧
          m'.get dst (4 * k + 3) = m.get src (4 * k + 1) - m.get src (4 * k + 3)) ∧
        m'.get src = m.get src ∧
        (∀ j, N ≤ j → m'.get dst j = m.get dst j) ∧
        m'.sinfunc = m.sinfunc ∧ m'.init = m.init) ∧
    (N = 65536 → stage_2 N fuel src dst m = none) := by
  constructor
  · intro h1 hf
    have hB := DATA_BITS_le_32768 hN h1
    obtain ⟨rfl, h3, h16⟩ := DATA_BITS_spec hN
    have hN4 : 2 ^ B = 4 * 2 ^ (B - 2) := by
      rw [show (4 : Nat) = 2 ^ 2 from rfl, ← pow_add]; congr 1; omega
    refine ⟨_, stage_2_eq (2 ^ B) fuel src dst m (by omega) (by omega) (by omega), ?_,
      Mem.get_set_ne m hsd _, ?_, Mem.sinfunc_set m _ _, Mem.init_set m _ _⟩
    · intro k hk
      simp only [Mem.get_set_same, show 4 * k < 2 ^ B from by omega,
        show 4 * k + 1 < 2 ^ B from by omega, show 4 * k + 2 < 2 ^ B from by omega,
        show 4 * k + 3 < 2 ^ B from by omega, if_true, stage2F,
        show (4 * k) % 4 < 2 from by omega, show (4 * k + 1) % 4 < 2 from by omega,
        show ¬ (4 * k + 2) % 4 < 2 from by omega, show ¬ (4 * k + 3) % 4 < 2 from by omega,
        if_false, Nat.add_sub_cancel, show 4 * k + 3 - 2 = 4 * k + 1 from by omega,
        show 4 * k + 1 + 2 = 4 * k + 3 from by omega]
      exact ⟨trivial, trivial, trivial, trivial⟩
    · intro j hj
      simp only [Mem.get_set_same, show ¬ j < 2 ^ B from by omega, if_false]
  · intro h
    subst h
    exact stage_2_65536 fuel src dst m

theorem stage_2_butterfly_witness :
    ∃ m', stage_2 8 9 Buf.pdaten Buf.work_buf
        ({ pdaten := fun i => (i : ℚ) * i, work_buf := fun _ => 0, sinfunc := fun _ => 0,
           init := 0 } : Mem ℚ) = some m' ∧
      (∀ k, k < 8 / 4 →
        m'.get Buf.work_buf (4 * k) =
          (((4 * k : ℕ) : ℚ) * ((4 * k : ℕ) : ℚ)) + (((4 * k + 2 : ℕ) : ℚ) * ((4 * k + 2 : ℕ) : ℚ)) ∧
        m'.get Buf.work_buf (4 * k + 1) =
          (((4 * k + 1 : ℕ) : ℚ) * ((4 * k + 1 : ℕ) : ℚ)) +
            (((4 * k + 3 : ℕ) : ℚ) * ((4 * k + 3 : ℕ) : ℚ)) ∧
        m'.get Buf.work_buf (4 * k + 2) =
          (((4 * k : ℕ) : ℚ) * ((4 * k : ℕ) : ℚ)) - (((4 * k + 2 : ℕ) : ℚ) * ((4 * k + 2 : ℕ) : ℚ)) ∧
        m'.get Buf.work_buf (4 * k + 3) =
          (((4 * k + 1 : ℕ) : ℚ) * ((4 * k + 1 : ℕ) : ℚ)) -
            (((4 * k + 3 : ℕ) : ℚ) * ((4 * k + 3 : ℕ) : ℚ))) ∧
      m'.get Buf.pdaten = (fun i : ℕ => (i : ℚ) * i) ∧
      (∀ j, 8 ≤ j → m'.get Buf.work_buf j = 0) ∧
      m'.sinfunc = (fun _ => 0) ∧ m'.init = 0 :=
  (stage_2_butterfly 8 3 (by decide) 9 Buf.pdaten Buf.work_buf (by decide)
    ({ pdaten := fun i => (i : ℚ) * i, work_buf := fun _ => 0, sinfunc := fun _ => 0,
       init := 0 } : Mem ℚ)).1 (by norm_num) (by norm_num)

theorem stage_x_65536 [Field α] (fuel : Nat) (src dst : Buf) (ist_x : Nat) (m : Mem α) :
    stage_x 65536 fuel src dst ist_x m = none := by
  unfold stage_x
  simp only
  split
  · rfl
  · rw [loop_diverges _ _ (fun s : StageSt α => s.NEL_cnt < 65536) _ fuel _ (by simp)]
    · rfl
    · intro s hs
      refine ⟨by simpa using hs, ?_⟩
      intro s' h
      simp only [Option.bind_eq_bind, Option.bind_eq_some] at h
      obtain ⟨_, -, h⟩ := h
      cases h
      exact u16_lt _

/-- C15. For every supported size `N`, distinct arrays and every stage
`3 ≤ s ≤ B`, with `block = 2^s`, `half = block/2`: when `N ≤ 32768`, the fuel
exceeds `N` and the sine table holds `sin(2πi/N)`, `stage_x(source, dest, s)`
returns and, for every block start `n = q·block < N`,
`dest[n] = source[n] + source[n+half]`, `dest[n+half] = source[n] - source[n+half]`,
and for `1 ≤ i < half` the table entries at `N/4 + i·(N/block)` and `i·(N/block)`
are `cos(2πi/block)` and `sin(2πi/block)`, and `dest[n+i] = source[n+i] + corr`,
`dest[n+half+i] = source[n+i] - corr` with
`corr = source[n+half+i]·cos(2πi/block) + source[n+block-i]·sin(2πi/block)`;
the source is unchanged. When `N = 65536`, `stage_x` returns for no amount of
fuel. -/
theorem stage_x_butterfly (N B : Nat) (hN : DATA_BITS N = some B) (fuel : Nat)
    (src dst : Buf) (hsd : src ≠ dst) (s : Nat) (h3 : 3 ≤ s) (hs : s ≤ B) (m : Mem ℝ) :
    (N ≤ 32768 → N < fuel →
      (∀ i, i < 3 * NEL_d4 N + 1 →
        m.sinfunc i = Real.sin (((i : ℝ) * (2 * Real.pi)) / (N : ℝ))) →
      ∃ m', stage_x N fuel src dst s m = some m' ∧ m'.get src = m.get src ∧
        ∀ q, q * 2 ^ s < N →
          m'.get dst (q * 2 ^ s) = m.get src (q * 2 ^ s) + m.get src (q * 2 ^ s + 2 ^ s / 2) ∧
          m'.get dst (q * 2 ^ s + 2 ^ s / 2) =
            m.get src (q * 2 ^ s) - m.get src (q * 2 ^ s + 2 ^ s / 2) ∧
          ∀ i, 1 ≤ i → i < 2 ^ s / 2 →
            m.sinfunc (N / 4 + i * (N / 2 ^ s)) =
              Real.cos (2 * Real.pi * (i : ℝ) / ((2 ^ s : ℕ) : ℝ)) ∧
            m.sinfunc (i * (N / 2 ^ s)) =
              Real.sin (2 * Real.pi * (i : ℝ) / ((2 ^ s : ℕ) : ℝ)) ∧
            m'.get dst (q * 2 ^ s + i) = m.get src (q * 2 ^ s + i) +
              (m.get src (q * 2 ^ s + 2 ^ s / 2 + i) *
                  Real.cos (2 * Real.pi * (i : ℝ) / ((2 ^ s : ℕ) : ℝ)) +
                m.get src (q * 2 ^ s + 2 ^ s - i) *
                  Real.sin (2 * Real.pi * (i : ℝ) / ((2 ^ s : ℕ) : ℝ))) ∧
            m'.get dst (q * 2 ^ s + 2 ^ s / 2 + i) = m.get src (q * 2 ^ s + i) -
              (m.get src (q * 2 ^ s + 2 ^ s / 2 + i) *
                  Real.cos (2 * Real.pi * (i : ℝ) / ((2 ^ s : ℕ) : ℝ)) +
                m.get src (q * 2 ^ s + 2 ^ s - i) *
                  Real.sin (2 * Real.pi * (i : ℝ) / ((2 ^ s : ℕ) : ℝ)))) ∧
    (N = 65536 → stage_x N fuel src dst s m = none) := by
  constructor
  · intro h1 hf htbl
    have hB := DATA_BITS_le_32768 hN h1
    obtain ⟨rfl, hB3, h16⟩ := DATA_BITS_spec hN
    have hLh : 2 ^ s = 2 * 2 ^ (s - 1) := by
      rw [← pow_succ']; congr 1; omega
    have hhalf : 2 ^ s / 2 = 2 ^ (s - 1) := by omega
    have hNL : 2 ^ B = 2 ^ (B - s) * 2 ^ s := by rw [← pow_add]; congr 1; omega
    have hhpos : 0 < 2 ^ (s - 1) := Nat.pow_pos (by norm_num)
    refine ⟨_, stage_x_eq B s fuel src dst m hsd (by omega) hs (by omega) hB hf,
      Mem.get_set_ne m hsd _, ?_⟩
    intro q hq
    have hqL : q * 2 ^ s + 2 ^ s ≤ 2 ^ B := by
      have hq' : q < 2 ^ (B - s) := by
        by_contra hc
        have := Nat.mul_le_mul_right (2 ^ s) (Nat.le_of_not_lt hc)
        omega
      have := Nat.mul_le_mul_right (2 ^ s) (show q + 1 ≤ 2 ^ (B - s) from hq')
      rw [Nat.succ_mul] at this
      omega
    rw [hhalf]
    set h := 2 ^ (s - 1) with hh
    have e0 := stageXF_lo (2 ^ B) m.sinfunc s (m.get src) q 0 h hLh hhpos
    have e1 := stageXF_hi (2 ^ B) m.sinfunc s (m.get src) q 0 h hLh hhpos
    simp only [Nat.add_zero, if_true] at e0 e1
    refine ⟨?_, ?_, ?_⟩
    · simp only [Mem.get_set_same, show q * 2 ^ s < 2 ^ B from hq, if_true]
      exact e0
    · simp only [Mem.get_set_same, show q * 2 ^ s + h < 2 ^ B from by omega, if_true]
      exact e1
    · intro i hi1 hi
      obtain ⟨hc, hsn⟩ := table_cos_sin B s h i m.sinfunc hs (by omega) hLh hi htbl
      have ei0 := stageXF_lo (2 ^ B) m.sinfunc s (m.get src) q i h hLh hi
      have ei1 := stageXF_hi (2 ^ B) m.sinfunc s (m.get src) q i h hLh hi
      rw [if_neg (by omega), hc, hsn] at ei0 ei1
      rw [← hLh] at hc hsn ei0 ei1
      refine ⟨hc, hsn, ?_, ?_⟩
      · simp only [Mem.get_set_same, show q * 2 ^ s + i < 2 ^ B from by omega, if_true]
        exact ei0
      · simp only [Mem.get_set_same, show q * 2 ^ s + h + i < 2 ^ B from by omega, if_true]
        exact ei1
  · intro h
    subst h
    exact stage_x_65536 fuel src dst s m

theorem stage_x_butterfly_witness :
    ∃ m', stage_x 8 9 Buf.work_buf Buf.pdaten 3
        ({ pdaten := fun _ => 0, work_buf := fun i => (i : ℝ),
           sinfunc := fun i => Real.sin (((i : ℝ) * (2 * Real.pi)) / ((8 : ℕ) : ℝ)),
           init := 1 } : Mem ℝ) = some m' ∧
      m'.get Buf.work_buf = (fun i : ℕ => (i : ℝ)) ∧
      ∀ q, q * 2 ^ 3 < 8 →
        m'.get Buf.pdaten (q * 2 ^ 3) =
          ((q * 2 ^ 3 : ℕ) : ℝ) + ((q * 2 ^ 3 + 2 ^ 3 / 2 : ℕ) : ℝ) ∧
        m'.get Buf.pdaten (q * 2 ^ 3 + 2 ^ 3 / 2) =
          ((q * 2 ^ 3 : ℕ) : ℝ) - ((q * 2 ^ 3 + 2 ^ 3 / 2 : ℕ) : ℝ) ∧
        ∀ i, 1 ≤ i → i < 2 ^ 3 / 2 →
          Real.sin ((((8 / 4 + i * (8 / 2 ^ 3) : ℕ) : ℝ) * (2 * Real.pi)) / ((8 : ℕ) : ℝ)) =
            Real.cos (2 * Real.pi * (i : ℝ) / ((2 ^ 3 : ℕ) : ℝ)) ∧
          Real.sin ((((i * (8 / 2 ^ 3) : ℕ) : ℝ) * (2 * Real.pi)) / ((8 : ℕ) : ℝ)) =
            Real.sin (2 * Real.pi * (i : ℝ) / ((2 ^ 3 : ℕ) : ℝ)) ∧
          m'.get Buf.pdaten (q * 2 ^ 3 + i) = ((q * 2 ^ 3 + i : ℕ) : ℝ) +
            (((q * 2 ^ 3 + 2 ^ 3 / 2 + i : ℕ) : ℝ) *
                Real.cos (2 * Real.pi * (i : ℝ) / ((2 ^ 3 : ℕ) : ℝ)) +
              ((q * 2 ^ 3 + 2 ^ 3 - i : ℕ) : ℝ) *
                Real.sin (2 * Real.pi * (i : ℝ) / ((2 ^ 3 : ℕ) : ℝ))) ∧
          m'.get Buf.pdaten (q * 2 ^ 3 + 2 ^ 3 / 2 + i) = ((q * 2 ^ 3 + i : ℕ) : ℝ) -
            (((q * 2 ^ 3 + 2 ^ 3 / 2 + i : ℕ) : ℝ) *
                Real.cos (2 * Real.pi * (i : ℝ) / ((2 ^ 3 : ℕ) : ℝ)) +
              ((q * 2 ^ 3 + 2 ^ 3 - i : ℕ) : ℝ) *
                Real.sin (2 * Real.pi * (i : ℝ) / ((2 ^ 3 : ℕ) : ℝ))) :=
  (stage_x_butterfly 8 3 (by decide) 9 Buf.work_buf Buf.pdaten (by decide) 3 (le_refl _)
    (le_refl _)
    ({ pdaten := fun _ => 0, work_buf := fun i => (i : ℝ),
       sinfunc := fun i => Real.sin (((i : ℝ) * (2 * Real.pi)) / ((8 : ℕ) : ℝ)),
       init := 1 } : Mem ℝ)).1 (by norm_num) (by norm_num) (fun _ _ => rfl)

/-- C19. For every supported size `N ≤ 32768` and every stage `3 ≤ s ≤ B`: the
sine-table indices `i·(N/2^s)` and `N/4 + i·(N/2^s)` of `stage_x`
(`1 ≤ i < 2^(s-1)`) are at most `N/4 + (2^(s-1) - 1)·(N/2^s)`, which is below
`3N/4`; the source and destination indices `n+i`, `n+half+i`, `n+block-i` of
every block are below `N`; an access outside an array is a trap (`none`) in the
model, and `stage_x` returns for every memory, so no access of `stage_x` leaves
its array; and every index `bit_reverse` computes is below `N`, and
`bit_reverse` returns. -/
theorem stage_x_index_safety [Field α] (N B : Nat) (hN : DATA_BITS N = some B)
    (h1 : N ≤ 32768) (s : Nat) (h3 : 3 ≤ s) (hs : s ≤ B) :
    (∀ i, 1 ≤ i → i < 2 ^ (s - 1) →
      i * (N / 2 ^ s) ≤ N / 4 + (2 ^ (s - 1) - 1) * (N / 2 ^ s) ∧
      N / 4 + i * (N / 2 ^ s) ≤ N / 4 + (2 ^ (s - 1) - 1) * (N / 2 ^ s)) ∧
    N / 4 + (2 ^ (s - 1) - 1) * (N / 2 ^ s) < 3 * N / 4 ∧
    3 * N / 4 < 3 * NEL_d4 N + 1 ∧
    (∀ q i, q * 2 ^ s < N → i < 2 ^ (s - 1) →
      q * 2 ^ s + i < N ∧ q * 2 ^ s + 2 ^ (s - 1) + i < N ∧
      (1 ≤ i → q * 2 ^ s + 2 ^ s - i < N)) ∧
    (∀ (m : Mem α) (b : Buf) (i : Nat), (m.rd N b i = none ↔ N ≤ i) ∧
      (m.rdsin N i = none ↔ 3 * NEL_d4 N + 1 ≤ i) ∧
      ∀ v, (m.wr N b i v = none ↔ N ≤ i)) ∧
    (∀ fuel, N < fuel → ∀ (src dst : Buf), src ≠ dst → ∀ m : Mem α,
      (stage_x N fuel src dst s m).isSome = true) ∧
    (∀ c, c < N → reverse_bits B c < N ∧
      ∀ fuel, B < fuel → reverse_index B fuel c = some (reverse_bits B c)) ∧
    (∀ fuel, N < fuel → ∀ (pfeld : Buf) (m : Mem α),
      (bit_reverse N B fuel pfeld m).isSome = true) := by
  have hB := DATA_BITS_le_32768 hN h1
  obtain ⟨rfl, hB3, h16⟩ := DATA_BITS_spec hN
  have hLh : 2 ^ s = 2 * 2 ^ (s - 1) := by
    rw [← pow_succ']; congr 1; omega
  have hNL : 2 ^ B = 2 ^ (B - s) * 2 ^ s := by rw [← pow_add]; congr 1; omega
  have hN4 : 2 ^ B = 4 * 2 ^ (B - 2) := by
    rw [show (4 : Nat) = 2 ^ 2 from rfl, ← pow_add]; congr 1; omega
  have hLpos : 0 < 2 ^ s := Nat.pow_pos (by norm_num)
  have hhpos : 0 < 2 ^ (s - 1) := Nat.pow_pos (by norm_num)
  have hcpos : 0 < 2 ^ (B - s) := Nat.pow_pos (by norm_num)
  have htri : 2 ^ B / 2 ^ s = 2 ^ (B - s) := by
    rw [hNL, Nat.mul_div_cancel _ hLpos]
  have hhalf : 2 * (2 ^ (s - 1) * 2 ^ (B - s)) = 2 ^ B := by
    rw [hNL, hLh]; ring
  have hN15 : 2 ^ B ≤ 2 ^ 15 := Nat.pow_le_pow_right (by norm_num) hB
  rw [htri]
  set h := 2 ^ (s - 1) with hh
  set c := 2 ^ (B - s) with hc
  have hmax : (h - 1) * c + c = h * c := by
    have : h - 1 + 1 = h := by omega
    calc (h - 1) * c + c = (h - 1 + 1) * c := by ring
      _ = h * c := by rw [this]
  refine ⟨?_, ?_, ?_, ?_, ?_, ?_, ?_, ?_⟩
  · intro i hi1 hi
    have : i * c ≤ (h - 1) * c := Nat.mul_le_mul_right c (by omega)
    omega
  · omega
  · simp only [NEL_d4]; omega
  · intro q i hq hi
    have hqL : q * 2 ^ s + 2 ^ s ≤ 2 ^ B := by
      have hq' : q < c := by
        by_contra hcon
        have := Nat.mul_le_mul_right (2 ^ s) (Nat.le_of_not_lt hcon)
        omega
      have := Nat.mul_le_mul_right (2 ^ s) (show q + 1 ≤ c from hq')
      rw [Nat.succ_mul] at this
      omega
    omega
  · intro m b i
    refine ⟨?_, ?_, ?_⟩
    · simp only [Mem.rd]; split <;> simp <;> omega
    · simp only [Mem.rdsin]; split <;> simp <;> omega
    · intro v
      simp only [Mem.wr]; split <;> simp <;> omega
  · intro fuel hf src dst hsd m
    rw [stage_x_eq B s fuel src dst m hsd (by omega) hs (by omega) hB hf]
    rfl
  · intro c' hc'
    refine ⟨reverse_bits_lt B c', ?_⟩
    intro fuel hf
    exact reverse_index_eq B fuel c' (by omega) (by omega) hf
  · intro fuel hf pfeld m
    rw [bit_reverse_eq B fuel pfeld m hB hf]
    rfl

theorem stage_x_index_safety_witness :
    (∀ i, 1 ≤ i → i < 2 ^ (3 - 1) →
      i * (8 / 2 ^ 3) ≤ 8 / 4 + (2 ^ (3 - 1) - 1) * (8 / 2 ^ 3) ∧
      8 / 4 + i * (8 / 2 ^ 3) ≤ 8 / 4 + (2 ^ (3 - 1) - 1) * (8 / 2 ^ 3)) ∧
    8 / 4 + (2 ^ (3 - 1) - 1) * (8 / 2 ^ 3) < 3 * 8 / 4 ∧
    3 * 8 / 4 < 3 * NEL_d4 8 + 1 ∧
    (∀ q i, q * 2 ^ 3 < 8 → i < 2 ^ (3 - 1) →
      q * 2 ^ 3 + i < 8 ∧ q * 2 ^ 3 + 2 ^ (3 - 1) + i < 8 ∧
      (1 ≤ i → q * 2 ^ 3 + 2 ^ 3 - i < 8)) ∧
    (∀ (m : Mem ℚ) (b : Buf) (i : Nat), (m.rd 8 b i = none ↔ 8 ≤ i) ∧
      (m.rdsin 8 i = none ↔ 3 * NEL_d4 8 + 1 ≤ i) ∧
      ∀ v, (m.wr 8 b i v = none ↔ 8 ≤ i)) ∧
    (∀ fuel, 8 < fuel → ∀ (src dst : Buf), src ≠ dst → ∀ m : Mem ℚ,
      (stage_x 8 fuel src dst 3 m).isSome = true) ∧
    (∀ c, c < 8 → reverse_bits 3 c < 8 ∧
      ∀ fuel, 3 < fuel → reverse_index 3 fuel c = some (reverse_bits 3 c)) ∧
    (∀ fuel, 8 < fuel → ∀ (pfeld : Buf) (m : Mem ℚ),
      (bit_reverse 8 3 fuel pfeld m).isSome = true) :=
  stage_x_index_safety 8 3 (by decide) (by norm_num) 3 (le_refl _) (le_refl _)

theorem last_stage_dest_eq (B fuel : Nat) (h3 : 3 ≤ B) (h16 : B ≤ 16) (hf : B < fuel) :
    last_stage_dest B fuel = some .pdaten := by
  let f : Nat → PtrSt := fun t =>
    { i := 3 + t, z0 := stageBuf B (t + 2), z1 := stageBuf B (t + 3),
      dest := stageBuf B (t + 2) }
  have h0 : ({ i := 3, z0 := if B &&& 1 ≠ 0 then Buf.work_buf else Buf.pdaten,
               z1 := if B &&& 1 ≠ 0 then Buf.pdaten else Buf.work_buf,
               dest := if B &&& 1 ≠ 0 then Buf.work_buf else Buf.pdaten } : PtrSt) = f 0 := by
    simp only [f, stageBuf, Nat.and_one_is_mod]
    by_cases hodd : B % 2 ≠ 0
    · rw [if_pos hodd, if_pos hodd, if_neg (show ¬ (B + (0 + 2)) % 2 = 0 from by omega),
        if_pos (show (B + (0 + 3)) % 2 = 0 from by omega)]
    · rw [if_neg hodd, if_neg hodd, if_pos (show (B + (0 + 2)) % 2 = 0 from by omega),
        if_neg (show ¬ (B + (0 + 3)) % 2 = 0 from by omega)]
  unfold last_stage_dest
  simp only
  rw [h0, loop_iterate _ _ f (B - 2) _ _ fuel (by omega)]
  · simp only [Option.map_some', f, stageBuf, show (B + (B - 2 + 2)) % 2 = 0 from by omega,
      if_true]
  · intro t ht
    refine ⟨by simp only [f, decide_eq_true_eq]; omega, ?_⟩
    simp only [f]
    rw [u8_of_lt (by omega), Option.some.injEq, PtrSt.mk.injEq]
    exact ⟨by omega, rfl, (stageBuf_add_two B (t + 2)).symm, rfl⟩
  · simp only [f, decide_eq_false_iff_not]; omega

theorem dfht_do_nonzero [Field α] (N B : Nat) (sin : α → α) (M_TWO_PI : α) (fuel : Nat)
    (m : Mem α) (d : Nat) (hd : d ≠ 0) :
    dfht_do N B sin M_TWO_PI fuel m d = dfht_cascade N B sin M_TWO_PI fuel m := by
  unfold dfht_do
  simp only [Option.bind_eq_bind, hd, if_false]
  cases dfht_cascade N B sin M_TWO_PI fuel m <;> rfl

/-- The cascade returns only for sizes up to 32768 and a fuel above `N`, and
then returns `cascadeMem`. -/
theorem dfht_cascade_some [Field α] (N B : Nat) (hN : DATA_BITS N = some B) (sin : α → α)
    (M_TWO_PI : α) (fuel : Nat) (m m4 : Mem α)
    (h : dfht_cascade N B sin M_TWO_PI fuel m = some m4) :
    N ≤ 32768 ∧ N < fuel ∧ B ≤ 15 ∧ m4 = cascadeMem N B sin M_TWO_PI m := by
  rw [← dfht_do_nonzero N B sin M_TWO_PI fuel m 1 (by decide)] at h
  obtain ⟨rfl, h3, h16⟩ := DATA_BITS_spec hN
  by_cases hB : B ≤ 15
  · have hN' : 2 ^ B ≤ 2 ^ 15 := Nat.pow_le_pow_right (by norm_num) hB
    by_cases hf : 2 ^ B < fuel
    · rw [dfht_do_eq B fuel sin M_TWO_PI m 1 h3 hB hf] at h
      simp only [show ¬ (1 = 0) from by decide, if_false, Option.some.injEq] at h
      exact ⟨by omega, hf, hB, h.symm⟩
    · rw [dfht_do_short _ B fuel sin M_TWO_PI m 1 (by omega) (by omega)] at h
      cases h
  · have : B = 16 := by omega
    subst this
    rw [show (2 : ℕ) ^ 16 = 65536 from by norm_num, dfht_do_65536] at h
    cases h

/-- The memory the cascade leaves is what the last stage call
`stage_x(work_buf, pdaten, B)` returns. -/
theorem cascadeMem_last_stage [Field α] (B fuel : Nat) (sin : α → α) (M_TWO_PI : α)
    (m : Mem α) (h3 : 3 ≤ B) (hB : B ≤ 15) (hf : 2 ^ B < fuel) :
    ∃ m3, stage_x (2 ^ B) fuel .work_buf .pdaten B m3 =
        some (cascadeMem (2 ^ B) B sin M_TWO_PI m) ∧
      m3.work_buf = (cascadeMem (2 ^ B) B sin M_TWO_PI m).work_buf := by
  obtain ⟨b, rfl⟩ : ∃ b, B = b + 3 := ⟨B - 3, by omega⟩
  set N := 2 ^ (b + 3) with hN
  set tbl := (initMem N sin M_TWO_PI m).sinfunc with htbl
  set A := bufAfter N (b + 3) tbl m.pdaten m.work_buf with hA
  refine ⟨{ pdaten := A (b + 1), work_buf := A (b + 2), sinfunc := tbl,
            init := (initMem N sin M_TWO_PI m).init }, ?_, rfl⟩
  rw [stage_x_eq (b + 3) (b + 3) fuel .work_buf .pdaten _ (by decide) (by omega) (le_refl _)
    (by omega) hB hf]
  simp only [Option.some.injEq, Mem.set, Mem.get, cascadeMem]
  congr 1
  funext j
  by_cases hj : j < N
  · simp only [hj, if_true, hA, bufAfter, stageF, show ¬ (b + 2 + 1 = 1) from by omega,
      show ¬ (b + 2 + 1 = 2) from by omega, if_false]
  · simp only [hj, if_false, hA]
    rw [bufAfter_ge _ _ _ _ _ _ _ (by omega), bufAfter_ge _ _ _ _ _ _ _ (by omega),
      if_pos (by omega), if_pos (by omega)]

/-- C12. For every supported size `N`, odd or even `B`: in the buffer toggling
of `dfht_do` the destination of the last butterfly stage is the caller's array
`pdaten`; whenever the cascade of `dfht_do` returns, the memory it returns is
what the stage call `stage_x(work_buf, pdaten, B)` returned, the analysis call
returns that memory with the `N` elements of `pdaten` divided by `N` and a
synthesis call returns it as it is; and the cascade returns whenever
`N ≤ 32768` and the fuel exceeds `N`. -/
theorem dfht_do_result_in_pdaten [Field α] (N B : Nat) (hN : DATA_BITS N = some B)
    (sin : α → α) (M_TWO_PI : α) (fuel : Nat) (m : Mem α) :
    (B < fuel → last_stage_dest B fuel = some Buf.pdaten) ∧
    (∀ m4, dfht_cascade N B sin M_TWO_PI fuel m = some m4 →
      (∃ m3, stage_x N fuel Buf.work_buf Buf.pdaten B m3 = some m4 ∧
        m3.work_buf = m4.work_buf) ∧
      dfht_do N B sin M_TWO_PI fuel m 0 =
        some { m4 with pdaten := fun j => if j < N then m4.pdaten j / (N : α)
                                           else m4.pdaten j } ∧
      ∀ d, d ≠ 0 → dfht_do N B sin M_TWO_PI fuel m d = some m4) ∧
    (N ≤ 32768 → N < fuel → (dfht_cascade N B sin M_TWO_PI fuel m).isSome = true) := by
  obtain ⟨hNB, h3, h16⟩ := DATA_BITS_spec hN
  refine ⟨fun hf => last_stage_dest_eq B fuel h3 h16 hf, ?_, ?_⟩
  · intro m4 h
    obtain ⟨h1, hf, hB, rfl⟩ := dfht_cascade_some N B hN sin M_TWO_PI fuel m m4 h
    subst hNB
    refine ⟨cascadeMem_last_stage B fuel sin M_TWO_PI m h3 hB hf, ?_, ?_⟩
    · rw [dfht_do_eq B fuel sin M_TWO_PI m 0 h3 hB hf]
      rfl
    · intro d hd
      rw [dfht_do_eq B fuel sin M_TWO_PI m d h3 hB hf, if_neg hd]
  · intro h1 hf
    have hB := DATA_BITS_le_32768 hN h1
    subst hNB
    rw [dfht_cascade_eq B fuel sin M_TWO_PI m h3 hB hf]
    rfl

theorem dfht_do_result_in_pdaten_witness :
    (3 < 9 → last_stage_dest 3 9 = some Buf.pdaten) ∧
    (∀ m4, dfht_cascade 8 3 (fun x : ℚ => x) 6 9
        { pdaten := fun t => (t : ℚ), work_buf := fun _ => 0, sinfunc := fun _ => 0, init := 0 }
        = some m4 →
      (∃ m3, stage_x 8 9 Buf.work_buf Buf.pdaten 3 m3 = some m4 ∧
        m3.work_buf = m4.work_buf) ∧
      dfht_do 8 3 (fun x : ℚ => x) 6 9
        { pdaten := fun t => (t : ℚ), work_buf := fun _ => 0, sinfunc := fun _ => 0, init := 0 }
        0 =
        some { m4 with pdaten := fun j => if j < 8 then m4.pdaten j / ((8 : ℕ) : ℚ)
                                           else m4.pdaten j } ∧
      ∀ d, d ≠ 0 → dfht_do 8 3 (fun x : ℚ => x) 6 9
        { pdaten := fun t => (t : ℚ), work_buf := fun _ => 0, sinfunc := fun _ => 0, init := 0 }
        d = some m4) ∧
    (8 ≤ 32768 → 8 < 9 → (dfht_cascade 8 3 (fun x : ℚ => x) 6 9
        { pdaten := fun t => (t : ℚ), work_buf := fun _ => 0, sinfunc := fun _ => 0, init := 0 }
        ).isSome = true) :=
  dfht_do_result_in_pdaten 8 3 (by decide) (fun x : ℚ => x) 6 9
    { pdaten := fun t => (t : ℚ), work_buf := fun _ => 0, sinfunc := fun _ => 0, init := 0 }

/-- Stage `s` reads its source only inside `[0, N)` and the table only inside
`[0, 3N/4]`. -/
theorem stageF_congr [Field α] (B s : Nat) (tbl tbl' a a' : Nat → α) (hs1 : 1 ≤ s)
    (hs : s ≤ B) (hB2 : 2 ≤ B)
    (ha : ∀ j, j < 2 ^ B → a j = a' j)
    (ht : ∀ i, i < 3 * NEL_d4 (2 ^ B) + 1 → tbl i = tbl' i) (j : Nat) (hj : j < 2 ^ B) :
    stageF (2 ^ B) tbl s a j = stageF (2 ^ B) tbl' s a' j := by
  have hN4 : 2 ^ B = 4 * 2 ^ (B - 2) := by
    rw [show (4 : Nat) = 2 ^ 2 from rfl, ← pow_add]; congr 1; omega
  by_cases h1 : s = 1
  · subst h1
    simp only [stageF, if_true, stage1F]
    by_cases hev : j % 2 = 0
    · rw [if_pos hev, if_pos hev, ha j hj, ha (j + 1) (by omega)]
    · rw [if_neg hev, if_neg hev, ha j hj, ha (j - 1) (by omega)]
  · by_cases h2 : s = 2
    · subst h2
      simp only [stageF, show ¬ (2 = 1) from by decide, if_false, if_true, stage2F]
      by_cases hlo : j % 4 < 2
      · rw [if_pos hlo, if_pos hlo, ha j hj, ha (j + 2) (by omega)]
      · rw [if_neg hlo, if_neg hlo, ha j hj, ha (j - 2) (by omega)]
    · simp only [stageF, h1, h2, if_false]
      have hLh : 2 ^ s = 2 * 2 ^ (s - 1) := by
        rw [← pow_succ']; congr 1; omega
      have hNL : 2 ^ B = 2 ^ (B - s) * 2 ^ s := by rw [← pow_add]; congr 1; omega
      have hLpos : 0 < 2 ^ s := Nat.pow_pos (by norm_num)
      have hhpos : 0 < 2 ^ (s - 1) := Nat.pow_pos (by norm_num)
      have hcpos : 0 < 2 ^ (B - s) := Nat.pow_pos (by norm_num)
      have h4pos : 0 < 2 ^ (B - 2) := Nat.pow_pos (by norm_num)
      have htri : 2 ^ B / 2 ^ s = 2 ^ (B - s) := by
        rw [hNL, Nat.mul_div_cancel _ hLpos]
      have hhalf : 2 * (2 ^ (s - 1) * 2 ^ (B - s)) = 2 ^ B := by
        rw [hNL, hLh]; ring
      set h := 2 ^ (s - 1) with hh
      set c := 2 ^ (B - s) with hc
      have hdm : 2 ^ s * (j / 2 ^ s) + j % 2 ^ s = j := Nat.div_add_mod j (2 ^ s)
      have hml : j % 2 ^ s < 2 ^ s := Nat.mod_lt _ hLpos
      have hq : j / 2 ^ s < c := by
        by_contra hcon
        have := Nat.mul_le_mul_left (2 ^ s) (Nat.le_of_not_lt hcon)
        rw [Nat.mul_comm (2 ^ s) c] at this
        omega
      have hqL : j / 2 ^ s * 2 ^ s + 2 ^ s ≤ 2 ^ B := by
        have := Nat.mul_le_mul_right (2 ^ s) (show j / 2 ^ s + 1 ≤ c from hq)
        rw [Nat.succ_mul] at this
        omega
      have htb : ∀ i, i < h → 2 ^ B / 4 + i * c < 3 * NEL_d4 (2 ^ B) + 1 ∧
          i * c < 3 * NEL_d4 (2 ^ B) + 1 := by
        intro i hi
        have : i * c + c ≤ h * c := by
          have := Nat.mul_le_mul_right c (show i + 1 ≤ h from hi)
          rw [Nat.succ_mul] at this; exact this
        have h4 : 2 ^ B / 4 = 2 ^ (B - 2) := by omega
        simp only [NEL_d4]
        rw [h4]
        omega
      by_cases hlo : j % 2 ^ s < h
      · have hjeq : j = j / 2 ^ s * 2 ^ s + j % 2 ^ s := by rw [Nat.mul_comm]; exact hdm.symm
        rw [hjeq, stageXF_lo (2 ^ B) tbl s a (j / 2 ^ s) (j % 2 ^ s) h hLh hlo,
          stageXF_lo (2 ^ B) tbl' s a' (j / 2 ^ s) (j % 2 ^ s) h hLh hlo, htri]
        by_cases hz : j % 2 ^ s = 0
        · rw [if_pos hz, if_pos hz, ha _ (by omega), ha (j / 2 ^ s * 2 ^ s + h) (by omega)]
        · rw [if_neg hz, if_neg hz, ha _ (by omega),
            ha (j / 2 ^ s * 2 ^ s + h + j % 2 ^ s) (by omega),
            ha (j / 2 ^ s * 2 ^ s + 2 ^ s - j % 2 ^ s) (by omega), ht _ (htb _ hlo).1,
            ht _ (htb _ hlo).2]
      · obtain ⟨i, hi⟩ : ∃ i, j % 2 ^ s = h + i := ⟨j % 2 ^ s - h, by omega⟩
        have hih : i < h := by omega
        have hjeq : j = j / 2 ^ s * 2 ^ s + h + i := by
          rw [Nat.add_assoc, ← hi, Nat.mul_comm]; exact hdm.symm
        rw [hjeq, stageXF_hi (2 ^ B) tbl s a (j / 2 ^ s) i h hLh hih,
          stageXF_hi (2 ^ B) tbl' s a' (j / 2 ^ s) i h hLh hih, htri]
        by_cases hz : i = 0
        · rw [if_pos hz, if_pos hz, ha (j / 2 ^ s * 2 ^ s + i) (by omega),
            ha (j / 2 ^ s * 2 ^ s + h) (by omega)]
        · rw [if_neg hz, if_neg hz, ha (j / 2 ^ s * 2 ^ s + i) (by omega),
            ha (j / 2 ^ s * 2 ^ s + h + i) (by omega),
            ha (j / 2 ^ s * 2 ^ s + 2 ^ s - i) (by omega), ht _ (htb _ hih).1,
            ht _ (htb _ hih).2]

/-- On `[0, N)` the contents of the working arrays after each stage depend
only on the input and on the table entries `[0, 3N/4]`, not on the previous
contents of `work_buf`. -/
theorem bufAfter_congr [Field α] (B : Nat) (tbl tbl' x w w' : Nat → α) (hB2 : 2 ≤ B)
    (ht : ∀ i, i < 3 * NEL_d4 (2 ^ B) + 1 → tbl i = tbl' i) :
    ∀ s, s ≤ B → ∀ j, j < 2 ^ B →
      bufAfter (2 ^ B) B tbl x w s j = bufAfter (2 ^ B) B tbl' x w' s j := by
  intro s
  induction s with
  | zero => intro _ j hj; simp only [bufAfter, hj, if_true]
  | succ s ih =>
    intro hs j hj
    simp only [bufAfter, hj, if_true]
    exact stageF_congr B (s + 1) tbl tbl' _ _ (by omega) hs hB2 (ih (by omega)) ht j hj

theorem initMem_table_valid [Field α] (N : Nat) (sin : α → α) (M_TWO_PI : α) (m : Mem α)
    (ht : TableValid N sin M_TWO_PI m) :
    ∀ i, i < 3 * NEL_d4 N + 1 →
      (initMem N sin M_TWO_PI m).sinfunc i = sin (((i : α) * M_TWO_PI) / (N : α)) := by
  intro i hi
  unfold initMem
  by_cases h : m.init ≠ 0
  · rw [if_pos h]; exact ht h i hi
  · rw [if_neg h]; simp only [hi, if_true]

/-- The caller's array after the cascade is a function of the caller's array
before it, whatever `work_buf` held and whether or not the table was there. -/
theorem cascadeMem_pdaten_congr [Field α] (B : Nat) (sin : α → α) (M_TWO_PI : α)
    (m1 m2 : Mem α) (hB2 : 2 ≤ B) (hx : m1.pdaten = m2.pdaten)
    (h1 : TableValid (2 ^ B) sin M_TWO_PI m1) (h2 : TableValid (2 ^ B) sin M_TWO_PI m2) :
    (cascadeMem (2 ^ B) B sin M_TWO_PI m1).pdaten =
      (cascadeMem (2 ^ B) B sin M_TWO_PI m2).pdaten := by
  funext j
  by_cases hj : j < 2 ^ B
  · simp only [cascadeMem, hx]
    apply bufAfter_congr B _ _ _ _ _ hB2 _ B (le_refl _) j hj
    intro i hi
    rw [initMem_table_valid _ sin M_TWO_PI m1 h1 i hi,
      initMem_table_valid _ sin M_TWO_PI m2 h2 i hi]
  · rw [cascadeMem_frame _ _ _ _ _ (by omega) j (by omega),
      cascadeMem_frame _ _ _ _ _ (by omega) j (by omega), hx]

/-- C13. For every supported size `N`, every direction `d`, every fuel and any
two memories that hold the same caller's array (the contents of `work_buf`,
the table flag `init` and the table may differ, as long as a set flag comes
with a filled table): `dfht_do` returns for the one exactly when it returns
for the other and then leaves the same caller's array; it returns whenever
`N ≤ 32768` and the fuel exceeds `N`. Moreover each stage overwrites the whole
of `dest[0..N)`: for two memories that agree on `src[0..N)` and on the table,
`stage_1`, `stage_2` and `stage_x` return and leave the same `dest[0..N)`,
whatever `dest` held before. -/
theorem dfht_do_scratch_independent [Field α] (N B : Nat) (hN : DATA_BITS N = some B)
    (sin : α → α) (M_TWO_PI : α) (fuel : Nat) (m1 m2 : Mem α)
    (hx : m1.pdaten = m2.pdaten)
    (h1 : TableValid N sin M_TWO_PI m1) (h2 : TableValid N sin M_TWO_PI m2) (d : Nat) :
    (dfht_do N B sin M_TWO_PI fuel m1 d).map (fun r => r.pdaten) =
      (dfht_do N B sin M_TWO_PI fuel m2 d).map (fun r => r.pdaten) ∧
    (N ≤ 32768 → N < fuel → (dfht_do N B sin M_TWO_PI fuel m1 d).isSome = true) ∧
    (N ≤ 32768 → N < fuel → ∀ (src dst : Buf) (ma mb : Mem α),
      (∀ j, j < N → ma.get src j = mb.get src j) →
      (∀ i, i < 3 * NEL_d4 N + 1 → ma.sinfunc i = mb.sinfunc i) →
      (∃ ra rb, stage_1 N fuel src dst ma = some ra ∧ stage_1 N fuel src dst mb = some rb ∧
        ∀ j, j < N → ra.get dst j = rb.get dst j) ∧
      (∃ ra rb, stage_2 N fuel src dst ma = some ra ∧ stage_2 N fuel src dst mb = some rb ∧
        ∀ j, j < N → ra.get dst j = rb.get dst j) ∧
      (src ≠ dst → ∀ s, 3 ≤ s → s ≤ B →
        ∃ ra rb, stage_x N fuel src dst s ma = some ra ∧
          stage_x N fuel src dst s mb = some rb ∧
          ∀ j, j < N → ra.get dst j = rb.get dst j)) := by
  obtain ⟨hNB, h3, h16⟩ := DATA_BITS_spec hN
  subst hNB
  refine ⟨?_, ?_, ?_⟩
  · by_cases hB : B ≤ 15
    · have hN' : 2 ^ B ≤ 2 ^ 15 := Nat.pow_le_pow_right (by norm_num) hB
      by_cases hf : 2 ^ B < fuel
      · rw [dfht_do_eq B fuel sin M_TWO_PI m1 d h3 hB hf,
          dfht_do_eq B fuel sin M_TWO_PI m2 d h3 hB hf]
        have hc := cascadeMem_pdaten_congr B sin M_TWO_PI m1 m2 (by omega) hx h1 h2
        simp only [Option.map_some', Option.some.injEq]
        by_cases hd : d = 0
        · rw [if_pos hd, if_pos hd]
          simp only [normMem, hc]
        · rw [if_neg hd, if_neg hd]
          exact hc
      · rw [dfht_do_short _ B fuel sin M_TWO_PI m1 d (by omega) (by omega),
          dfht_do_short _ B fuel sin M_TWO_PI m2 d (by omega) (by omega)]
    · have : B = 16 := by omega
      subst this
      rw [show (2 : ℕ) ^ 16 = 65536 from by norm_num, dfht_do_65536, dfht_do_65536]
  · intro hle hf
    have hB := DATA_BITS_le_32768 hN hle
    rw [dfht_do_eq B fuel sin M_TWO_PI m1 d h3 hB hf]
    rfl
  · intro hle hf src dst ma mb hsrc htab
    have hB := DATA_BITS_le_32768 hN hle
    have hN4 : 2 ^ B = 4 * 2 ^ (B - 2) := by
      rw [show (4 : Nat) = 2 ^ 2 from rfl, ← pow_add]; congr 1; omega
    refine ⟨⟨_, _, stage_1_eq _ fuel src dst ma (by omega) (by omega) (by omega),
        stage_1_eq _ fuel src dst mb (by omega) (by omega) (by omega), ?_⟩,
      ⟨_, _, stage_2_eq _ fuel src dst ma (by omega) (by omega) (by omega),
        stage_2_eq _ fuel src dst mb (by omega) (by omega) (by omega), ?_⟩, ?_⟩
    · intro j hj
      have h := stageF_congr B 1 ma.sinfunc mb.sinfunc _ _ (le_refl _) (by omega) (by omega)
        hsrc htab j hj
      simp only [stageF, if_true] at h
      simp only [Mem.get_set, if_true, hj, h]
    · intro j hj
      have h := stageF_congr B 2 ma.sinfunc mb.sinfunc _ _ (by omega) (by omega) (by omega)
        hsrc htab j hj
      simp only [stageF, show ¬ (2 = 1) from by decide, if_false, if_true] at h
      simp only [Mem.get_set, if_true, hj, h]
    · intro hsd s hs3 hsB
      refine ⟨_, _, stage_x_eq B s fuel src dst ma hsd (by omega) hsB (by omega) hB hf,
        stage_x_eq B s fuel src dst mb hsd (by omega) hsB (by omega) hB hf, ?_⟩
      intro j hj
      have h := stageF_congr B s ma.sinfunc mb.sinfunc _ _ (by omega) hsB (by omega)
        hsrc htab j hj
      simp only [stageF, show ¬ (s = 1) from by omega, show ¬ (s = 2) from by omega,
        if_false] at h
      simp only [Mem.get_set, if_true, hj, h]

theorem dfht_do_scratch_independent_witness :
    (dfht_do 8 3 (fun x : ℚ => x) 6 9
        { pdaten := fun t => (t : ℚ), work_buf := fun _ => 0, sinfunc := fun _ => 0, init := 0 }
        0).map (fun r => r.pdaten) =
      (dfht_do 8 3 (fun x : ℚ => x) 6 9
        { pdaten := fun t => (t : ℚ), work_buf := fun t => 5 + (t : ℚ),
          sinfunc := fun i => ((i : ℚ) * 6) / ((8 : ℕ) : ℚ), init := 1 }
        0).map (fun r => r.pdaten) :=
  (dfht_do_scratch_independent 8 3 (by decide) (fun x : ℚ => x) 6 9
    { pdaten := fun t => (t : ℚ), work_buf := fun _ => 0, sinfunc := fun _ => 0, init := 0 }
    { pdaten := fun t => (t : ℚ), work_buf := fun t => 5 + (t : ℚ),
      sinfunc := fun i => ((i : ℚ) * 6) / ((8 : ℕ) : ℚ), init := 1 }
    rfl (fun h => absurd rfl h) (fun _ _ _ => rfl) 0).1

/-- Each butterfly stage is a linear map of its source. -/
theorem stageF_linear [Field α] (N : Nat) (tbl : Nat → α) (s : Nat) (a b : α)
    (x y : Nat → α) (j : Nat) :
    stageF N tbl s (fun t => a * x t + b * y t) j =
      a * stageF N tbl s x j + b * stageF N tbl s y j := by
  unfold stageF
  by_cases h1 : s = 1
  · simp only [h1, if_true, stage1F]
    split <;> ring
  · by_cases h2 : s = 2
    · simp only [h2, show ¬ (2 = 1) from by decide, if_false, if_true, stage2F]
      split <;> ring
    · simp only [h1, h2, if_false, stageXF]
      by_cases hi : j % (2 ^ s / 2) = 0
      · simp only [hi, if_true]
        split <;> ring
      · simp only [hi, if_false]
        split <;> ring

/-- The working arrays after each stage are linear in the input on `[0, N)`. -/
theorem bufAfter_linear [Field α] (B : Nat) (tbl tx ty : Nat → α) (a b : α)
    (x y z w wx wy : Nat → α) (hB2 : 2 ≤ B)
    (hz : ∀ j, j < 2 ^ B → z j = a * x j + b * y j)
    (htx : ∀ i, i < 3 * NEL_d4 (2 ^ B) + 1 → tbl i = tx i)
    (hty : ∀ i, i < 3 * NEL_d4 (2 ^ B) + 1 → tbl i = ty i) :
    ∀ s, s ≤ B → ∀ j, j < 2 ^ B →
      bufAfter (2 ^ B) B tbl z w s j =
        a * bufAfter (2 ^ B) B tx x wx s j + b * bufAfter (2 ^ B) B ty y wy s j := by
  intro s
  induction s with
  | zero =>
    intro _ j hj
    simp only [bufAfter, hj, if_true]
    exact hz _ (reverse_bits_lt B j)
  | succ s ih =>
    intro hs j hj
    simp only [bufAfter, hj, if_true]
    rw [stageF_congr B (s + 1) tbl tbl _
      (fun t => a * bufAfter (2 ^ B) B tx x wx s t + b * bufAfter (2 ^ B) B ty y wy s t)
      (by omega) hs hB2 (ih (by omega)) (fun _ _ => rfl) j hj, stageF_linear]
    rw [stageF_congr B (s + 1) tbl tx _ _ (by omega) hs hB2 (fun _ _ => rfl) htx j hj,
      stageF_congr B (s + 1) tbl ty (bufAfter (2 ^ B) B ty y wy s) _ (by omega) hs hB2
        (fun _ _ => rfl) hty j hj]

/-- The cascade is linear on the `N` elements of the caller's array. -/
theorem cascadeMem_linear [Field α] (B : Nat) (sin : α → α) (M_TWO_PI : α)
    (mx my mz : Mem α) (a b : α) (hB2 : 2 ≤ B)
    (hz : ∀ j, j < 2 ^ B → mz.pdaten j = a * mx.pdaten j + b * my.pdaten j)
    (hx : TableValid (2 ^ B) sin M_TWO_PI mx) (hy : TableValid (2 ^ B) sin M_TWO_PI my)
    (hzt : TableValid (2 ^ B) sin M_TWO_PI mz) (j : Nat) (hj : j < 2 ^ B) :
    (cascadeMem (2 ^ B) B sin M_TWO_PI mz).pdaten j =
      a * (cascadeMem (2 ^ B) B sin M_TWO_PI mx).pdaten j +
        b * (cascadeMem (2 ^ B) B sin M_TWO_PI my).pdaten j := by
  simp only [cascadeMem]
  apply bufAfter_linear B _ _ _ a b _ _ _ _ _ _ hB2 hz _ _ B (le_refl _) j hj
  · intro i hi
    rw [initMem_table_valid _ sin M_TWO_PI mz hzt i hi,
      initMem_table_valid _ sin M_TWO_PI mx hx i hi]
  · intro i hi
    rw [initMem_table_valid _ sin M_TWO_PI mz hzt i hi,
      initMem_table_valid _ sin M_TWO_PI my hy i hi]

/-- C20. Linearity of `dfht_do`, for every supported size `N`, every direction
`d`, every fuel, all scalars `a`, `b` and three memories whose caller's arrays
hold `x`, `y` and `a*x + b*y` on `[0, N)` (over any field, in particular the
reals): the three calls return together, and when they return the caller's
array of the third holds `a * (result for x) + b * (result for y)` at every
index `j < N`; all three return whenever `N ≤ 32768` and the fuel exceeds
`N`. -/
theorem dfht_do_linear [Field α] (N B : Nat) (hN : DATA_BITS N = some B)
    (sin : α → α) (M_TWO_PI : α) (fuel : Nat) (mx my mz : Mem α) (a b : α)
    (hz : ∀ j, j < N → mz.pdaten j = a * mx.pdaten j + b * my.pdaten j)
    (hx : TableValid N sin M_TWO_PI mx) (hy : TableValid N sin M_TWO_PI my)
    (hzt : TableValid N sin M_TWO_PI mz) (d : Nat) :
    (∀ rx ry, dfht_do N B sin M_TWO_PI fuel mx d = some rx →
      dfht_do N B sin M_TWO_PI fuel my d = some ry →
      ∃ rz, dfht_do N B sin M_TWO_PI fuel mz d = some rz ∧
        ∀ j, j < N → rz.pdaten j = a * rx.pdaten j + b * ry.pdaten j) ∧
    (dfht_do N B sin M_TWO_PI fuel mz d).isSome =
      (dfht_do N B sin M_TWO_PI fuel mx d).isSome ∧
    (dfht_do N B sin M_TWO_PI fuel mz d).isSome =
      (dfht_do N B sin M_TWO_PI fuel my d).isSome ∧
    (N ≤ 32768 → N < fuel → (dfht_do N B sin M_TWO_PI fuel mx d).isSome = true ∧
      (dfht_do N B sin M_TWO_PI fuel my d).isSome = true ∧
      (dfht_do N B sin M_TWO_PI fuel mz d).isSome = true) := by
  obtain ⟨hNB, h3, h16⟩ := DATA_BITS_spec hN
  subst hNB
  by_cases hB : B ≤ 15
  · have hN' : 2 ^ B ≤ 2 ^ 15 := Nat.pow_le_pow_right (by norm_num) hB
    by_cases hf : 2 ^ B < fuel
    · rw [dfht_do_eq B fuel sin M_TWO_PI mx d h3 hB hf,
        dfht_do_eq B fuel sin M_TWO_PI my d h3 hB hf,
        dfht_do_eq B fuel sin M_TWO_PI mz d h3 hB hf]
      refine ⟨?_, rfl, rfl, fun _ _ => ⟨rfl, rfl, rfl⟩⟩
      intro rx ry hrx hry
      cases hrx
      cases hry
      refine ⟨_, rfl, ?_⟩
      intro j hj
      have hc := cascadeMem_linear B sin M_TWO_PI mx my mz a b (by omega) hz hx hy hzt j hj
      by_cases hd : d = 0
      · simp only [hd, if_true, normMem, hj, hc]
        ring
      · simp only [hd, if_false]
        exact hc
    · rw [dfht_do_short _ B fuel sin M_TWO_PI mx d (by omega) (by omega),
        dfht_do_short _ B fuel sin M_TWO_PI my d (by omega) (by omega),
        dfht_do_short _ B fuel sin M_TWO_PI mz d (by omega) (by omega)]
      refine ⟨?_, rfl, rfl, fun _ h => absurd h hf⟩
      intro rx ry hrx
      cases hrx
  · have : B = 16 := by omega
    subst this
    rw [show (2 : ℕ) ^ 16 = 65536 from by norm_num, dfht_do_65536, dfht_do_65536,
      dfht_do_65536]
    refine ⟨?_, rfl, rfl, fun h => absurd h (by norm_num)⟩
    intro rx ry hrx
    cases hrx

theorem dfht_do_linear_witness :
    (∀ rx ry,
      dfht_do 8 3 Real.sin (2 * Real.pi) 9
        { pdaten := fun t => (t : ℝ), work_buf := fun _ => 0, sinfunc := fun _ => 0,
          init := 0 } 0 = some rx →
      dfht_do 8 3 Real.sin (2 * Real.pi) 9
        { pdaten := fun t => (t : ℝ) * (t : ℝ), work_buf := fun _ => 0, sinfunc := fun _ => 0,
          init := 0 } 0 = some ry →
      ∃ rz, dfht_do 8 3 Real.sin (2 * Real.pi) 9
        { pdaten := fun t => 2 * (t : ℝ) + 3 * ((t : ℝ) * (t : ℝ)), work_buf := fun _ => 1,
          sinfunc := fun _ => 0, init := 0 } 0 = some rz ∧
        ∀ j, j < 8 → rz.pdaten j = 2 * rx.pdaten j + 3 * ry.pdaten j) ∧
    (8 ≤ 32768 → 8 < 9 →
      (dfht_do 8 3 Real.sin (2 * Real.pi) 9
        { pdaten := fun t => (t : ℝ), work_buf := fun _ => 0, sinfunc := fun _ => 0,
          init := 0 } 0).isSome = true ∧
      (dfht_do 8 3 Real.sin (2 * Real.pi) 9
        { pdaten := fun t => (t : ℝ) * (t : ℝ), work_buf := fun _ => 0, sinfunc := fun _ => 0,
          init := 0 } 0).isSome = true ∧
      (dfht_do 8 3 Real.sin (2 * Real.pi) 9
        { pdaten := fun t => 2 * (t : ℝ) + 3 * ((t : ℝ) * (t : ℝ)), work_buf := fun _ => 1,
          sinfunc := fun _ => 0, init := 0 } 0).isSome = true) :=
  ⟨(dfht_do_linear 8 3 (by decide) Real.sin (2 * Real.pi) 9
      { pdaten := fun t => (t : ℝ), work_buf := fun _ => 0, sinfunc := fun _ => 0, init := 0 }
      { pdaten := fun t => (t : ℝ) * (t : ℝ), work_buf := fun _ => 0, sinfunc := fun _ => 0,
        init := 0 }
      { pdaten := fun t => 2 * (t : ℝ) + 3 * ((t : ℝ) * (t : ℝ)), work_buf := fun _ => 1,
        sinfunc := fun _ => 0, init := 0 }
      2 3 (fun _ _ => rfl) (fun h => absurd rfl h) (fun h => absurd rfl h)
      (fun h => absurd rfl h) 0).1,
   (dfht_do_linear 8 3 (by decide) Real.sin (2 * Real.pi) 9
      { pdaten := fun t => (t : ℝ), work_buf := fun _ => 0, sinfunc := fun _ => 0, init := 0 }
      { pdaten := fun t => (t : ℝ) * (t : ℝ), work_buf := fun _ => 0, sinfunc := fun _ => 0,
        init := 0 }
      { pdaten := fun t => 2 * (t : ℝ) + 3 * ((t : ℝ) * (t : ℝ)), work_buf := fun _ => 1,
        sinfunc := fun _ => 0, init := 0 }
      2 3 (fun _ _ => rfl) (fun h => absurd rfl h) (fun h => absurd rfl h)
      (fun h => absurd rfl h) 0).2.2.2⟩

/-- The slow synthesis loop returns the sum of its `N/2 + 1` terms. -/
theorem slow_synthesis_eq [Field α] (N : Nat) (cos sin : α → α) (M_TWO_PI : α) (fuel : Nat)
    (daten : Nat → α) (n : Nat) (h2 : 2 ≤ N) (hN : N ≤ 65536) (hf : N / 2 + 1 < fuel) :
    slow_synthesis N cos sin M_TWO_PI fuel daten n =
      some (∑ i in Finset.range (N / 2 + 1),
        (k_cos N daten i * cos ((((n : α) * M_TWO_PI) * (i : α)) / (N : α)) +
          k_sin N daten i * sin ((((n : α) * M_TWO_PI) * (i : α)) / (N : α)))) := by
  let f : Nat → SlowSt α := fun k =>
    { i := k, sum := ∑ i in Finset.range k,
        (k_cos N daten i * cos ((((n : α) * M_TWO_PI) * (i : α)) / (N : α)) +
          k_sin N daten i * sin ((((n : α) * M_TWO_PI) * (i : α)) / (N : α))) }
  have h0 : ({ i := 0, sum := 0 } : SlowSt α) = f 0 := by
    simp only [f, Finset.range_zero, Finset.sum_empty]
  unfold slow_synthesis
  dsimp only
  rw [h0, loop_iterate _ _ f (N / 2 + 1) _ _ fuel hf]
  · rfl
  · intro k hk
    refine ⟨by simp only [f, decide_eq_true_eq]; omega, ?_⟩
    simp only [f]
    rw [u16_of_lt (by omega), Finset.sum_range_succ]
    by_cases hh : k = N / 2
    · have : N / 2 < N := by omega
      simp only [hh, this, if_true, Option.map_some', Option.bind_eq_bind, Option.some_bind,
        k_cos, k_sin]
    · by_cases hz : k = 0
      · simp only [hh, hz, show 0 < N from by omega, if_true, if_false, Option.map_some',
          Option.bind_eq_bind, Option.some_bind, k_cos, k_sin, ne_eq, not_true_eq_false,
          show ¬ (0 = N / 2) from by omega]
      · have h1 : k < N := by omega
        have h3 : N - k < N := by omega
        simp only [hh, hz, h1, h3, if_true, if_false, Option.map_some',
          Option.bind_eq_bind, Option.some_bind, k_cos, k_sin, ne_eq, not_false_eq_true]
  · simp only [f, decide_eq_false_iff_not]; omega

/-- A sum over `[0, 2K+2)` folded around its middle: the terms `0` and `K+1`
alone, every other `i` together with `2K+2-i`. -/
theorem sum_range_fold (f : Nat → ℝ) (K : Nat) :
    ∑ v in Finset.range (2 * K + 2), f v =
      f 0 + f (K + 1) + ∑ i in Finset.range K, (f (i + 1) + f (2 * K + 2 - (i + 1))) := by
  have h1 : ∑ v in Finset.range (2 * K + 2), f v =
      ∑ v in Finset.range (K + 1), f v + ∑ v in Finset.range (K + 1), f (K + 1 + v) := by
    rw [show 2 * K + 2 = (K + 1) + (K + 1) from by ring, Finset.sum_range_add]
  have h2 : ∑ i in Finset.range K, f (K + 1 + (i + 1)) =
      ∑ i in Finset.range K, f (2 * K + 2 - (i + 1)) := by
    rw [← Finset.sum_range_reflect (fun i => f (K + 1 + (i + 1))) K]
    apply Finset.sum_congr rfl
    intro i hi
    have := Finset.mem_range.mp hi
    congr 1
    omega
  rw [h1, Finset.sum_range_succ' (fun v => f v), Finset.sum_range_succ' (fun v => f (K + 1 + v)),
    h2, Finset.sum_add_distrib]
  simp only [Nat.add_zero]
  ring

/-- The slow synthesis sum over the Fourier coefficients is the Hartley sum of
the Hartley coefficients. -/
theorem slow_sum_eq_hartley (K : Nat) (H : Nat → ℝ) (n : Nat) :
    ∑ i in Finset.range ((2 * K + 2) / 2 + 1),
        (k_cos (2 * K + 2) H i *
            Real.cos ((((n : ℝ) * (2 * Real.pi)) * (i : ℝ)) / ((2 * K + 2 : ℕ) : ℝ)) +
          k_sin (2 * K + 2) H i *
            Real.sin ((((n : ℝ) * (2 * Real.pi)) * (i : ℝ)) / ((2 * K + 2 : ℕ) : ℝ))) =
      hartley Real.cos Real.sin (2 * Real.pi) (2 * K + 2) H n := by
  have hd : (2 * K + 2) / 2 = K + 1 := by omega
  have hNne : (((2 * K + 2 : ℕ) : ℝ)) ≠ 0 := by
    exact_mod_cast (show 2 * K + 2 ≠ 0 by omega)
  unfold hartley
  rw [sum_range_fold, hd, Finset.sum_range_succ', Finset.sum_range_succ]
  have e0 : k_cos (2 * K + 2) H 0 *
        Real.cos ((((n : ℝ) * (2 * Real.pi)) * ((0 : ℕ) : ℝ)) / ((2 * K + 2 : ℕ) : ℝ)) +
      k_sin (2 * K + 2) H 0 *
        Real.sin ((((n : ℝ) * (2 * Real.pi)) * ((0 : ℕ) : ℝ)) / ((2 * K + 2 : ℕ) : ℝ)) =
      H 0 * (Real.cos (2 * Real.pi * (n : ℝ) * ((0 : ℕ) : ℝ) / ((2 * K + 2 : ℕ) : ℝ)) +
        Real.sin (2 * Real.pi * (n : ℝ) * ((0 : ℕ) : ℝ) / ((2 * K + 2 : ℕ) : ℝ))) := by
    simp only [k_cos, k_sin, hd, show ¬ (0 = K + 1) from by omega, if_false, ne_eq,
      not_true_eq_false, Nat.cast_zero, mul_zero, zero_div, Real.cos_zero, Real.sin_zero,
      zero_mul, add_zero]
  have eM : k_cos (2 * K + 2) H (K + 1) *
        Real.cos ((((n : ℝ) * (2 * Real.pi)) * ((K + 1 : ℕ) : ℝ)) / ((2 * K + 2 : ℕ) : ℝ)) +
      k_sin (2 * K + 2) H (K + 1) *
        Real.sin ((((n : ℝ) * (2 * Real.pi)) * ((K + 1 : ℕ) : ℝ)) / ((2 * K + 2 : ℕ) : ℝ)) =
      H (K + 1) *
        (Real.cos (2 * Real.pi * (n : ℝ) * ((K + 1 : ℕ) : ℝ) / ((2 * K + 2 : ℕ) : ℝ)) +
        Real.sin (2 * Real.pi * (n : ℝ) * ((K + 1 : ℕ) : ℝ) / ((2 * K + 2 : ℕ) : ℝ))) := by
    have hang : 2 * Real.pi * (n : ℝ) * ((K + 1 : ℕ) : ℝ) / ((2 * K + 2 : ℕ) : ℝ) =
        (n : ℝ) * Real.pi := by
      field_simp
      ring
    have hang' : (((n : ℝ) * (2 * Real.pi)) * ((K + 1 : ℕ) : ℝ)) / ((2 * K + 2 : ℕ) : ℝ) =
        (n : ℝ) * Real.pi := by
      rw [← hang]; ring
    simp only [k_cos, k_sin, hd, if_true, hang, hang', Real.sin_nat_mul_pi, zero_mul, add_zero]
  have eI : ∀ i ∈ Finset.range K,
      k_cos (2 * K + 2) H (i + 1) *
        Real.cos ((((n : ℝ) * (2 * Real.pi)) * ((i + 1 : ℕ) : ℝ)) / ((2 * K + 2 : ℕ) : ℝ)) +
      k_sin (2 * K + 2) H (i + 1) *
        Real.sin ((((n : ℝ) * (2 * Real.pi)) * ((i + 1 : ℕ) : ℝ)) / ((2 * K + 2 : ℕ) : ℝ)) =
      H (i + 1) *
        (Real.cos (2 * Real.pi * (n : ℝ) * ((i + 1 : ℕ) : ℝ) / ((2 * K + 2 : ℕ) : ℝ)) +
        Real.sin (2 * Real.pi * (n : ℝ) * ((i + 1 : ℕ) : ℝ) / ((2 * K + 2 : ℕ) : ℝ))) +
      H (2 * K + 2 - (i + 1)) *
        (Real.cos (2 * Real.pi * (n : ℝ) * ((2 * K + 2 - (i + 1) : ℕ) : ℝ) /
            ((2 * K + 2 : ℕ) : ℝ)) +
        Real.sin (2 * Real.pi * (n : ℝ) * ((2 * K + 2 - (i + 1) : ℕ) : ℝ) /
            ((2 * K + 2 : ℕ) : ℝ))) := by
    intro i hi
    have hiK := Finset.mem_range.mp hi
    have hang : 2 * Real.pi * (n : ℝ) * ((2 * K + 2 - (i + 1) : ℕ) : ℝ) /
          ((2 * K + 2 : ℕ) : ℝ) =
        (n : ℝ) * (2 * Real.pi) -
          2 * Real.pi * (n : ℝ) * ((i + 1 : ℕ) : ℝ) / ((2 * K + 2 : ℕ) : ℝ) := by
      rw [Nat.cast_sub (by omega)]
      field_simp
      ring
    have hang' : (((n : ℝ) * (2 * Real.pi)) * ((i + 1 : ℕ) : ℝ)) / ((2 * K + 2 : ℕ) : ℝ) =
        2 * Real.pi * (n : ℝ) * ((i + 1 : ℕ) : ℝ) / ((2 * K + 2 : ℕ) : ℝ) := by ring
    rw [hang, hang', Real.cos_nat_mul_two_pi_sub, Real.sin_nat_mul_two_pi_sub]
    simp only [k_cos, k_sin, hd, show ¬ (i + 1 = K + 1) from by omega, if_false, ne_eq,
      show ¬ (i + 1 = 0) from by omega, not_false_eq_true, if_true]
    ring
  rw [e0, eM, Finset.sum_congr rfl eI]
  ring

/-- C14. The Hartley-to-Fourier mapping of the demo's slow synthesis, for every
supported size `N` (the demo compiles the block for `N ≤ 64`), over the reals:
whenever `dfht_do(x, 0)` returns the coefficients `H`, then for every
`n < N` the sum over `i = 0..N/2` of
`k_cos(i)*cos(2πni/N) + k_sin(i)*sin(2πni/N)` equals `x[n]`, where
`k_cos(0) = H[0]`, `k_sin(0) = 0`, `k_cos(N/2) = H[N/2]`, `k_sin(N/2) = 0` and
`k_cos(i) = H[i] + H[N-i]`, `k_sin(i) = H[i] - H[N-i]` for `0 < i < N/2`; the
loop of the demo returns exactly that sum, hence `x[n]` (delta zero), for any
fuel above `N/2 + 1`; and `dfht_do(x, 0)` returns whenever `N ≤ 32768` and the
fuel exceeds `N`. -/
theorem slow_synthesis_recovers_input (N B : Nat) (hN : DATA_BITS N = some B) (fuel : Nat)
    (m : Mem ℝ) (ht : TableReady N m) :
    (∀ H, dfht_do N B Real.sin (2 * Real.pi) fuel m 0 = some H → ∀ n, n < N →
      ∑ i in Finset.range (N / 2 + 1),
        (k_cos N H.pdaten i * Real.cos (2 * Real.pi * n * i / N) +
          k_sin N H.pdaten i * Real.sin (2 * Real.pi * n * i / N)) = m.pdaten n ∧
      (k_cos N H.pdaten 0 = H.pdaten 0 ∧ k_sin N H.pdaten 0 = 0 ∧
        k_cos N H.pdaten (N / 2) = H.pdaten (N / 2) ∧ k_sin N H.pdaten (N / 2) = 0 ∧
        ∀ i, 0 < i → i < N / 2 →
          k_cos N H.pdaten i = H.pdaten i + H.pdaten (N - i) ∧
          k_sin N H.pdaten i = H.pdaten i - H.pdaten (N - i)) ∧
      ∀ fuel', N / 2 + 1 < fuel' →
        slow_synthesis N Real.cos Real.sin (2 * Real.pi) fuel' H.pdaten n =
          some (m.pdaten n)) ∧
    (N ≤ 32768 → N < fuel →
      (dfht_do N B Real.sin (2 * Real.pi) fuel m 0).isSome = true) := by
  obtain ⟨hNB, h3, h16⟩ := DATA_BITS_spec hN
  obtain ⟨h8, h65⟩ := DATA_BITS_bounds hN
  subst hNB
  refine ⟨?_, ?_⟩
  · intro H hH n hn
    have hB : B ≤ 15 := by
      by_contra hc
      have : B = 16 := by omega
      subst this
      rw [show (2 : ℕ) ^ 16 = 65536 from by norm_num, dfht_do_65536] at hH
      cases hH
    have hN' : 2 ^ B ≤ 2 ^ 15 := Nat.pow_le_pow_right (by norm_num) hB
    have hf : 2 ^ B < fuel := by
      by_contra hc
      rw [dfht_do_short _ B fuel Real.sin (2 * Real.pi) m 0 (by omega) (by omega)] at hH
      cases hH
    rw [dfht_do_eq B fuel Real.sin (2 * Real.pi) m 0 h3 hB hf] at hH
    simp only [if_true, Option.some.injEq] at hH
    subst hH
    have hcoef : ∀ v, v < 2 ^ B →
        (normMem (2 ^ B) (cascadeMem (2 ^ B) B Real.sin (2 * Real.pi) m)).pdaten v =
          hartley Real.cos Real.sin (2 * Real.pi) (2 ^ B) m.pdaten v / ((2 ^ B : ℕ) : ℝ) := by
      intro v hv
      simp only [normMem, hv, if_true]
      rw [cascadeMem_hartley B m (by omega) ht v hv]
    have hinv := hartley_inverse (2 ^ B) (by omega) m.pdaten _ n hn hcoef
    obtain ⟨K, hK⟩ : ∃ K, 2 ^ B = 2 * K + 2 := by
      have h4 : 2 ^ B = 4 * 2 ^ (B - 2) := by
        rw [show (4 : Nat) = 2 ^ 2 from rfl, ← pow_add]; congr 1; omega
      exact ⟨2 ^ B / 2 - 1, by omega⟩
    have hsum : ∑ i in Finset.range (2 ^ B / 2 + 1),
        (k_cos (2 ^ B) (normMem (2 ^ B) (cascadeMem (2 ^ B) B Real.sin (2 * Real.pi) m)).pdaten i *
            Real.cos ((((n : ℝ) * (2 * Real.pi)) * (i : ℝ)) / ((2 ^ B : ℕ) : ℝ)) +
          k_sin (2 ^ B) (normMem (2 ^ B) (cascadeMem (2 ^ B) B Real.sin (2 * Real.pi) m)).pdaten i *
            Real.sin ((((n : ℝ) * (2 * Real.pi)) * (i : ℝ)) / ((2 ^ B : ℕ) : ℝ))) =
        m.pdaten n := by
      rw [← hinv, hK]
      exact slow_sum_eq_hartley K _ n
    refine ⟨?_, ⟨?_, ?_, ?_, ?_, ?_⟩, ?_⟩
    · rw [← hsum]
      apply Finset.sum_congr rfl
      intro i _
      rw [show 2 * Real.pi * (n : ℝ) * (i : ℝ) / ((2 ^ B : ℕ) : ℝ) =
        (((n : ℝ) * (2 * Real.pi)) * (i : ℝ)) / ((2 ^ B : ℕ) : ℝ) from by ring]
    · simp only [k_cos, show ¬ (0 = 2 ^ B / 2) from by omega, if_false, ne_eq,
        not_true_eq_false]
    · simp only [k_sin, show ¬ (0 = 2 ^ B / 2) from by omega, if_false, ne_eq,
        not_true_eq_false]
    · simp only [k_cos, if_true]
    · simp only [k_sin, if_true]
    · intro i hi0 hi
      simp only [k_cos, k_sin, show ¬ (i = 2 ^ B / 2) from by omega, if_false, ne_eq,
        show ¬ (i = 0) from by omega, not_false_eq_true, if_true, and_self]
    · intro fuel' hf'
      rw [slow_synthesis_eq (2 ^ B) Real.cos Real.sin (2 * Real.pi) fuel' _ n (by omega)
        (by omega) hf', hsum]
  · intro hle hf
    have hB := DATA_BITS_le_32768 hN hle
    rw [dfht_do_eq B fuel Real.sin (2 * Real.pi) m 0 h3 hB hf]
    rfl

theorem slow_synthesis_recovers_input_witness :
    (∀ H, dfht_do 8 3 Real.sin (2 * Real.pi) 9
        { pdaten := fun t => (t : ℝ), work_buf := fun _ => 0, sinfunc := fun _ => 0,
          init := 0 } 0 = some H →
      ∀ n, n < 8 → ∀ fuel', 8 / 2 + 1 < fuel' →
        slow_synthesis 8 Real.cos Real.sin (2 * Real.pi) fuel' H.pdaten n =
          some ((n : ℕ) : ℝ)) ∧
    (dfht_do 8 3 Real.sin (2 * Real.pi) 9
        { pdaten := fun t => (t : ℝ), work_buf := fun _ => 0, sinfunc := fun _ => 0,
          init := 0 } 0).isSome = true :=
  ⟨fun H hH n hn =>
      ((slow_synthesis_recovers_input 8 3 (by decide) 9
        { pdaten := fun t => (t : ℝ), work_buf := fun _ => 0, sinfunc := fun _ => 0,
          init := 0 } (fun h => absurd rfl h)).1 H hH n hn).2.2,
    (slow_synthesis_recovers_input 8 3 (by decide) 9
        { pdaten := fun t => (t : ℝ), work_buf := fun _ => 0, sinfunc := fun _ => 0,
          init := 0 } (fun h => absurd rfl h)).2 (by norm_num) (by norm_num)⟩

end DFHT
